import Mathlib

/-!
# A verification development for `bimap`

The repository implements a bidirectional map on top of an intrusive AVL-style
tree (`intrusive_set_element.h`, `intrusive_set.h`, `bimap.h`).

## Embedding

The C++ code links heap nodes with `left`, `right` and `parent` pointers.  The
embedding keeps, for every tree, the link structure that hangs below the root
slot of the sentinel (`fake->left`):

* `intrusive_set_element α` is a nullable pointer to a link element together with
  everything reachable from it through `left`/`right`.  Each node records the
  identity `self : α` of the element and the value of its `height` field, which
  is carried exactly as the code writes it (it is *not* recomputed).
* `parent` pointers are the inverse of the child links (every `set_left` /
  `set_right` of the source re-establishes them through `set_parent`).  Code that
  walks `parent` pointers is embedded over the chain of `parent_link`s from a
  node up to the root, obtained with `locate`.
* `swap` is the one operation that moves a root below another sentinel.  For it
  the address of each sentinel and the `parent` field of each root are explicit
  (`linked_set`, `linked_bimap`), and `set_left` on the sentinel writes that
  field as the source does.
* `node_ptr α` is a position held by an iterator: `null`, the sentinel `fake`, or
  the element `elem a`.
* A `node_t` of the bimap is immutable apart from its links, so it is identified
  with the pair of keys it owns; both trees of a bimap hold the same `node_t`
  values, which is how the two base sub-objects of one allocation are shared.
* Keys are values.  The one place where the source reads a key object again after
  it may have been moved from is `template_insert`; the value seen by that read
  is an explicit argument there.
* `m_size` is a `std::size_t` that counts live allocations, so it stays far
  below `2^64`; it is a `Nat` here.
* Operations that are undefined in the source (following a null pointer, erasing
  through the end iterator) are given a plain total result; the theorems stay
  within the preconditions of the source.
-/

namespace implementation

/-- A nullable pointer to a link element of one tree, together with the
elements reachable from it through `left` and `right` links. -/
inductive intrusive_set_element (α : Type) where
  | null : intrusive_set_element α
  | node (left : intrusive_set_element α) (self : α) (height : Nat)
      (right : intrusive_set_element α) : intrusive_set_element α
deriving DecidableEq, Repr

/-- A position as stored in an iterator (`m_node`): the null pointer, the
sentinel of the tree, or a real element. -/
inductive node_ptr (α : Type) where
  | null : node_ptr α
  | fake : node_ptr α
  | elem (a : α) : node_ptr α
deriving DecidableEq, Repr

/-- One step of the `parent` chain above a node: the parent element, its stored
height, whether the node below is its right child, and its other child. -/
structure parent_link (α : Type) where
  is_right : Bool
  parent : α
  height : Nat
  sibling : intrusive_set_element α
deriving DecidableEq, Repr

namespace intrusive_set_element

variable {α : Type}

/-- Whether the pointer is `nullptr`. -/
def is_null : intrusive_set_element α → Bool
  | null => true
  | node _ _ _ _ => false

/-- The `left` field (of a non-null element). -/
def left : intrusive_set_element α → intrusive_set_element α
  | null => null
  | node l _ _ _ => l

/-- The `right` field (of a non-null element). -/
def right : intrusive_set_element α → intrusive_set_element α
  | null => null
  | node _ _ _ r => r

/-- The pointer value itself, forgetting what it points to. -/
def ptr : intrusive_set_element α → node_ptr α
  | null => node_ptr.null
  | node _ a _ _ => node_ptr.elem a

/-- Source `get_height`: `e ? e->height : 0`. -/
def get_height : intrusive_set_element α → Nat
  | null => 0
  | node _ _ h _ => h

/-- Source `get_signed_height`. -/
def get_signed_height (e : intrusive_set_element α) : Int :=
  (get_height e : Int)

/-- Source `update_height`: `e->height = max(get_height(left), get_height(right)) + 1`
when `e` is not null. -/
def update_height : intrusive_set_element α → intrusive_set_element α
  | null => null
  | node l a _ r => node l a (max (get_height l) (get_height r) + 1) r

/-- Source `update`. -/
def update (e : intrusive_set_element α) : intrusive_set_element α :=
  update_height e

/-- Source `set_left`: `this->left = child` (the child's parent link follows). -/
def set_left : intrusive_set_element α → intrusive_set_element α → intrusive_set_element α
  | null, _ => null
  | node _ a h r, child => node child a h r

/-- Source `set_right`: `this->right = child`. -/
def set_right : intrusive_set_element α → intrusive_set_element α → intrusive_set_element α
  | null, _ => null
  | node l a h _, child => node l a h child

/-- Source `set_children`. -/
def set_children (e left_child right_child : intrusive_set_element α) :
    intrusive_set_element α :=
  set_right (set_left e left_child) right_child

/-- Source `difference`: `get_signed_height(right) - get_signed_height(left)`. -/
def difference (e : intrusive_set_element α) : Int :=
  get_signed_height e.right - get_signed_height e.left

/-- Source `rotate_right`.  The result is `previous_left`. -/
def rotate_right : intrusive_set_element α → intrusive_set_element α
  | node (node ll y hy lr) x hx r =>
      -- set_left(previous_left->right); update(this)
      let this := update (node lr x hx r)
      -- previous_left->set_right(this); update(previous_left)
      update (node ll y hy this)
  | e => e

/-- Source `rotate_left`.  The result is `previous_right`. -/
def rotate_left : intrusive_set_element α → intrusive_set_element α
  | node l x hx (node rl y hy rr) =>
      -- set_right(previous_right->left); update(this)
      let this := update (node l x hx rl)
      -- previous_right->set_left(this); update(previous_right)
      update (node this y hy rr)
  | e => e

/-- Source `balance`. -/
def balance (self : intrusive_set_element α) : intrusive_set_element α :=
  let this := update self
  if difference this = 2 then
    if difference this.right < 0 then
      rotate_left (set_right this (rotate_right this.right))
    else
      rotate_left this
  else if difference this = -2 then
    if difference this.left > 0 then
      rotate_right (set_left this (rotate_left this.left))
    else
      rotate_right this
  else
    this

/-- Source `find_minimum`: the pointer to the leftmost element below `node`. -/
def find_minimum : intrusive_set_element α → intrusive_set_element α
  | null => null
  | node l a h r => if l.is_null then node l a h r else find_minimum l

/-- Source `find_maximum`: the pointer to the rightmost element below `node`. -/
def find_maximum : intrusive_set_element α → intrusive_set_element α
  | null => null
  | node l a h r => if r.is_null then node l a h r else find_maximum r

/-- Source `remove_minimum`. -/
def remove_minimum : intrusive_set_element α → intrusive_set_element α
  | null => null
  | node l a h r =>
      if l.is_null then r else balance (node (remove_minimum l) a h r)

/-- In-order sequence of the elements below a pointer. -/
def to_list : intrusive_set_element α → List α
  | null => []
  | node l a _ r => to_list l ++ a :: to_list r

/-- Number of elements below a pointer. -/
def count : intrusive_set_element α → Nat
  | null => 0
  | node l _ _ r => count l + 1 + count r

/-- Length of the longest downward path, counted in elements. -/
def depth : intrusive_set_element α → Nat
  | null => 0
  | node l _ _ r => max (depth l) (depth r) + 1

/-- Re-attach a subtree below one parent: `parent->set_left(e)` or
`parent->set_right(e)`, depending on the side recorded in the link. -/
def attach (e : intrusive_set_element α) (p : parent_link α) : intrusive_set_element α :=
  if p.is_right then node p.sibling p.parent p.height e
  else node e p.parent p.height p.sibling

/-- Re-attach a subtree below its chain of ancestors (innermost first); the
result is the root of the tree. -/
def plug : intrusive_set_element α → List (parent_link α) → intrusive_set_element α
  | e, [] => e
  | e, p :: ps => plug (attach e p) ps

/-- Follow a pointer to an element: the node it designates inside the tree and
the chain of its ancestors, innermost first. -/
def locate [DecidableEq α] (a : α) :
    intrusive_set_element α → Option (List (parent_link α) × intrusive_set_element α)
  | null => none
  | node l x h r =>
      if x = a then some ([], node l x h r)
      else
        match locate a l with
        | some (ps, e) => some (ps ++ [⟨false, x, h, r⟩], e)
        | none =>
          match locate a r with
          | some (ps, e) => some (ps ++ [⟨true, x, h, l⟩], e)
          | none => none

end intrusive_set_element

/-- Source `intrusive_set`: the comparator base sub-object and the root slot
`fake->left` of its sentinel. -/
structure intrusive_set (α K : Type) where
  cmp : K → K → Bool
  root : intrusive_set_element α

/-- Source `intrusive_set::iterator`. -/
structure iterator (α : Type) where
  m_node : node_ptr α
deriving DecidableEq, Repr

open intrusive_set_element in
/-- Source `find(node_t* node, const Key& key)`. -/
def find_at {α K : Type} (cmp : K → K → Bool) (get : α → K) :
    intrusive_set_element α → K → node_ptr α
  | null, _ => node_ptr.null
  | node l a _ r, key =>
      if cmp key (get a) then find_at cmp get l key
      else if cmp (get a) key then find_at cmp get r key
      else node_ptr.elem a

open intrusive_set_element in
/-- Source `insert(node_t* node, node_t* inserted)`.  The inserted element is
freshly constructed: its links are null and its `height` field is `0`
(member initialisers of `intrusive_set_element`). -/
def insert_at {α K : Type} (cmp : K → K → Bool) (get : α → K) :
    intrusive_set_element α → α → intrusive_set_element α
  | null, inserted => node null inserted 0 null
  | node l a h r, inserted =>
      if cmp (get inserted) (get a) then
        balance (node (insert_at cmp get l inserted) a h r)
      else
        balance (node l a h (insert_at cmp get r inserted))

open intrusive_set_element in
/-- The body of the loop of source `up_balance` at one node: re-balance the left
child, then the right child (when present). -/
def balance_children {α : Type} : intrusive_set_element α → intrusive_set_element α
  | null => null
  | node l a h r =>
      let l1 := if l.is_null then l else balance l
      let r1 := if r.is_null then r else balance r
      node l1 a h r1

open intrusive_set_element in
/-- Source `up_balance`, run from a non-null `node` whose ancestors are `ps`:
the loop body runs at `node`, at every ancestor, and last at the sentinel, where
it re-balances the root.  The result is the new root. -/
def up_balance_loop {α : Type} :
    intrusive_set_element α → List (parent_link α) → intrusive_set_element α
  | e, [] =>
      let root := balance_children e
      if root.is_null then root else balance root
  | e, p :: ps => up_balance_loop (attach (balance_children e) p) ps

open intrusive_set_element in
/-- Source `up_balance(node)`, where `ps` is the parent chain of the slot that
holds `node`: nothing happens when `node` is null. -/
def up_balance {α : Type} (e : intrusive_set_element α) (ps : List (parent_link α)) :
    intrusive_set_element α :=
  if e.is_null then plug e ps else up_balance_loop e ps

namespace intrusive_set

open intrusive_set_element

variable {α K : Type}

/-- Source `not_null`: `p ? p : fake`. -/
def not_null (p : node_ptr α) : node_ptr α :=
  match p with
  | node_ptr.null => node_ptr.fake
  | q => q

/-- Source `find(const Key& key)`. -/
def find (s : intrusive_set α K) (get : α → K) (key : K) : node_ptr α :=
  not_null (find_at s.cmp get s.root key)

/-- Source `insert(node_t* node)`: `fake->set_left(insert(root(), node))`. -/
def insert (s : intrusive_set α K) (get : α → K) (node : α) : intrusive_set α K :=
  { s with root := insert_at s.cmp get s.root node }

/-- Source `get_minimum`. -/
def get_minimum (s : intrusive_set α K) : node_ptr α :=
  not_null (find_minimum s.root).ptr

/-- Source `remove(node_t* node)`.  The element is reached through the pointer
(`locate`); `node->set_children(nullptr, nullptr)` clears the links of the element
that leaves the tree; `subtree_root` keeps its stored height, takes the place of
the element below its parent (`update_parent`), and `up_balance` runs from there.
Pointers that do not designate an element of this tree are outside the contract
of the source; the tree is then returned as it is. -/
def remove [DecidableEq α] (s : intrusive_set α K) (node : node_ptr α) : intrusive_set α K :=
  match node with
  | node_ptr.elem a =>
    match locate a s.root with
    | some (ps, e) =>
      let left := e.left
      let right := e.right
      let subtree_root :=
        if right.is_null then left
        else set_children (find_minimum right) left (remove_minimum right)
      { s with root := up_balance subtree_root ps }
    | none => s
  | _ => s

/-- Source `end()`. -/
def end_ (_s : intrusive_set α K) : iterator α :=
  ⟨node_ptr.fake⟩

/-- Source `begin()`. -/
def begin (s : intrusive_set α K) : iterator α :=
  ⟨not_null s.get_minimum⟩

/-- Source `swap`: the two root slots are exchanged; the comparator base
sub-objects stay where they are. -/
def swap (s other : intrusive_set α K) : intrusive_set α K × intrusive_set α K :=
  ({ s with root := other.root }, { other with root := s.root })

end intrusive_set

namespace iterator

open intrusive_set_element

variable {α : Type}

/-- The loop `while (m_node->parent && m_node == m_node->parent->right) m_node =
m_node->parent;` followed by `m_node = m_node->parent`, run from an element
whose ancestors are `ps`.  The parent of the root is the sentinel, whose `right`
is always null. -/
def climb : List (parent_link α) → node_ptr α
  | [] => node_ptr.fake
  | p :: ps => if p.is_right then climb ps else node_ptr.elem p.parent

/-- Source `iterator::operator++()`, on the tree whose root is `root`.  From the
sentinel, `right` and `parent` are null, so the result is the null pointer. -/
def increment [DecidableEq α] (root : intrusive_set_element α) (it : iterator α) :
    iterator α :=
  match it.m_node with
  | node_ptr.elem a =>
    match locate a root with
    | some (ps, e) =>
      if !e.right.is_null then ⟨(find_minimum e.right).ptr⟩
      else ⟨climb ps⟩
    | none => ⟨node_ptr.null⟩
  | _ => ⟨node_ptr.null⟩

/-- Source `iterator::operator--()`.  From the sentinel, `left` is the root. -/
def decrement [DecidableEq α] (root : intrusive_set_element α) (it : iterator α) :
    iterator α :=
  match it.m_node with
  | node_ptr.elem a =>
    match locate a root with
    | some (ps, e) =>
      if !e.left.is_null then ⟨(find_maximum e.left).ptr⟩
      else ⟨climb ps⟩
    | none => ⟨node_ptr.null⟩
  | node_ptr.fake =>
      if !root.is_null then ⟨(find_maximum root).ptr⟩ else ⟨node_ptr.null⟩
  | node_ptr.null => ⟨node_ptr.null⟩

/-- The `parent` field of the element or sentinel behind a pointer: the parent
of the root is the sentinel, the parent of the sentinel is null. -/
def parent_of [DecidableEq α] (root : intrusive_set_element α) (p : node_ptr α) :
    node_ptr α :=
  match p with
  | node_ptr.elem a =>
    match locate a root with
    | some ([], _) => node_ptr.fake
    | some (q :: _, _) => node_ptr.elem q.parent
    | none => node_ptr.null
  | _ => node_ptr.null

/-- Source `iterator::is_end`: `m_node->parent == nullptr`. -/
def is_end [DecidableEq α] (root : intrusive_set_element α) (it : iterator α) : Bool :=
  decide (parent_of root it.m_node = node_ptr.null)

end iterator

end implementation

/-- Source `bimap::node_t`: one allocation holding the left key and the right
key (the `m_key` members of its two `super` bases). -/
structure bimap.node_t (L R : Type) where
  left_key : L
  right_key : R
deriving DecidableEq, Repr

/-- Source `bimap`: the pair counter and the two intrusive sets, which share the
sentinel `fake`. -/
structure bimap (L R : Type) where
  m_size : Nat
  left_set : implementation.intrusive_set (bimap.node_t L R) L
  right_set : implementation.intrusive_set (bimap.node_t L R) R

namespace bimap

open implementation

/-- Source `base_iterator<is_left>`: a wrapper around the iterator of this
side's set. -/
structure base_iterator (is_left : Bool) (L R : Type) where
  it : iterator (node_t L R)
deriving DecidableEq, Repr

/-- Source `left_iterator`. -/
abbrev left_iterator (L R : Type) := base_iterator true L R

/-- Source `right_iterator`. -/
abbrev right_iterator (L R : Type) := base_iterator false L R

/-- The error thrown by `at_left` / `at_right`. -/
inductive exception where
  | out_of_range (what : String) : exception
deriving DecidableEq, Repr

variable {L R : Type}

/-- Source `left_getter::get`. -/
def left_getter (e : node_t L R) : L := e.left_key

/-- Source `right_getter::get`. -/
def right_getter (e : node_t L R) : R := e.right_key

/-- Source constructor `bimap(compare_left, compare_right)`. -/
def create (compare_left : L → L → Bool) (compare_right : R → R → Bool) : bimap L R :=
  { m_size := 0
    left_set := ⟨compare_left, intrusive_set_element.null⟩
    right_set := ⟨compare_right, intrusive_set_element.null⟩ }

/-- Source `template_flip`: null stays null, an element pointer is cast to the
other base sub-object of the same `node_t`. -/
def template_flip (element : node_ptr (node_t L R)) : node_ptr (node_t L R) :=
  match element with
  | node_ptr.null => node_ptr.null
  | e => e

/-- Source `flip` (both overloads). -/
def flip (e : node_ptr (node_t L R)) : node_ptr (node_t L R) :=
  template_flip e

/-- The link structure of the tree a `base_iterator<is_left>` walks. -/
def tree (b : bimap L R) (is_left : Bool) : intrusive_set_element (node_t L R) :=
  if is_left then b.left_set.root else b.right_set.root

namespace base_iterator

variable {is_left : Bool}

/-- Source `get_node`. -/
def get_node (self : base_iterator is_left L R) : node_ptr (node_t L R) :=
  self.it.m_node

/-- Source `operator++()` and the iterator left behind by `operator++(int)`. -/
def increment [DecidableEq L] [DecidableEq R] (b : bimap L R)
    (self : base_iterator is_left L R) : base_iterator is_left L R :=
  ⟨self.it.increment (b.tree is_left)⟩

/-- Source `operator--()`. -/
def decrement [DecidableEq L] [DecidableEq R] (b : bimap L R)
    (self : base_iterator is_left L R) : base_iterator is_left L R :=
  ⟨self.it.decrement (b.tree is_left)⟩

/-- Source `base_iterator::flip`: an element is cast to its other base
sub-object, the sentinel to the sentinel of the other side. -/
def flip [DecidableEq L] [DecidableEq R] (b : bimap L R)
    (self : base_iterator is_left L R) : base_iterator (!is_left) L R :=
  if !(self.it.is_end (b.tree is_left)) then
    ⟨⟨bimap.flip self.it.m_node⟩⟩
  else
    ⟨⟨node_ptr.fake⟩⟩

end base_iterator

/-- Source `operator*` of a left iterator: the left key of the element; there is
nothing to read behind the sentinel or a null pointer. -/
def deref_left (it : left_iterator L R) : Option L :=
  match it.it.m_node with
  | node_ptr.elem e => some (left_getter e)
  | _ => none

/-- Source `operator*` of a right iterator. -/
def deref_right (it : right_iterator L R) : Option R :=
  match it.it.m_node with
  | node_ptr.elem e => some (right_getter e)
  | _ => none

/-- Source `begin_left`. -/
def begin_left (b : bimap L R) : left_iterator L R := ⟨b.left_set.begin⟩

/-- Source `end_left`. -/
def end_left (b : bimap L R) : left_iterator L R := ⟨b.left_set.end_⟩

/-- Source `begin_right`. -/
def begin_right (b : bimap L R) : right_iterator L R := ⟨b.right_set.begin⟩

/-- Source `end_right`. -/
def end_right (b : bimap L R) : right_iterator L R := ⟨b.right_set.end_⟩

/-- Source `empty`. -/
def empty (b : bimap L R) : Bool := b.m_size == 0

/-- Source `size`. -/
def size (b : bimap L R) : Nat := b.m_size

/-- Source `find_left`. -/
def find_left (b : bimap L R) (left : L) : left_iterator L R :=
  ⟨⟨b.left_set.find left_getter left⟩⟩

/-- Source `find_right`. -/
def find_right (b : bimap L R) (right : R) : right_iterator L R :=
  ⟨⟨b.right_set.find right_getter right⟩⟩

variable [DecidableEq L] [DecidableEq R]

/-- Source `template_insert` (all four `insert` overloads forward to it).  The
source reads `left` twice after the duplicate test: it forwards it into the
constructor of the node, and afterwards passes it to `find_left` for the result.
`left_after` is the value the caller's key holds at that second read: the key
itself when it was passed by const reference, whatever the move constructor of
`left_t` leaves behind when it was passed as an rvalue. -/
def template_insert (b : bimap L R) (left : L) (right : R) (left_after : L) :
    bimap L R × left_iterator L R :=
  if b.find_left left ≠ b.end_left ∨ b.find_right right ≠ b.end_right then
    (b, b.end_left)
  else
    let node : node_t L R := ⟨left, right⟩
    let b1 := { b with right_set := b.right_set.insert right_getter node }
    let b2 := { b1 with left_set := b1.left_set.insert left_getter node }
    let b3 := { b2 with m_size := b2.m_size + 1 }
    (b3, b3.find_left left_after)

/-- Source `insert(left_t const&, right_t const&)` and `insert(left_t const&,
right_t&&)`: the left key is copied into the node and read again unchanged. -/
def insert (b : bimap L R) (left : L) (right : R) : bimap L R × left_iterator L R :=
  b.template_insert left right left

/-- Source `insert(left_t&&, right_t const&)` and `insert(left_t&&, right_t&&)`:
the left key is moved into the node; `moved_from` is the value the caller's key
object holds after that move. -/
def insert_rvalue (b : bimap L R) (left : L) (right : R) (moved_from : L) :
    bimap L R × left_iterator L R :=
  b.template_insert left right moved_from

/-- Source `erase(left_iterator, right_iterator)`. -/
def erase (b : bimap L R) (left : left_iterator L R) (right : right_iterator L R) : bimap L R :=
  let b1 := { b with left_set := b.left_set.remove left.get_node }
  let b2 := { b1 with right_set := b1.right_set.remove right.get_node }
  { b2 with m_size := b2.m_size - 1 }

/-- Source `erase_left(left_iterator)`. -/
def erase_left_it (b : bimap L R) (iterator : left_iterator L R) :
    bimap L R × left_iterator L R :=
  let it := iterator
  let iterator := iterator.increment b
  (b.erase it (it.flip b), iterator)

/-- Source `erase_left(left_t const&)`. -/
def erase_left_key (b : bimap L R) (key : L) : bimap L R × Bool :=
  let it := b.find_left key
  if it = b.end_left then (b, false)
  else ((b.erase_left_it it).1, true)

/-- Source `erase_right(right_iterator)`. -/
def erase_right_it (b : bimap L R) (iterator : right_iterator L R) :
    bimap L R × right_iterator L R :=
  let it := iterator
  let iterator := iterator.increment b
  (b.erase (it.flip b) it, iterator)

/-- Source `erase_right(right_t const&)`. -/
def erase_right_key (b : bimap L R) (key : R) : bimap L R × Bool :=
  let it := b.find_right key
  if it = b.end_right then (b, false)
  else ((b.erase_right_it it).1, true)

/-- The loop of source `erase_left(first, last)`: `while (it != last)
erase_left(it++)`, run for at most `fuel` iterations. -/
def erase_left_loop : Nat → bimap L R → left_iterator L R → left_iterator L R → bimap L R
  | 0, b, _, _ => b
  | fuel + 1, b, it, last =>
      if it = last then b
      else erase_left_loop fuel (b.erase_left_it it).1 (it.increment b) last

/-- Source `erase_left(first, last)`.  Every iteration erases one element, so
the number of elements bounds the number of iterations. -/
def erase_left_range (b : bimap L R) (first last : left_iterator L R) :
    bimap L R × left_iterator L R :=
  (erase_left_loop b.left_set.root.count b first last, last)

/-- The loop of source `erase_right(first, last)`. -/
def erase_right_loop : Nat → bimap L R → right_iterator L R → right_iterator L R → bimap L R
  | 0, b, _, _ => b
  | fuel + 1, b, it, last =>
      if it = last then b
      else erase_right_loop fuel (b.erase_right_it it).1 (it.increment b) last

/-- Source `erase_right(first, last)`. -/
def erase_right_range (b : bimap L R) (first last : right_iterator L R) :
    bimap L R × right_iterator L R :=
  (erase_right_loop b.right_set.root.count b first last, last)

/-- Source `clear`. -/
def clear (b : bimap L R) : bimap L R :=
  (b.erase_left_range b.begin_left b.end_left).1

/-- Source `swap`: the counters and the root slots are exchanged. -/
def swap (b other : bimap L R) : bimap L R × bimap L R :=
  let ls := b.left_set.swap other.left_set
  let rs := b.right_set.swap other.right_set
  ({ m_size := other.m_size, left_set := ls.1, right_set := rs.1 },
   { m_size := b.m_size, left_set := ls.2, right_set := rs.2 })

/-- Source `at_left`.  `find` never returns null (`not_null`), so the last
branch is not reached. -/
def at_left (b : bimap L R) (key : L) : Except exception R :=
  let e := b.left_set.find left_getter key
  if e = node_ptr.fake then
    Except.error (exception.out_of_range "bimap don't contains this key")
  else
    match flip e with
    | node_ptr.elem n => Except.ok (right_getter n)
    | _ => Except.error (exception.out_of_range "null")

/-- Source `at_right`. -/
def at_right (b : bimap L R) (key : R) : Except exception L :=
  let e := b.right_set.find right_getter key
  if e = node_ptr.fake then
    Except.error (exception.out_of_range "bimap don't contains this key")
  else
    match flip e with
    | node_ptr.elem n => Except.ok (left_getter n)
    | _ => Except.error (exception.out_of_range "null")

/-- Source `at_left_or_default`; `default` stands for `right_t()`.  The result
is what the returned reference reads (nothing when it is taken through an end
iterator). -/
def at_left_or_default [Inhabited R] (b : bimap L R) (key : L) : bimap L R × Option R :=
  let it := b.find_left key
  if it ≠ b.end_left then
    (b, deref_right (it.flip b))
  else
    let default_v : R := default
    let b1 := (b.erase_right_key default_v).1
    let r := b1.insert key default_v
    (r.1, deref_right (r.2.flip r.1))

/-- Source `at_right_or_default`; `default` stands for `left_t()`.  The call
`insert(std::move(default_v), key)` goes through the overload that moves the left
key; `default_after` is the value `default_v` holds after that move. -/
def at_right_or_default [Inhabited L] (b : bimap L R) (key : R) (default_after : L) :
    bimap L R × Option L :=
  let it := b.find_right key
  if it ≠ b.end_right then
    (b, deref_left (it.flip b))
  else
    let default_v : L := default
    let b1 := (b.erase_left_key default_v).1
    let r := b1.insert_rvalue default_v key default_after
    (r.1, deref_left r.2)

/-! ## Specification vocabulary -/

end bimap

namespace implementation

variable {α K : Type}

/-- Two keys are equivalent under a comparator when neither is ordered before
the other. -/
def equiv (cmp : K → K → Bool) (a b : K) : Prop :=
  cmp a b = false ∧ cmp b a = false

instance equiv_decidable (cmp : K → K → Bool) (a b : K) : Decidable (equiv cmp a b) :=
  inferInstanceAs (Decidable (cmp a b = false ∧ cmp b a = false))

/-- The requirement on comparators: a strict weak ordering. -/
structure strict_weak_order (cmp : K → K → Bool) : Prop where
  irrefl : ∀ a, cmp a a = false
  trans : ∀ a b c, cmp a b = true → cmp b c = true → cmp a c = true
  equiv_trans : ∀ a b c, equiv cmp a b → equiv cmp b c → equiv cmp a c

/-- Ordering invariant of a tree: the in-order key sequence is strictly
increasing under the comparator. -/
def ordered (cmp : K → K → Bool) (get : α → K) (t : intrusive_set_element α) : Prop :=
  (t.to_list).Pairwise (fun a b => cmp (get a) (get b) = true)

/-- The position of the first element of a sequence, the sentinel when there is
none. -/
def head_ptr : List α → node_ptr α
  | [] => node_ptr.fake
  | a :: _ => node_ptr.elem a

/-- Height invariant: every stored height is one more than the larger stored
height of the children, a missing child counting as `0`. -/
def heights_ok : intrusive_set_element α → Bool
  | intrusive_set_element.null => true
  | intrusive_set_element.node l _ h r =>
      heights_ok l && heights_ok r && (h == max l.get_height r.get_height + 1)

/-- Balance invariant on the stored heights: `difference()` is `-1`, `0` or `1`
at every node. -/
def balanced : intrusive_set_element α → Bool
  | intrusive_set_element.null => true
  | intrusive_set_element.node l a h r =>
      balanced l && balanced r &&
        decide (-1 ≤ (intrusive_set_element.node l a h r).difference ∧
          (intrusive_set_element.node l a h r).difference ≤ 1)

/-- Balance invariant on the actual heights of the subtrees. -/
def depth_balanced : intrusive_set_element α → Bool
  | intrusive_set_element.null => true
  | intrusive_set_element.node l _ _ r =>
      depth_balanced l && depth_balanced r &&
        decide (r.depth ≤ l.depth + 1 ∧ l.depth ≤ r.depth + 1)

end implementation

namespace bimap

open implementation

variable {L R : Type}

/-- The pairs held by a bimap: the elements of its left tree. -/
def stored (b : bimap L R) (n : node_t L R) : Prop :=
  n ∈ b.left_set.root.to_list

instance stored_decidable [DecidableEq L] [DecidableEq R] (b : bimap L R) (n : node_t L R) :
    Decidable (b.stored n) :=
  inferInstanceAs (Decidable (n ∈ b.left_set.root.to_list))

/-- Ordering invariant of both trees, under strict weak orderings. -/
structure ordered_inv (b : bimap L R) : Prop where
  left_cmp : strict_weak_order b.left_set.cmp
  right_cmp : strict_weak_order b.right_set.cmp
  left_ordered : ordered b.left_set.cmp left_getter b.left_set.root
  right_ordered : ordered b.right_set.cmp right_getter b.right_set.root

/-- Representation invariant of a bimap: both trees are ordered, hold the same
nodes, and the counter is the number of nodes of each tree. -/
structure wf (b : bimap L R) extends ordered_inv b : Prop where
  same_nodes : ∀ n, n ∈ b.left_set.root.to_list ↔ n ∈ b.right_set.root.to_list
  size_left : b.m_size = b.left_set.root.count
  size_right : b.m_size = b.right_set.root.count

/-- A valid position of the bimap on either side: the sentinel or a stored node. -/
def valid_ptr (b : bimap L R) (p : node_ptr (node_t L R)) : Prop :=
  p = node_ptr.fake ∨ ∃ n, p = node_ptr.elem n ∧ b.stored n

/-- A valid half-open range of left iterators: `first` is at the start of a
contiguous run of the left order and `last` right after it. -/
def valid_left_range (b : bimap L R) (first last : left_iterator L R) : Prop :=
  ∃ pre mid post, b.left_set.root.to_list = pre ++ mid ++ post ∧
    first.it.m_node = head_ptr (mid ++ post) ∧ last.it.m_node = head_ptr post

/-- A valid half-open range of right iterators. -/
def valid_right_range (b : bimap L R) (first last : right_iterator L R) : Prop :=
  ∃ pre mid post, b.right_set.root.to_list = pre ++ mid ++ post ∧
    first.it.m_node = head_ptr (mid ++ post) ∧ last.it.m_node = head_ptr post

/-- The bimaps reachable from an empty bimap with comparators `cl` and `cr` by
the mutating public operations (used within their preconditions). -/
inductive reachable [DecidableEq L] [DecidableEq R] [Inhabited L] [Inhabited R]
    (cl : L → L → Bool) (cr : R → R → Bool) : bimap L R → Prop where
  | create : reachable cl cr (create cl cr)
  | insert (b : bimap L R) (l : L) (r : R) :
      reachable cl cr b → reachable cl cr (b.insert l r).1
  | insert_rvalue (b : bimap L R) (l : L) (r : R) (moved_from : L) :
      reachable cl cr b → reachable cl cr (b.insert_rvalue l r moved_from).1
  | erase_left_it (b : bimap L R) (n : node_t L R) :
      reachable cl cr b → b.stored n →
      reachable cl cr (b.erase_left_it ⟨⟨node_ptr.elem n⟩⟩).1
  | erase_right_it (b : bimap L R) (n : node_t L R) :
      reachable cl cr b → b.stored n →
      reachable cl cr (b.erase_right_it ⟨⟨node_ptr.elem n⟩⟩).1
  | erase_left_key (b : bimap L R) (k : L) :
      reachable cl cr b → reachable cl cr (b.erase_left_key k).1
  | erase_right_key (b : bimap L R) (k : R) :
      reachable cl cr b → reachable cl cr (b.erase_right_key k).1
  | erase_left_range (b : bimap L R) (first last : left_iterator L R) :
      reachable cl cr b → b.valid_left_range first last →
      reachable cl cr (b.erase_left_range first last).1
  | erase_right_range (b : bimap L R) (first last : right_iterator L R) :
      reachable cl cr b → b.valid_right_range first last →
      reachable cl cr (b.erase_right_range first last).1
  | at_left_or_default (b : bimap L R) (k : L) :
      reachable cl cr b → reachable cl cr (b.at_left_or_default k).1
  | at_right_or_default (b : bimap L R) (k : R) (default_after : L) :
      reachable cl cr b → reachable cl cr (b.at_right_or_default k default_after).1
  | clear (b : bimap L R) :
      reachable cl cr b → reachable cl cr b.clear
  | swap (a b : bimap L R) :
      reachable cl cr a → reachable cl cr b → reachable cl cr (a.swap b).1

/-- The comparator `std::less<int>` on natural-number keys. -/
def nat_less (a b : Nat) : Bool := decide (a < b)

/-- The bimap obtained from an empty one by inserting each pair of a list in
turn. -/
def insert_all [DecidableEq L] [DecidableEq R] (b : bimap L R) : List (L × R) → bimap L R
  | [] => b
  | (l, r) :: rest => insert_all (b.insert l r).1 rest

end bimap

namespace implementation

/-- The in-order elements that come before the subtree hanging below a chain of
ancestors (innermost first). -/
def before_of {α : Type} : List (parent_link α) → List α
  | [] => []
  | p :: ps => before_of ps ++ (if p.is_right then p.sibling.to_list ++ [p.parent] else [])

/-- The in-order elements that come after the subtree hanging below a chain of
ancestors (innermost first). -/
def after_of {α : Type} : List (parent_link α) → List α
  | [] => []
  | p :: ps => (if p.is_right then [] else p.parent :: p.sibling.to_list) ++ after_of ps

end implementation

namespace bimap

/-- A bimap built by three inserts: `1 ↦ 30`, `2 ↦ 20`, `3 ↦ 10`. -/
def sample : bimap Nat Nat :=
  insert_all (create nat_less nat_less) [(1, 30), (2, 20), (3, 10)]

end bimap

namespace bimap

/-- The comparator `std::less<std::string>`, a string being the sequence of its
characters. -/
def string_less (a b : List Char) : Bool := decide (a < b)

end bimap

/-! ## Bounds, copies and comparison -/

namespace implementation

open intrusive_set_element in
/-- The loop of source `upper_bound`: `bound` is the best candidate so far and
the first argument is `current`. -/
def upper_bound_loop {α K : Type} (cmp : K → K → Bool) (get : α → K) :
    intrusive_set_element α → node_ptr α → K → node_ptr α
  | null, bound, _ => bound
  | node l a _ r, bound, key =>
      if cmp key (get a) then upper_bound_loop cmp get l (node_ptr.elem a) key
      else upper_bound_loop cmp get r bound key

namespace intrusive_set

variable {α K : Type}

/-- Source `upper_bound`. -/
def upper_bound (s : intrusive_set α K) (get : α → K) (key : K) : iterator α :=
  ⟨upper_bound_loop s.cmp get s.root node_ptr.fake key⟩

/-- Source `lower_bound`. -/
def lower_bound [DecidableEq α] (s : intrusive_set α K) (get : α → K) (key : K) :
    iterator α :=
  let equal := s.find get key
  if equal ≠ node_ptr.fake then ⟨equal⟩ else s.upper_bound get key

end intrusive_set

end implementation

namespace bimap

open implementation

variable {L R : Type}

/-- Source `left_equals`: neither key is ordered before the other by the left
comparator of this bimap. -/
def left_equals (b : bimap L R) (lhs rhs : L) : Bool :=
  !b.left_set.cmp lhs rhs && !b.left_set.cmp rhs lhs

/-- Source `right_equals`. -/
def right_equals (b : bimap L R) (lhs rhs : R) : Bool :=
  !b.right_set.cmp lhs rhs && !b.right_set.cmp rhs lhs

variable [DecidableEq L] [DecidableEq R]

/-- Source `lower_bound_left`. -/
def lower_bound_left (b : bimap L R) (left : L) : left_iterator L R :=
  ⟨b.left_set.lower_bound left_getter left⟩

/-- Source `upper_bound_left`. -/
def upper_bound_left (b : bimap L R) (left : L) : left_iterator L R :=
  ⟨b.left_set.upper_bound left_getter left⟩

/-- Source `lower_bound_right`. -/
def lower_bound_right (b : bimap L R) (right : R) : right_iterator L R :=
  ⟨b.right_set.lower_bound right_getter right⟩

/-- Source `upper_bound_right`. -/
def upper_bound_right (b : bimap L R) (right : R) : right_iterator L R :=
  ⟨b.right_set.upper_bound right_getter right⟩

/-- The loop of source `operator==`, for at most `fuel` tests of its condition.
Both iterators advance together; the keys are compared with the comparators of
`lhs`.  Reading through an end iterator is outside the contract of the source
and ends the loop with `false` here. -/
def equals_loop : Nat → bimap L R → bimap L R → left_iterator L R → left_iterator L R → Bool
  | 0, _, _, _, _ => false
  | fuel + 1, lhs, rhs, lit, rit =>
      if lit = lhs.end_left then true
      else
        match deref_left lit, deref_left rit,
            deref_right (lit.flip lhs), deref_right (rit.flip rhs) with
        | some l1, some l2, some r1, some r2 =>
            if !lhs.left_equals l1 l2 || !lhs.right_equals r1 r2 then false
            else equals_loop fuel lhs rhs (lit.increment lhs) (rit.increment rhs)
        | _, _, _, _ => false

/-- Source `operator==`.  The loop tests its condition once per element of `lhs`
and once more at the end. -/
def equals (lhs rhs : bimap L R) : Bool :=
  if lhs.size ≠ rhs.size then false
  else equals_loop (lhs.left_set.root.count + 1) lhs rhs lhs.begin_left rhs.begin_left

/-- Source `operator!=`. -/
def not_equals (lhs rhs : bimap L R) : Bool :=
  !equals lhs rhs

/-- The loop of the source copy constructor: `for (it = other.begin_left(); it !=
other.end_left(); ++it) insert(*it, *it.flip())`, for at most `fuel` iterations. -/
def copy_loop : Nat → bimap L R → bimap L R → left_iterator L R → bimap L R
  | 0, self, _, _ => self
  | fuel + 1, self, other, it =>
      if it = other.end_left then self
      else
        match deref_left it, deref_right (it.flip other) with
        | some l, some r => copy_loop fuel (self.insert l r).1 other (it.increment other)
        | _, _ => self

/-- Source copy constructor `bimap(bimap const& other)`.  Both sets are built with
`intrusive_set(fake_t*)`, which default-constructs the comparator:
`default_left` and `default_right` stand for `CompareLeft()` and
`CompareRight()`.  The loop runs once per element of `other`. -/
def copy_construct (default_left : L → L → Bool) (default_right : R → R → Bool)
    (other : bimap L R) : bimap L R :=
  copy_loop other.left_set.root.count (create default_left default_right) other
    other.begin_left

/-- Source move constructor `bimap(bimap&& other)`: a bimap with
default-constructed comparators swapped with `other`.  The result is the new
bimap and what is left in `other`. -/
def move_construct (default_left : L → L → Bool) (default_right : R → R → Bool)
    (other : bimap L R) : bimap L R × bimap L R :=
  (create default_left default_right).swap other

/-- Source copy assignment `operator=(bimap const& other)`: nothing happens when
`other` is this very object (`same_object`); otherwise a copy of `other` is
swapped with `*this`.  The result is the new state of `*this`. -/
def copy_assign (default_left : L → L → Bool) (default_right : R → R → Bool)
    (self other : bimap L R) (same_object : Bool) : bimap L R :=
  if same_object then self
  else ((copy_construct default_left default_right other).swap self).2

/-- The pairs of a bimap in left order. -/
def pairs (b : bimap L R) : List (L × R) :=
  b.left_set.root.to_list.map (fun n => (n.left_key, n.right_key))

/-- The comparator `std::greater<int>` on natural-number keys, also the
comparator `less` run in reverse. -/
def nat_greater (a b : Nat) : Bool := decide (b < a)

end bimap

namespace bimap

/-- The bimap after `insert(1, 1)`, ..., `insert(6, 6)` and `erase_left(4)`. -/
def six_less_four : bimap Nat Nat :=
  ((insert_all (create nat_less nat_less)
    [(1, 1), (2, 2), (3, 3), (4, 4), (5, 5), (6, 6)]).erase_left_key 4).1

/-- The bimap after `insert(1, 1)`, `insert(2, 2)`, `insert(3, 3)` and
`erase_left(1)`. -/
def three_less_one : bimap Nat Nat :=
  ((insert_all (create nat_less nat_less) [(1, 1), (2, 2), (3, 3)]).erase_left_key 1).1

end bimap

namespace bimap

/-- A bimap whose two comparators are `std::greater`: the pairs `(1, 1)` and
`(2, 2)` inserted into `bimap(greater, greater)`. -/
def descending : bimap Nat Nat :=
  insert_all (create nat_greater nat_greater) [(1, 1), (2, 2)]

end bimap

/-! ## Sentinels and root links in `swap` -/

namespace implementation

/-- A `parent` pointer in which the sentinels of different sets are told apart:
the null pointer, the sentinel object at an address, or an element. -/
inductive parent_ptr (α : Type) where
  | null : parent_ptr α
  | fake (address : Nat) : parent_ptr α
  | elem (a : α) : parent_ptr α
deriving DecidableEq, Repr

/-- The memory of one `intrusive_set` that source `swap` reads and writes: the set
itself (comparator base and root slot `fake->left`), the value of its pointer
member `fake` (the address of the sentinel), and the `parent` field of the
element `fake->left` points to.  The last field is in the root element, so it
travels with the root; it is not read while the root slot is null. -/
structure linked_set (α K : Type) where
  set : intrusive_set α K
  fake : Nat
  root_parent : parent_ptr α

namespace linked_set

variable {α K : Type}

/-- Source `intrusive_set_element::set_left`, run on the sentinel of `s`:
`this->left = child; set_parent(child, this)`, where `set_parent` stores
`child->parent = this` only for a non-null `child`.  The argument `child_parent`
is the `parent` field of `child` before the call. -/
def set_left (s : linked_set α K) (child : intrusive_set_element α)
    (child_parent : parent_ptr α) : linked_set α K :=
  { set := { s.set with root := child }
    fake := s.fake
    root_parent := if child.is_null then child_parent else parent_ptr.fake s.fake }

/-- Source `intrusive_set::swap` with its three statements:
`std::swap(fake->left, other.fake->left)` exchanges the root slots (each root
element keeps its own `parent` field), then `fake->set_left(root())` and
`other.fake->set_left(other.root())` store the roots again and write their
`parent` fields.  The comparator bases and the `fake` members stay.  The two
arguments are two objects; on one and the same object the three statements
change nothing but the `parent` field of its root, which becomes its sentinel. -/
def swap (s other : linked_set α K) : linked_set α K × linked_set α K :=
  let s1 : linked_set α K :=
    { set := { s.set with root := other.set.root }, fake := s.fake,
      root_parent := other.root_parent }
  let o1 : linked_set α K :=
    { set := { other.set with root := s.set.root }, fake := other.fake,
      root_parent := s.root_parent }
  (s1.set_left s1.set.root s1.root_parent, o1.set_left o1.set.root o1.root_parent)

/-- The root element, when there is one, has the sentinel of the set as its
`parent`. -/
def linked (s : linked_set α K) : Prop :=
  s.set.root.is_null = false → s.root_parent = parent_ptr.fake s.fake

end linked_set

end implementation

/-- A `bimap` object in memory: the pair counter and the two sets with the
addresses of their sentinels (the two bases of the member `fake`) and the
`parent` fields of their roots. -/
structure linked_bimap (L R : Type) where
  m_size : Nat
  left_set : implementation.linked_set (bimap.node_t L R) L
  right_set : implementation.linked_set (bimap.node_t L R) R

namespace linked_bimap

open implementation

variable {L R : Type}

/-- The bimap held by the object: counter, comparators and trees. -/
def state (b : linked_bimap L R) : bimap L R :=
  { m_size := b.m_size, left_set := b.left_set.set, right_set := b.right_set.set }

/-- Source `bimap::swap`: `std::swap(m_size, other.m_size);
left_set.swap(other.left_set); right_set.swap(other.right_set)`.  The result is
the new state of `*this` and of `other`. -/
def swap (b other : linked_bimap L R) : linked_bimap L R × linked_bimap L R :=
  let ls := b.left_set.swap other.left_set
  let rs := b.right_set.swap other.right_set
  ({ m_size := other.m_size, left_set := ls.1, right_set := rs.1 },
   { m_size := b.m_size, left_set := ls.2, right_set := rs.2 })

/-- Both roots, when present, have the sentinel of this object as `parent`. -/
def linked (b : linked_bimap L R) : Prop :=
  b.left_set.linked ∧ b.right_set.linked

/-- The object that holds the bimap `b` with its member `fake` at `address`, each
root linked to it. -/
def place (address : Nat) (b : bimap L R) : linked_bimap L R :=
  { m_size := b.m_size
    left_set := { set := b.left_set, fake := address, root_parent := parent_ptr.fake address }
    right_set := { set := b.right_set, fake := address, root_parent := parent_ptr.fake address } }

end linked_bimap

namespace bimap

/-- The bimap `g` after `g.swap(a)`, where `g` was constructed empty with both
comparators in the state `std::greater` and `a` with both in the state
`std::less`, followed by `a.insert(1, 20); a.insert(2, 10); a.insert(3, 30);
a.insert(4, 40)`. -/
def swapped_into_greater : bimap Nat Nat :=
  ((create nat_greater nat_greater).swap
    (insert_all (create nat_less nat_less) [(1, 20), (2, 10), (3, 30), (4, 40)])).1

end bimap

/-! ## Comparators -/

namespace implementation

open intrusive_set_element

variable {α K : Type}

theorem equiv_symm {cmp : K → K → Bool} {a b : K} (h : equiv cmp a b) : equiv cmp b a :=
  ⟨h.2, h.1⟩

theorem strict_weak_order.equiv_refl {cmp : K → K → Bool} (h : strict_weak_order cmp)
    (a : K) : equiv cmp a a :=
  ⟨h.irrefl a, h.irrefl a⟩

theorem strict_weak_order.asymm {cmp : K → K → Bool} (h : strict_weak_order cmp)
    {a b : K} (hab : cmp a b = true) : cmp b a = false := by
  cases hba : cmp b a with
  | false => rfl
  | true =>
    have := h.trans a b a hab hba
    rw [h.irrefl a] at this
    exact absurd this (by decide)

theorem strict_weak_order.neg_trans {cmp : K → K → Bool} (h : strict_weak_order cmp)
    {a c : K} (b : K) (hac : cmp a c = true) : cmp a b = true ∨ cmp b c = true := by
  cases hab : cmp a b with
  | true => exact Or.inl rfl
  | false =>
    cases hbc : cmp b c with
    | true => exact Or.inr rfl
    | false =>
      exfalso
      have hba : cmp b a = false := by
        cases hba : cmp b a with
        | false => rfl
        | true =>
          have := h.trans b a c hba hac
          rw [hbc] at this
          exact absurd this (by decide)
      have hcb : cmp c b = false := by
        cases hcb : cmp c b with
        | false => rfl
        | true =>
          have := h.trans a c b hac hcb
          rw [hab] at this
          exact absurd this (by decide)
      have := (h.equiv_trans a b c ⟨hab, hba⟩ ⟨hbc, hcb⟩).1
      rw [hac] at this
      exact absurd this (by decide)

theorem strict_weak_order.lt_of_equiv_of_lt {cmp : K → K → Bool} (h : strict_weak_order cmp)
    {a b c : K} (hab : equiv cmp a b) (hbc : cmp b c = true) : cmp a c = true := by
  rcases h.neg_trans a hbc with h1 | h1
  · rw [hab.2] at h1
    exact absurd h1 (by decide)
  · exact h1

theorem strict_weak_order.lt_of_lt_of_equiv {cmp : K → K → Bool} (h : strict_weak_order cmp)
    {a b c : K} (hab : cmp a b = true) (hbc : equiv cmp b c) : cmp a c = true := by
  rcases h.neg_trans c hab with h1 | h1
  · exact h1
  · rw [hbc.2] at h1
    exact absurd h1 (by decide)

theorem nat_less_strict_weak_order : strict_weak_order bimap.nat_less := by
  refine ⟨?_, ?_, ?_⟩
  · intro a
    simp [bimap.nat_less]
  · intro a b c h1 h2
    simp only [bimap.nat_less, decide_eq_true_eq] at *
    omega
  · intro a b c h1 h2
    simp only [equiv, bimap.nat_less, decide_eq_false_iff_not] at *
    omega

/-! ## In-order sequences -/

@[simp] theorem to_list_null : (null : intrusive_set_element α).to_list = [] := rfl

@[simp] theorem to_list_node (l r : intrusive_set_element α) (a : α) (h : Nat) :
    (node l a h r).to_list = l.to_list ++ a :: r.to_list := rfl

@[simp] theorem to_list_update (e : intrusive_set_element α) :
    (update e).to_list = e.to_list := by
  cases e <;> rfl

@[simp] theorem to_list_rotate_right (e : intrusive_set_element α) :
    (rotate_right e).to_list = e.to_list := by
  unfold rotate_right
  split <;> simp

@[simp] theorem to_list_rotate_left (e : intrusive_set_element α) :
    (rotate_left e).to_list = e.to_list := by
  unfold rotate_left
  split <;> simp

theorem to_list_eq_left_right (e : intrusive_set_element α) (h : e.is_null = false) :
    ∃ a, e.to_list = e.left.to_list ++ a :: e.right.to_list := by
  cases e with
  | null => simp [is_null] at h
  | node l a _ r => exact ⟨a, rfl⟩

theorem to_list_set_right (e c : intrusive_set_element α)
    (h : c.to_list = e.right.to_list) : (set_right e c).to_list = e.to_list := by
  cases e with
  | null => rfl
  | node l a _ r => simp [set_right, h, right]

theorem to_list_set_left (e c : intrusive_set_element α)
    (h : c.to_list = e.left.to_list) : (set_left e c).to_list = e.to_list := by
  cases e with
  | null => rfl
  | node l a _ r => simp [set_left, h, left]

@[simp] theorem to_list_balance (e : intrusive_set_element α) :
    (balance e).to_list = e.to_list := by
  unfold balance
  simp only
  split_ifs
  · rw [to_list_rotate_left, to_list_set_right _ _ (to_list_rotate_right _), to_list_update]
  · rw [to_list_rotate_left, to_list_update]
  · rw [to_list_rotate_right, to_list_set_left _ _ (to_list_rotate_left _), to_list_update]
  · rw [to_list_rotate_right, to_list_update]
  · rw [to_list_update]

/-- The rotations inside `balance` always find the child they turn around: a
`difference()` of `2` needs a right child, and a negative `difference()` of that
child needs its left child (symmetrically on the other side). -/
theorem difference_pos_right (e : intrusive_set_element α) (h : 0 < difference e) :
    e.right.is_null = false := by
  cases hr : e.right with
  | null =>
    simp only [difference, hr, get_signed_height, get_height] at h
    omega
  | node _ _ _ _ => rfl

theorem difference_neg_left (e : intrusive_set_element α) (h : difference e < 0) :
    e.left.is_null = false := by
  cases hl : e.left with
  | null =>
    simp only [difference, hl, get_signed_height, get_height] at h
    omega
  | node _ _ _ _ => rfl

theorem count_eq_length (e : intrusive_set_element α) : e.count = e.to_list.length := by
  induction e with
  | null => rfl
  | node l a h r ihl ihr => simp [count, ihl, ihr]; omega

theorem is_null_iff_to_list (e : intrusive_set_element α) :
    e.is_null = true ↔ e.to_list = [] := by
  cases e <;> simp [is_null]

/-! ## Ordered trees and `find` -/

theorem ordered_null (cmp : K → K → Bool) (get : α → K) :
    ordered cmp get (null : intrusive_set_element α) := by
  simp [ordered]

theorem ordered_node {cmp : K → K → Bool} {get : α → K}
    {l r : intrusive_set_element α} {x : α} {h : Nat} :
    ordered cmp get (node l x h r) ↔
      ordered cmp get l ∧ ordered cmp get r ∧
      (∀ y ∈ l.to_list, cmp (get y) (get x) = true) ∧
      (∀ z ∈ r.to_list, cmp (get x) (get z) = true) ∧
      (∀ y ∈ l.to_list, ∀ z ∈ r.to_list, cmp (get y) (get z) = true) := by
  simp only [ordered, to_list_node, List.pairwise_append, List.pairwise_cons,
    List.mem_cons, forall_eq_or_imp]
  constructor
  · rintro ⟨h1, ⟨h2, h3⟩, h4⟩
    exact ⟨h1, h3, fun y hy => (h4 y hy).1, h2, fun y hy z hz => (h4 y hy).2 z hz⟩
  · rintro ⟨h1, h2, h3, h4, h5⟩
    exact ⟨h1, ⟨h4, h2⟩, fun y hy => ⟨h3 y hy, h5 y hy⟩⟩

theorem ordered_of_to_list_eq {cmp : K → K → Bool} {get : α → K}
    {s t : intrusive_set_element α} (h : s.to_list = t.to_list)
    (ht : ordered cmp get t) : ordered cmp get s := by
  unfold ordered at *
  rw [h]
  exact ht

theorem ordered_nodup {cmp : K → K → Bool} {get : α → K} (hc : strict_weak_order cmp)
    {t : intrusive_set_element α} (ht : ordered cmp get t) : t.to_list.Nodup := by
  unfold ordered at ht
  refine List.Pairwise.imp ?_ ht
  intro a b hab heq
  subst heq
  rw [hc.irrefl] at hab
  exact absurd hab (by decide)

theorem find_at_sound {cmp : K → K → Bool} {get : α → K} {t : intrusive_set_element α}
    {k : K} {a : α} (h : find_at cmp get t k = node_ptr.elem a) :
    a ∈ t.to_list ∧ equiv cmp (get a) k := by
  induction t with
  | null => simp [find_at] at h
  | node l x _ r ihl ihr =>
    simp only [find_at] at h
    split_ifs at h with h1 h2
    · have := ihl h
      exact ⟨by simp [this.1], this.2⟩
    · have := ihr h
      exact ⟨by simp [this.1], this.2⟩
    · cases h
      exact ⟨by simp, by simpa using h2, by simpa using h1⟩

theorem find_at_ne_fake {cmp : K → K → Bool} {get : α → K} (t : intrusive_set_element α)
    (k : K) : find_at cmp get t k ≠ node_ptr.fake := by
  induction t with
  | null => simp [find_at]
  | node l x _ r ihl ihr =>
    simp only [find_at]
    split_ifs <;> simp [*]

theorem find_at_complete {cmp : K → K → Bool} {get : α → K} (hc : strict_weak_order cmp)
    {t : intrusive_set_element α} (ht : ordered cmp get t) {k : K} {a : α}
    (ha : a ∈ t.to_list) (he : equiv cmp (get a) k) :
    find_at cmp get t k = node_ptr.elem a := by
  induction t with
  | null => simp at ha
  | node l x _ r ihl ihr =>
    obtain ⟨hl, hr, hlx, hxr, -⟩ := ordered_node.mp ht
    simp only [to_list_node, List.mem_append, List.mem_cons] at ha
    simp only [find_at]
    rcases ha with ha | ha | ha
    · have hkx : cmp k (get x) = true := hc.lt_of_equiv_of_lt (equiv_symm he) (hlx a ha)
      rw [if_pos hkx]
      exact ihl hl ha
    · subst ha
      rw [if_neg (by simp [he.2]), if_neg (by simp [he.1])]
    · have hxk : cmp (get x) k = true := hc.lt_of_lt_of_equiv (hxr a ha) he
      rw [if_neg (by simp [hc.asymm hxk]), if_pos hxk]
      exact ihr hr ha

theorem find_at_absent {cmp : K → K → Bool} {get : α → K} {t : intrusive_set_element α}
    {k : K} (h : ∀ a ∈ t.to_list, ¬ equiv cmp (get a) k) :
    find_at cmp get t k = node_ptr.null := by
  cases hf : find_at cmp get t k with
  | null => rfl
  | fake => exact absurd hf (find_at_ne_fake t k)
  | elem a => exact absurd (find_at_sound hf).2 (h a (find_at_sound hf).1)

/-! ## `insert` -/

theorem insert_at_perm (cmp : K → K → Bool) (get : α → K) (t : intrusive_set_element α)
    (a : α) : (insert_at cmp get t a).to_list.Perm (a :: t.to_list) := by
  induction t with
  | null => simp [insert_at]
  | node l x _ r ihl ihr =>
    simp only [insert_at]
    split_ifs
    · simp only [to_list_balance, to_list_node]
      exact (ihl.append_right _).trans (by simp)
    · simp only [to_list_balance, to_list_node]
      refine ((ihr.cons x).append_left _).trans ?_
      refine (List.Perm.append_left _ (List.Perm.swap a x _)).trans ?_
      exact List.perm_middle

theorem mem_insert_at {cmp : K → K → Bool} {get : α → K} {t : intrusive_set_element α}
    {a x : α} : x ∈ (insert_at cmp get t a).to_list ↔ x = a ∨ x ∈ t.to_list := by
  rw [(insert_at_perm cmp get t a).mem_iff, List.mem_cons]

theorem count_insert_at (cmp : K → K → Bool) (get : α → K) (t : intrusive_set_element α)
    (a : α) : (insert_at cmp get t a).count = t.count + 1 := by
  rw [count_eq_length, count_eq_length, (insert_at_perm cmp get t a).length_eq]
  rfl

theorem insert_at_ordered {cmp : K → K → Bool} {get : α → K} (hc : strict_weak_order cmp)
    {t : intrusive_set_element α} (ht : ordered cmp get t) {a : α}
    (hne : ∀ x ∈ t.to_list, ¬ equiv cmp (get x) (get a)) :
    ordered cmp get (insert_at cmp get t a) := by
  induction t with
  | null => simp [insert_at, ordered]
  | node l x h r ihl ihr =>
    obtain ⟨hl, hr, hlx, hxr, hlr⟩ := ordered_node.mp ht
    simp only [insert_at]
    split_ifs with hax
    · refine ordered_of_to_list_eq (to_list_balance _) ?_
      refine ordered_node.mpr ⟨ihl hl (fun y hy => hne y (by simp [hy])), hr, ?_, hxr, ?_⟩
      · intro y hy
        rcases mem_insert_at.mp hy with rfl | hy
        · exact hax
        · exact hlx y hy
      · intro y hy z hz
        rcases mem_insert_at.mp hy with rfl | hy
        · exact hc.trans _ _ _ hax (hxr z hz)
        · exact hlr y hy z hz
    · have hxa : cmp (get x) (get a) = true := by
        cases hxa : cmp (get x) (get a) with
        | true => rfl
        | false => exact absurd ⟨hxa, by simpa using hax⟩ (hne x (by simp))
      refine ordered_of_to_list_eq (to_list_balance _) ?_
      refine ordered_node.mpr ⟨hl, ihr hr (fun y hy => hne y (by simp [hy])), hlx, ?_, ?_⟩
      · intro z hz
        rcases mem_insert_at.mp hz with rfl | hz
        · exact hxa
        · exact hxr z hz
      · intro y hy z hz
        rcases mem_insert_at.mp hz with rfl | hz
        · exact hc.trans _ _ _ (hlx y hy) hxa
        · exact hlr y hy z hz

end implementation

/-! ## Parent chains, `remove` and iteration -/

namespace implementation

open intrusive_set_element

variable {α K : Type}

theorem to_list_attach (e : intrusive_set_element α) (p : parent_link α) :
    (attach e p).to_list =
      (if p.is_right then p.sibling.to_list ++ [p.parent] else []) ++ e.to_list ++
        (if p.is_right then [] else p.parent :: p.sibling.to_list) := by
  unfold attach
  split_ifs <;> simp

theorem to_list_plug (e : intrusive_set_element α) (ps : List (parent_link α)) :
    (plug e ps).to_list = before_of ps ++ e.to_list ++ after_of ps := by
  induction ps generalizing e with
  | nil => simp [plug, before_of, after_of]
  | cons p ps ih =>
    simp only [plug, before_of, after_of, ih, to_list_attach, List.append_assoc]

theorem to_list_plug_congr {e e1 : intrusive_set_element α} (h : e.to_list = e1.to_list)
    (ps : List (parent_link α)) : (plug e ps).to_list = (plug e1 ps).to_list := by
  rw [to_list_plug, to_list_plug, h]

theorem plug_append (e : intrusive_set_element α) (ps qs : List (parent_link α)) :
    plug e (ps ++ qs) = plug (plug e ps) qs := by
  induction ps generalizing e with
  | nil => rfl
  | cons p ps ih => exact ih (attach e p)

theorem locate_some [DecidableEq α] {a : α} {t : intrusive_set_element α}
    {ps : List (parent_link α)} {e : intrusive_set_element α}
    (h : locate a t = some (ps, e)) :
    (∃ l hgt r, e = node l a hgt r) ∧ plug e ps = t := by
  induction t generalizing ps e with
  | null => simp [locate] at h
  | node l x hx r ihl ihr =>
    simp only [locate] at h
    split_ifs at h with hxa
    · simp only [Option.some.injEq, Prod.mk.injEq] at h
      obtain ⟨rfl, rfl⟩ := h
      exact ⟨⟨l, hx, r, by rw [hxa]⟩, rfl⟩
    · cases hl : locate a l with
      | some res =>
        obtain ⟨qs, e1⟩ := res
        rw [hl] at h
        simp only [Option.some.injEq, Prod.mk.injEq] at h
        obtain ⟨rfl, rfl⟩ := h
        obtain ⟨h1, h2⟩ := ihl hl
        refine ⟨h1, ?_⟩
        rw [plug_append, h2]
        simp [plug, attach]
      | none =>
        rw [hl] at h
        cases hr : locate a r with
        | some res =>
          obtain ⟨qs, e1⟩ := res
          rw [hr] at h
          simp only [Option.some.injEq, Prod.mk.injEq] at h
          obtain ⟨rfl, rfl⟩ := h
          obtain ⟨h1, h2⟩ := ihr hr
          refine ⟨h1, ?_⟩
          rw [plug_append, h2]
          simp [plug, attach]
        | none =>
          rw [hr] at h
          simp at h

theorem locate_of_mem [DecidableEq α] {a : α} {t : intrusive_set_element α}
    (h : a ∈ t.to_list) : ∃ ps e, locate a t = some (ps, e) := by
  induction t with
  | null => simp at h
  | node l x hx r ihl ihr =>
    simp only [locate]
    split_ifs with hxa
    · exact ⟨_, _, rfl⟩
    · simp only [to_list_node, List.mem_append, List.mem_cons] at h
      cases hl : locate a l with
      | some res => exact ⟨_, _, rfl⟩
      | none =>
        rcases h with h | h | h
        · obtain ⟨ps, e, he⟩ := ihl h
          rw [he] at hl
          simp at hl
        · exact absurd h.symm hxa
        · obtain ⟨ps, e, he⟩ := ihr h
          rw [he]
          exact ⟨_, _, rfl⟩

theorem mem_of_locate [DecidableEq α] {a : α} {t : intrusive_set_element α}
    {ps : List (parent_link α)} {e : intrusive_set_element α}
    (h : locate a t = some (ps, e)) : a ∈ t.to_list := by
  obtain ⟨⟨l, hgt, r, rfl⟩, h2⟩ := locate_some h
  rw [← h2, to_list_plug]
  simp

theorem locate_none [DecidableEq α] {a : α} {t : intrusive_set_element α}
    (h : a ∉ t.to_list) : locate a t = none := by
  cases hl : locate a t with
  | none => rfl
  | some res => exact absurd (mem_of_locate hl) h

theorem find_minimum_spec {t : intrusive_set_element α} (h : t.is_null = false) :
    ∃ ml m hm mr, find_minimum t = node ml m hm mr ∧
      t.to_list = m :: (remove_minimum t).to_list := by
  induction t with
  | null => simp [is_null] at h
  | node l a hgt r ihl _ =>
    simp only [find_minimum, remove_minimum]
    cases hl : l.is_null with
    | true =>
      have : l.to_list = [] := (is_null_iff_to_list l).mp hl
      exact ⟨l, a, hgt, r, by simp, by simp [this]⟩
    | false =>
      obtain ⟨ml, m, hm, mr, h1, h2⟩ := ihl hl
      exact ⟨ml, m, hm, mr, by simp [h1], by simp [h2]⟩

theorem find_maximum_spec {t : intrusive_set_element α} (h : t.is_null = false) :
    ∃ ml m hm mr, find_maximum t = node ml m hm mr ∧ t.to_list.getLast? = some m := by
  induction t with
  | null => simp [is_null] at h
  | node l a hgt r _ ihr =>
    simp only [find_maximum]
    cases hr : r.is_null with
    | true =>
      have : r.to_list = [] := (is_null_iff_to_list r).mp hr
      exact ⟨l, a, hgt, r, by simp, by simp [this]⟩
    | false =>
      obtain ⟨ml, m, hm, mr, h1, h2⟩ := ihr hr
      refine ⟨ml, m, hm, mr, by simp [h1], ?_⟩
      rw [to_list_node, List.append_cons, List.getLast?_append, h2]
      rfl

theorem to_list_balance_children (e : intrusive_set_element α) :
    (balance_children e).to_list = e.to_list := by
  cases e with
  | null => rfl
  | node l a h r =>
    simp only [balance_children]
    split_ifs <;> simp

theorem to_list_up_balance_loop (e : intrusive_set_element α) (ps : List (parent_link α)) :
    (up_balance_loop e ps).to_list = (plug e ps).to_list := by
  induction ps generalizing e with
  | nil =>
    simp only [up_balance_loop, plug]
    split_ifs <;> simp [to_list_balance_children]
  | cons p ps ih =>
    simp only [up_balance_loop, plug, ih]
    apply to_list_plug_congr
    simp [to_list_attach, to_list_balance_children]

theorem to_list_up_balance (e : intrusive_set_element α) (ps : List (parent_link α)) :
    (up_balance e ps).to_list = (plug e ps).to_list := by
  unfold up_balance
  split_ifs
  · rfl
  · exact to_list_up_balance_loop e ps

end implementation

namespace implementation

open intrusive_set_element

variable {α K : Type}

theorem not_mem_of_nodup_middle {a : α} {A B : List α} (h : (A ++ a :: B).Nodup) :
    a ∉ A ∧ a ∉ B := by
  have := (List.nodup_cons.mp (List.nodup_middle.mp h)).1
  simpa [not_or] using this

theorem split_unique {a : α} {A B A1 B1 : List α} (h : (A ++ a :: B).Nodup)
    (heq : A ++ a :: B = A1 ++ a :: B1) : A = A1 ∧ B = B1 := by
  obtain ⟨h1, h2⟩ := not_mem_of_nodup_middle h
  have := (List.append_cons_inj_of_not_mem h1 h2).mp heq
  exact ⟨this.1, this.2.2⟩

theorem erase_middle [DecidableEq α] {a : α} {A B : List α} (h : (A ++ a :: B).Nodup) :
    (A ++ a :: B).erase a = A ++ B := by
  rw [List.erase_append_right _ (not_mem_of_nodup_middle h).1, List.erase_cons_head]

theorem head_ptr_append_of_ne_nil {xs : List α} (ys : List α) (h : xs ≠ []) :
    head_ptr (xs ++ ys) = head_ptr xs := by
  cases xs with
  | nil => exact absurd rfl h
  | cons x xs => rfl

theorem climb_eq (ps : List (parent_link α)) : iterator.climb ps = head_ptr (after_of ps) := by
  induction ps with
  | nil => rfl
  | cons p ps ih =>
    simp only [iterator.climb, after_of]
    split_ifs
    · simpa using ih
    · rfl

theorem remove_cmp [DecidableEq α] (s : intrusive_set α K) (p : node_ptr α) :
    (s.remove p).cmp = s.cmp := by
  unfold intrusive_set.remove
  split
  · split <;> rfl
  · rfl

theorem to_list_splice (l r : intrusive_set_element α) :
    (if r.is_null then l else set_children (find_minimum r) l (remove_minimum r)).to_list =
      l.to_list ++ r.to_list := by
  cases hr : r.is_null with
  | true => simp [(is_null_iff_to_list r).mp hr]
  | false =>
    obtain ⟨ml, m, hm, mr, h1, h2⟩ := find_minimum_spec hr
    simp [h1, h2, set_children, set_left, set_right]

theorem to_list_remove [DecidableEq α] (s : intrusive_set α K) (a : α)
    (hnd : s.root.to_list.Nodup) :
    (s.remove (node_ptr.elem a)).root.to_list = s.root.to_list.erase a := by
  simp only [intrusive_set.remove]
  cases hl : locate a s.root with
  | none =>
    have : a ∉ s.root.to_list := fun hm => by
      obtain ⟨ps, e, he⟩ := locate_of_mem hm
      rw [he] at hl
      simp at hl
    simp [List.erase_of_not_mem this]
  | some res =>
    obtain ⟨ps, e⟩ := res
    obtain ⟨⟨l, hgt, r, rfl⟩, h2⟩ := locate_some hl
    simp only [left, right]
    rw [to_list_up_balance, to_list_plug, to_list_splice]
    have h3 : s.root.to_list = (before_of ps ++ l.to_list) ++ a :: (r.to_list ++ after_of ps) := by
      rw [← h2, to_list_plug]
      simp
    rw [h3] at hnd ⊢
    rw [erase_middle hnd]
    simp

theorem mem_remove [DecidableEq α] (s : intrusive_set α K) (a x : α)
    (hnd : s.root.to_list.Nodup) :
    x ∈ (s.remove (node_ptr.elem a)).root.to_list ↔ x ≠ a ∧ x ∈ s.root.to_list := by
  rw [to_list_remove s a hnd, hnd.mem_erase_iff]

theorem count_remove [DecidableEq α] (s : intrusive_set α K) (a : α)
    (hnd : s.root.to_list.Nodup) (ha : a ∈ s.root.to_list) :
    (s.remove (node_ptr.elem a)).root.count + 1 = s.root.count := by
  rw [count_eq_length, count_eq_length, to_list_remove s a hnd, List.length_erase_of_mem ha]
  have : 0 < s.root.to_list.length := List.length_pos_of_mem ha
  omega

theorem remove_ordered [DecidableEq α] {get : α → K} (s : intrusive_set α K) (a : α)
    (hc : strict_weak_order s.cmp) (ho : ordered s.cmp get s.root) :
    ordered s.cmp get (s.remove (node_ptr.elem a)).root := by
  unfold ordered
  rw [to_list_remove s a (ordered_nodup hc ho)]
  exact List.Pairwise.sublist (List.erase_sublist a _) ho

theorem increment_spec [DecidableEq α] {t : intrusive_set_element α} (hnd : t.to_list.Nodup)
    {pre post : List α} {a : α} (h : t.to_list = pre ++ a :: post) :
    iterator.increment t ⟨node_ptr.elem a⟩ = ⟨head_ptr post⟩ := by
  have hmem : a ∈ t.to_list := by simp [h]
  obtain ⟨ps, e, hl⟩ := locate_of_mem hmem
  obtain ⟨⟨l, hgt, r, rfl⟩, h2⟩ := locate_some hl
  have h3 : t.to_list = (before_of ps ++ l.to_list) ++ a :: (r.to_list ++ after_of ps) := by
    rw [← h2, to_list_plug]
    simp
  have h4 : post = r.to_list ++ after_of ps := by
    rw [h] at hnd
    rw [h] at h3
    exact (split_unique hnd h3).2
  simp only [iterator.increment, hl, right]
  cases hr : r.is_null with
  | true =>
    simp [h4, (is_null_iff_to_list r).mp hr, climb_eq]
  | false =>
    obtain ⟨ml, m, hm, mr, h5, h6⟩ := find_minimum_spec hr
    simp [h4, h5, h6, ptr, head_ptr]

end implementation

/-! ## The bimap layer -/

namespace bimap

open implementation intrusive_set_element

variable {L R : Type}

theorem not_null_find_at {α K : Type} (cmp : K → K → Bool) (get : α → K)
    (t : intrusive_set_element α) (k : K) :
    intrusive_set.not_null (find_at cmp get t k) = node_ptr.fake ∨
      ∃ a, find_at cmp get t k = node_ptr.elem a ∧
        intrusive_set.not_null (find_at cmp get t k) = node_ptr.elem a := by
  cases h : find_at cmp get t k with
  | null => exact Or.inl rfl
  | fake => exact absurd h (find_at_ne_fake t k)
  | elem a => exact Or.inr ⟨a, rfl, rfl⟩

/-- The result of `find` is never the null pointer. -/
theorem find_ne_null {α K : Type} (s : intrusive_set α K) (get : α → K) (k : K) :
    s.find get k ≠ node_ptr.null := by
  unfold intrusive_set.find
  rcases not_null_find_at s.cmp get s.root k with h | ⟨a, -, h⟩ <;> rw [h] <;> simp

theorem find_left_stored {b : bimap L R} (hb : b.ordered_inv) {n : node_t L R}
    (hn : n ∈ b.left_set.root.to_list) {k : L} (he : equiv b.left_set.cmp n.left_key k) :
    b.find_left k = ⟨⟨node_ptr.elem n⟩⟩ := by
  simp only [find_left, intrusive_set.find]
  rw [find_at_complete hb.left_cmp hb.left_ordered hn he]
  rfl

theorem find_right_stored {b : bimap L R} (hb : b.ordered_inv) {n : node_t L R}
    (hn : n ∈ b.right_set.root.to_list) {k : R} (he : equiv b.right_set.cmp n.right_key k) :
    b.find_right k = ⟨⟨node_ptr.elem n⟩⟩ := by
  simp only [find_right, intrusive_set.find]
  rw [find_at_complete hb.right_cmp hb.right_ordered hn he]
  rfl

theorem find_left_absent {b : bimap L R} {k : L}
    (h : ∀ n ∈ b.left_set.root.to_list, ¬ equiv b.left_set.cmp n.left_key k) :
    b.find_left k = b.end_left := by
  simp only [find_left, intrusive_set.find, end_left, intrusive_set.end_]
  rw [@find_at_absent _ _ _ left_getter _ _ h]
  rfl

theorem find_right_absent {b : bimap L R} {k : R}
    (h : ∀ n ∈ b.right_set.root.to_list, ¬ equiv b.right_set.cmp n.right_key k) :
    b.find_right k = b.end_right := by
  simp only [find_right, intrusive_set.find, end_right, intrusive_set.end_]
  rw [@find_at_absent _ _ _ right_getter _ _ h]
  rfl

theorem find_left_cases (b : bimap L R) (k : L) :
    b.find_left k = b.end_left ∨
      ∃ n, n ∈ b.left_set.root.to_list ∧ equiv b.left_set.cmp n.left_key k ∧
        b.find_left k = ⟨⟨node_ptr.elem n⟩⟩ := by
  simp only [find_left, intrusive_set.find, end_left, intrusive_set.end_]
  rcases not_null_find_at b.left_set.cmp left_getter b.left_set.root k with h | ⟨a, h1, h2⟩
  · exact Or.inl (by rw [h])
  · exact Or.inr ⟨a, (find_at_sound h1).1, (find_at_sound h1).2, by rw [h2]⟩

theorem find_right_cases (b : bimap L R) (k : R) :
    b.find_right k = b.end_right ∨
      ∃ n, n ∈ b.right_set.root.to_list ∧ equiv b.right_set.cmp n.right_key k ∧
        b.find_right k = ⟨⟨node_ptr.elem n⟩⟩ := by
  simp only [find_right, intrusive_set.find, end_right, intrusive_set.end_]
  rcases not_null_find_at b.right_set.cmp right_getter b.right_set.root k with h | ⟨a, h1, h2⟩
  · exact Or.inl (by rw [h])
  · exact Or.inr ⟨a, (find_at_sound h1).1, (find_at_sound h1).2, by rw [h2]⟩

theorem elem_ne_end_left (b : bimap L R) (n : node_t L R) :
    (⟨⟨node_ptr.elem n⟩⟩ : left_iterator L R) ≠ b.end_left := by
  simp [end_left, intrusive_set.end_]

theorem elem_ne_end_right (b : bimap L R) (n : node_t L R) :
    (⟨⟨node_ptr.elem n⟩⟩ : right_iterator L R) ≠ b.end_right := by
  simp [end_right, intrusive_set.end_]

/-- Uniqueness of keys in an ordered tree: equivalent keys designate one element. -/
theorem ordered_unique {α K : Type} {cmp : K → K → Bool} {get : α → K}
    (hc : strict_weak_order cmp) {t : intrusive_set_element α} (ht : ordered cmp get t)
    {a b : α} (ha : a ∈ t.to_list) (hb : b ∈ t.to_list)
    (he : equiv cmp (get a) (get b)) : a = b := by
  have h1 := find_at_complete hc ht ha he
  have h2 := find_at_complete hc ht hb (hc.equiv_refl (get b))
  rw [h1] at h2
  cases h2
  rfl

theorem base_iterator_ext {is_left : Bool} {x y : base_iterator is_left L R}
    (h : x.it.m_node = y.it.m_node) : x = y := by
  obtain ⟨⟨x⟩⟩ := x
  obtain ⟨⟨y⟩⟩ := y
  simp only at h
  rw [h]

theorem begin_left_eq (b : bimap L R) :
    b.begin_left = ⟨⟨head_ptr b.left_set.root.to_list⟩⟩ := by
  simp only [begin_left, intrusive_set.begin, intrusive_set.get_minimum]
  cases hr : b.left_set.root.is_null with
  | true =>
    have h1 : b.left_set.root = null := by
      cases h : b.left_set.root with
      | null => rfl
      | node _ _ _ _ => rw [h] at hr; simp [is_null] at hr
    rw [h1]
    rfl
  | false =>
    obtain ⟨ml, m, hm, mr, h1, h2⟩ := find_minimum_spec hr
    rw [h1, h2]
    rfl

theorem clear_valid_range (b : bimap L R) : b.valid_left_range b.begin_left b.end_left :=
  ⟨[], b.left_set.root.to_list, [], by simp, by rw [begin_left_eq]; simp, rfl⟩

theorem create_wf {cl : L → L → Bool} {cr : R → R → Bool} (hl : strict_weak_order cl)
    (hr : strict_weak_order cr) : (create cl cr).wf :=
  { left_cmp := hl, right_cmp := hr, left_ordered := ordered_null _ _,
    right_ordered := ordered_null _ _, same_nodes := fun _ => Iff.rfl,
    size_left := rfl, size_right := rfl }

theorem swap_wf {a b : bimap L R} (ha : a.wf) (hb : b.wf)
    (hl : a.left_set.cmp = b.left_set.cmp) (hr : a.right_set.cmp = b.right_set.cmp) :
    (a.swap b).1.wf := by
  simp only [swap, intrusive_set.swap]
  exact { left_cmp := ha.left_cmp, right_cmp := ha.right_cmp,
          left_ordered := by simpa [hl] using hb.left_ordered,
          right_ordered := by simpa [hr] using hb.right_ordered,
          same_nodes := hb.same_nodes, size_left := hb.size_left, size_right := hb.size_right }

variable [DecidableEq L] [DecidableEq R]

theorem is_end_elem {t : intrusive_set_element (node_t L R)} {n : node_t L R}
    (hn : n ∈ t.to_list) : iterator.is_end t ⟨node_ptr.elem n⟩ = false := by
  obtain ⟨ps, e, hl⟩ := locate_of_mem hn
  simp only [iterator.is_end, iterator.parent_of, hl]
  cases ps <;> simp

theorem is_end_fake (t : intrusive_set_element (node_t L R)) :
    iterator.is_end t ⟨node_ptr.fake⟩ = true := by
  simp [iterator.is_end, iterator.parent_of]

theorem flip_elem {is_left : Bool} (b : bimap L R) {n : node_t L R}
    (hn : n ∈ (b.tree is_left).to_list) :
    (⟨⟨node_ptr.elem n⟩⟩ : base_iterator is_left L R).flip b = ⟨⟨node_ptr.elem n⟩⟩ := by
  simp [base_iterator.flip, is_end_elem hn, flip, template_flip]

theorem flip_fake {is_left : Bool} (b : bimap L R) :
    (⟨⟨node_ptr.fake⟩⟩ : base_iterator is_left L R).flip b = ⟨⟨node_ptr.fake⟩⟩ := by
  simp [base_iterator.flip, is_end_fake]

theorem template_insert_rejected {b : bimap L R} (hb : b.ordered_inv) {l : L} {r : R} (m : L)
    (h : (∃ n ∈ b.left_set.root.to_list, equiv b.left_set.cmp n.left_key l) ∨
      (∃ n ∈ b.right_set.root.to_list, equiv b.right_set.cmp n.right_key r)) :
    b.template_insert l r m = (b, b.end_left) := by
  simp only [template_insert]
  rw [if_pos]
  rcases h with ⟨n, hn, he⟩ | ⟨n, hn, he⟩
  · left
    rw [find_left_stored hb hn he]
    exact elem_ne_end_left b n
  · right
    rw [find_right_stored hb hn he]
    exact elem_ne_end_right b n

theorem insert_rejected {b : bimap L R} (hb : b.ordered_inv) {l : L} {r : R}
    (h : (∃ n ∈ b.left_set.root.to_list, equiv b.left_set.cmp n.left_key l) ∨
      (∃ n ∈ b.right_set.root.to_list, equiv b.right_set.cmp n.right_key r)) :
    b.insert l r = (b, b.end_left) :=
  template_insert_rejected hb l h

/-- The state after a successful `insert`. -/
theorem insert_accepted_state {b : bimap L R} {l : L} {r : R}
    (hl : ∀ n ∈ b.left_set.root.to_list, ¬ equiv b.left_set.cmp n.left_key l)
    (hr : ∀ n ∈ b.right_set.root.to_list, ¬ equiv b.right_set.cmp n.right_key r) :
    (b.insert l r).1 =
      { m_size := b.m_size + 1
        left_set := b.left_set.insert left_getter ⟨l, r⟩
        right_set := b.right_set.insert right_getter ⟨l, r⟩ } := by
  simp only [insert, template_insert]
  rw [if_neg]
  rw [find_left_absent hl, find_right_absent hr]
  simp

theorem insert_accepted_ordered {b : bimap L R} (hb : b.ordered_inv) {l : L} {r : R}
    (hl : ∀ n ∈ b.left_set.root.to_list, ¬ equiv b.left_set.cmp n.left_key l)
    (hr : ∀ n ∈ b.right_set.root.to_list, ¬ equiv b.right_set.cmp n.right_key r) :
    (b.insert l r).1.ordered_inv := by
  rw [insert_accepted_state hl hr]
  exact ⟨hb.left_cmp, hb.right_cmp,
    insert_at_ordered hb.left_cmp hb.left_ordered hl,
    insert_at_ordered hb.right_cmp hb.right_ordered hr⟩

/-- The iterator returned by a successful `template_insert` is the result of
looking up the value read from `left` after the node has been constructed. -/
theorem template_insert_accepted_iterator {b : bimap L R} {l : L} {r : R} (m : L)
    (hl : ∀ n ∈ b.left_set.root.to_list, ¬ equiv b.left_set.cmp n.left_key l)
    (hr : ∀ n ∈ b.right_set.root.to_list, ¬ equiv b.right_set.cmp n.right_key r) :
    (b.template_insert l r m).2 = (b.insert l r).1.find_left m := by
  have hc : ¬ (b.find_left l ≠ b.end_left ∨ b.find_right r ≠ b.end_right) := by
    rw [find_left_absent hl, find_right_absent hr]
    simp
  simp only [insert, template_insert, if_neg hc]

theorem insert_accepted_iterator {b : bimap L R} (hb : b.ordered_inv) {l : L} {r : R}
    (hl : ∀ n ∈ b.left_set.root.to_list, ¬ equiv b.left_set.cmp n.left_key l)
    (hr : ∀ n ∈ b.right_set.root.to_list, ¬ equiv b.right_set.cmp n.right_key r) :
    (b.insert l r).2 = ⟨⟨node_ptr.elem ⟨l, r⟩⟩⟩ := by
  have ho := insert_accepted_ordered hb hl hr
  have hs := insert_accepted_state hl hr
  have h2 : (b.insert l r).2 = (b.insert l r).1.find_left l := by
    simp only [insert, template_insert]
    rw [if_neg]
    rw [find_left_absent hl, find_right_absent hr]
    simp
  rw [h2]
  apply find_left_stored ho
  · rw [hs]
    exact mem_insert_at.mpr (Or.inl rfl)
  · rw [hs]
    exact hb.left_cmp.equiv_refl l

theorem insert_wf {b : bimap L R} (hb : b.wf) (l : L) (r : R) : (b.insert l r).1.wf := by
  by_cases h : (∃ n ∈ b.left_set.root.to_list, equiv b.left_set.cmp n.left_key l) ∨
      (∃ n ∈ b.right_set.root.to_list, equiv b.right_set.cmp n.right_key r)
  · rw [insert_rejected hb.toordered_inv h]
    exact hb
  · simp only [not_or, not_exists, not_and] at h
    obtain ⟨hl, hr⟩ := h
    refine { toordered_inv := insert_accepted_ordered hb.toordered_inv hl hr,
             same_nodes := ?_, size_left := ?_, size_right := ?_ }
    · intro n
      rw [insert_accepted_state hl hr]
      simp only [intrusive_set.insert, mem_insert_at, hb.same_nodes n]
    · rw [insert_accepted_state hl hr]
      simp only [intrusive_set.insert, count_insert_at, hb.size_left]
    · rw [insert_accepted_state hl hr]
      simp only [intrusive_set.insert, count_insert_at, ← hb.size_right]

theorem insert_rvalue_state (b : bimap L R) (l : L) (r : R) (m : L) :
    (b.insert_rvalue l r m).1 = (b.insert l r).1 := by
  simp only [insert_rvalue, insert, template_insert]
  split_ifs <;> rfl

theorem insert_cmp (b : bimap L R) (l : L) (r : R) :
    (b.insert l r).1.left_set.cmp = b.left_set.cmp ∧
      (b.insert l r).1.right_set.cmp = b.right_set.cmp := by
  simp only [insert, template_insert]
  split_ifs <;> exact ⟨rfl, rfl⟩

theorem erase_left_it_state (b : bimap L R) {n : node_t L R}
    (hn : n ∈ b.left_set.root.to_list) :
    (b.erase_left_it ⟨⟨node_ptr.elem n⟩⟩).1 = b.erase ⟨⟨node_ptr.elem n⟩⟩ ⟨⟨node_ptr.elem n⟩⟩ := by
  have : n ∈ (b.tree true).to_list := hn
  simp only [erase_left_it, flip_elem b this]

theorem erase_right_it_state (b : bimap L R) {n : node_t L R}
    (hn : n ∈ b.right_set.root.to_list) :
    (b.erase_right_it ⟨⟨node_ptr.elem n⟩⟩).1 = b.erase ⟨⟨node_ptr.elem n⟩⟩ ⟨⟨node_ptr.elem n⟩⟩ := by
  have : n ∈ (b.tree false).to_list := hn
  simp only [erase_right_it, flip_elem b this]

theorem erase_left_list {b : bimap L R} (hb : b.ordered_inv) (n : node_t L R) :
    (b.erase ⟨⟨node_ptr.elem n⟩⟩ ⟨⟨node_ptr.elem n⟩⟩).left_set.root.to_list =
      b.left_set.root.to_list.erase n :=
  to_list_remove b.left_set n (ordered_nodup hb.left_cmp hb.left_ordered)

theorem erase_right_list {b : bimap L R} (hb : b.ordered_inv) (n : node_t L R) :
    (b.erase ⟨⟨node_ptr.elem n⟩⟩ ⟨⟨node_ptr.elem n⟩⟩).right_set.root.to_list =
      b.right_set.root.to_list.erase n :=
  to_list_remove b.right_set n (ordered_nodup hb.right_cmp hb.right_ordered)

theorem erase_cmp (b : bimap L R) (x : left_iterator L R) (y : right_iterator L R) :
    (b.erase x y).left_set.cmp = b.left_set.cmp ∧
      (b.erase x y).right_set.cmp = b.right_set.cmp :=
  ⟨remove_cmp _ _, remove_cmp _ _⟩

theorem erase_ordered {b : bimap L R} (hb : b.ordered_inv) (n : node_t L R) :
    (b.erase ⟨⟨node_ptr.elem n⟩⟩ ⟨⟨node_ptr.elem n⟩⟩).ordered_inv := by
  refine ⟨?_, ?_, ?_, ?_⟩
  · rw [(erase_cmp b _ _).1]
    exact hb.left_cmp
  · rw [(erase_cmp b _ _).2]
    exact hb.right_cmp
  · rw [(erase_cmp b _ _).1]
    exact remove_ordered b.left_set n hb.left_cmp hb.left_ordered
  · rw [(erase_cmp b _ _).2]
    exact remove_ordered b.right_set n hb.right_cmp hb.right_ordered

theorem erase_wf {b : bimap L R} (hb : b.wf) {n : node_t L R}
    (hn : n ∈ b.left_set.root.to_list) :
    (b.erase ⟨⟨node_ptr.elem n⟩⟩ ⟨⟨node_ptr.elem n⟩⟩).wf := by
  have hndl := ordered_nodup hb.left_cmp hb.left_ordered
  have hndr := ordered_nodup hb.right_cmp hb.right_ordered
  have hnr : n ∈ b.right_set.root.to_list := (hb.same_nodes n).mp hn
  refine { toordered_inv := erase_ordered hb.toordered_inv n,
           same_nodes := ?_, size_left := ?_, size_right := ?_ }
  · intro m
    rw [erase_left_list hb.toordered_inv, erase_right_list hb.toordered_inv,
      hndl.mem_erase_iff, hndr.mem_erase_iff, hb.same_nodes m]
  · have := count_remove b.left_set n hndl hn
    have h2 := hb.size_left
    simp only [erase, base_iterator.get_node]
    omega
  · have := count_remove b.right_set n hndr hnr
    have h2 := hb.size_right
    simp only [erase, base_iterator.get_node]
    omega

theorem erase_size {b : bimap L R} (hb : b.wf) {n : node_t L R}
    (hn : n ∈ b.left_set.root.to_list) :
    (b.erase ⟨⟨node_ptr.elem n⟩⟩ ⟨⟨node_ptr.elem n⟩⟩).m_size + 1 = b.m_size := by
  have := count_remove b.left_set n (ordered_nodup hb.left_cmp hb.left_ordered) hn
  have h2 := hb.size_left
  simp only [erase]
  omega

theorem erase_left_key_cases (b : bimap L R) (k : L) :
    ((∀ n ∈ b.left_set.root.to_list, b.find_left k ≠ ⟨⟨node_ptr.elem n⟩⟩) ∧
        b.find_left k = b.end_left ∧ b.erase_left_key k = (b, false)) ∨
      ∃ n, n ∈ b.left_set.root.to_list ∧ equiv b.left_set.cmp n.left_key k ∧
        b.find_left k = ⟨⟨node_ptr.elem n⟩⟩ ∧
        b.erase_left_key k = (b.erase ⟨⟨node_ptr.elem n⟩⟩ ⟨⟨node_ptr.elem n⟩⟩, true) := by
  rcases find_left_cases b k with h | ⟨n, hn, he, h⟩
  · left
    refine ⟨?_, h, ?_⟩
    · intro n _
      rw [h]
      exact (elem_ne_end_left b n).symm
    · simp only [erase_left_key]
      rw [if_pos h]
  · right
    refine ⟨n, hn, he, h, ?_⟩
    simp only [erase_left_key]
    rw [h, if_neg (elem_ne_end_left b n), erase_left_it_state b hn]

theorem erase_right_key_cases (b : bimap L R) (k : R) :
    ((∀ n ∈ b.right_set.root.to_list, b.find_right k ≠ ⟨⟨node_ptr.elem n⟩⟩) ∧
        b.find_right k = b.end_right ∧ b.erase_right_key k = (b, false)) ∨
      ∃ n, n ∈ b.right_set.root.to_list ∧ equiv b.right_set.cmp n.right_key k ∧
        b.find_right k = ⟨⟨node_ptr.elem n⟩⟩ ∧
        b.erase_right_key k = (b.erase ⟨⟨node_ptr.elem n⟩⟩ ⟨⟨node_ptr.elem n⟩⟩, true) := by
  rcases find_right_cases b k with h | ⟨n, hn, he, h⟩
  · left
    refine ⟨?_, h, ?_⟩
    · intro n _
      rw [h]
      exact (elem_ne_end_right b n).symm
    · simp only [erase_right_key]
      rw [if_pos h]
  · right
    refine ⟨n, hn, he, h, ?_⟩
    simp only [erase_right_key]
    rw [h, if_neg (elem_ne_end_right b n), erase_right_it_state b hn]

theorem erase_left_key_wf {b : bimap L R} (hb : b.wf) (k : L) : (b.erase_left_key k).1.wf := by
  rcases erase_left_key_cases b k with ⟨-, -, h⟩ | ⟨n, hn, -, -, h⟩
  · rw [h]
    exact hb
  · rw [h]
    exact erase_wf hb hn

theorem erase_right_key_wf {b : bimap L R} (hb : b.wf) (k : R) :
    (b.erase_right_key k).1.wf := by
  rcases erase_right_key_cases b k with ⟨-, -, h⟩ | ⟨n, hn, -, -, h⟩
  · rw [h]
    exact hb
  · rw [h]
    exact erase_wf hb ((hb.same_nodes n).mpr hn)

theorem erase_left_key_cmp (b : bimap L R) (k : L) :
    (b.erase_left_key k).1.left_set.cmp = b.left_set.cmp ∧
      (b.erase_left_key k).1.right_set.cmp = b.right_set.cmp := by
  rcases erase_left_key_cases b k with ⟨-, -, h⟩ | ⟨n, -, -, -, h⟩
  · rw [h]
    exact ⟨rfl, rfl⟩
  · rw [h]
    exact erase_cmp b _ _

theorem erase_right_key_cmp (b : bimap L R) (k : R) :
    (b.erase_right_key k).1.left_set.cmp = b.left_set.cmp ∧
      (b.erase_right_key k).1.right_set.cmp = b.right_set.cmp := by
  rcases erase_right_key_cases b k with ⟨-, -, h⟩ | ⟨n, -, -, -, h⟩
  · rw [h]
    exact ⟨rfl, rfl⟩
  · rw [h]
    exact erase_cmp b _ _

end bimap

namespace bimap

open implementation intrusive_set_element

variable {L R : Type} [DecidableEq L] [DecidableEq R]

theorem head_ptr_eq_elem_mem {α : Type} {xs : List α} {a : α}
    (h : node_ptr.elem a = head_ptr xs) : a ∈ xs := by
  cases xs with
  | nil => simp [head_ptr] at h
  | cons x xs =>
    simp only [head_ptr, node_ptr.elem.injEq] at h
    simp [h]

theorem erase_left_loop_spec (fuel : Nat) (b : bimap L R) (hb : b.wf)
    (pre mid post : List (node_t L R)) (hlist : b.left_set.root.to_list = pre ++ mid ++ post)
    (it last : left_iterator L R) (hit : it.it.m_node = head_ptr (mid ++ post))
    (hlast : last.it.m_node = head_ptr post) :
    (erase_left_loop fuel b it last).wf ∧
      (erase_left_loop fuel b it last).left_set.cmp = b.left_set.cmp ∧
      (erase_left_loop fuel b it last).right_set.cmp = b.right_set.cmp ∧
      (mid.length ≤ fuel →
        (erase_left_loop fuel b it last).left_set.root.to_list = pre ++ post) := by
  have hnd := ordered_nodup hb.left_cmp hb.left_ordered
  induction fuel generalizing b mid it with
  | zero =>
    refine ⟨hb, rfl, rfl, ?_⟩
    intro hlen
    have : mid = [] := List.length_eq_zero.mp (Nat.le_zero.mp hlen)
    subst this
    simpa using hlist
  | succ fuel ih =>
    simp only [erase_left_loop]
    cases mid with
    | nil =>
      have : it = last := base_iterator_ext (by rw [hit, hlast]; rfl)
      rw [if_pos this]
      exact ⟨hb, rfl, rfl, fun _ => by simpa using hlist⟩
    | cons x mid =>
      have hx : it = ⟨⟨node_ptr.elem x⟩⟩ := base_iterator_ext (by rw [hit]; rfl)
      have hsplit : b.left_set.root.to_list = pre ++ x :: (mid ++ post) := by
        rw [hlist]
        simp
      have hne : it ≠ last := by
        intro heq
        rw [hsplit] at hnd
        have h1 : node_ptr.elem x = head_ptr post := by
          rw [← hlast, ← heq, hx]
        have h2 := head_ptr_eq_elem_mem h1
        exact (not_mem_of_nodup_middle hnd).2 (by simp [h2])
      rw [if_neg hne]
      have hxm : x ∈ b.left_set.root.to_list := by
        rw [hsplit]
        simp
      have hinc : it.increment b = ⟨⟨head_ptr (mid ++ post)⟩⟩ := by
        rw [hx]
        simp only [base_iterator.increment]
        have := increment_spec (t := b.tree true) hnd hsplit
        rw [this]
      rw [hinc, hx, erase_left_it_state b hxm]
      have hlist1 : (b.erase ⟨⟨node_ptr.elem x⟩⟩ ⟨⟨node_ptr.elem x⟩⟩).left_set.root.to_list =
          pre ++ mid ++ post := by
        rw [erase_left_list hb.toordered_inv, hsplit]
        rw [hsplit] at hnd
        rw [erase_middle hnd]
        simp
      have hb1 := erase_wf hb hxm
      obtain ⟨h1, h2, h3, h4⟩ := ih _ hb1 mid hlist1 ⟨⟨head_ptr (mid ++ post)⟩⟩ rfl
        (ordered_nodup hb1.left_cmp hb1.left_ordered)
      refine ⟨h1, ?_, ?_, ?_⟩
      · rw [h2, (erase_cmp b _ _).1]
      · rw [h3, (erase_cmp b _ _).2]
      · intro hlen
        exact h4 (by simpa using hlen)

theorem erase_right_loop_spec (fuel : Nat) (b : bimap L R) (hb : b.wf)
    (pre mid post : List (node_t L R)) (hlist : b.right_set.root.to_list = pre ++ mid ++ post)
    (it last : right_iterator L R) (hit : it.it.m_node = head_ptr (mid ++ post))
    (hlast : last.it.m_node = head_ptr post) :
    (erase_right_loop fuel b it last).wf ∧
      (erase_right_loop fuel b it last).left_set.cmp = b.left_set.cmp ∧
      (erase_right_loop fuel b it last).right_set.cmp = b.right_set.cmp ∧
      (mid.length ≤ fuel →
        (erase_right_loop fuel b it last).right_set.root.to_list = pre ++ post) := by
  have hnd := ordered_nodup hb.right_cmp hb.right_ordered
  induction fuel generalizing b mid it with
  | zero =>
    refine ⟨hb, rfl, rfl, ?_⟩
    intro hlen
    have : mid = [] := List.length_eq_zero.mp (Nat.le_zero.mp hlen)
    subst this
    simpa using hlist
  | succ fuel ih =>
    simp only [erase_right_loop]
    cases mid with
    | nil =>
      have : it = last := base_iterator_ext (by rw [hit, hlast]; rfl)
      rw [if_pos this]
      exact ⟨hb, rfl, rfl, fun _ => by simpa using hlist⟩
    | cons x mid =>
      have hx : it = ⟨⟨node_ptr.elem x⟩⟩ := base_iterator_ext (by rw [hit]; rfl)
      have hsplit : b.right_set.root.to_list = pre ++ x :: (mid ++ post) := by
        rw [hlist]
        simp
      have hne : it ≠ last := by
        intro heq
        rw [hsplit] at hnd
        have h1 : node_ptr.elem x = head_ptr post := by
          rw [← hlast, ← heq, hx]
        have h2 := head_ptr_eq_elem_mem h1
        exact (not_mem_of_nodup_middle hnd).2 (by simp [h2])
      rw [if_neg hne]
      have hxm : x ∈ b.right_set.root.to_list := by
        rw [hsplit]
        simp
      have hinc : it.increment b = ⟨⟨head_ptr (mid ++ post)⟩⟩ := by
        rw [hx]
        simp only [base_iterator.increment]
        have := increment_spec (t := b.tree false) hnd hsplit
        rw [this]
      rw [hinc, hx, erase_right_it_state b hxm]
      have hlist1 : (b.erase ⟨⟨node_ptr.elem x⟩⟩ ⟨⟨node_ptr.elem x⟩⟩).right_set.root.to_list =
          pre ++ mid ++ post := by
        rw [erase_right_list hb.toordered_inv, hsplit]
        rw [hsplit] at hnd
        rw [erase_middle hnd]
        simp
      have hb1 := erase_wf hb ((hb.same_nodes x).mpr hxm)
      obtain ⟨h1, h2, h3, h4⟩ := ih _ hb1 mid hlist1 ⟨⟨head_ptr (mid ++ post)⟩⟩ rfl
        (ordered_nodup hb1.right_cmp hb1.right_ordered)
      refine ⟨h1, ?_, ?_, ?_⟩
      · rw [h2, (erase_cmp b _ _).1]
      · rw [h3, (erase_cmp b _ _).2]
      · intro hlen
        exact h4 (by simpa using hlen)

theorem erase_left_range_wf {b : bimap L R} (hb : b.wf) {first last : left_iterator L R}
    (hv : b.valid_left_range first last) :
    (b.erase_left_range first last).1.wf ∧
      (b.erase_left_range first last).1.left_set.cmp = b.left_set.cmp ∧
      (b.erase_left_range first last).1.right_set.cmp = b.right_set.cmp := by
  obtain ⟨pre, mid, post, h1, h2, h3⟩ := hv
  obtain ⟨r1, r2, r3, -⟩ := erase_left_loop_spec b.left_set.root.count b hb pre mid post h1
    first last h2 h3
  exact ⟨r1, r2, r3⟩

theorem erase_right_range_wf {b : bimap L R} (hb : b.wf) {first last : right_iterator L R}
    (hv : b.valid_right_range first last) :
    (b.erase_right_range first last).1.wf ∧
      (b.erase_right_range first last).1.left_set.cmp = b.left_set.cmp ∧
      (b.erase_right_range first last).1.right_set.cmp = b.right_set.cmp := by
  obtain ⟨pre, mid, post, h1, h2, h3⟩ := hv
  obtain ⟨r1, r2, r3, -⟩ := erase_right_loop_spec b.right_set.root.count b hb pre mid post h1
    first last h2 h3
  exact ⟨r1, r2, r3⟩

theorem at_left_or_default_wf [Inhabited R] {b : bimap L R} (hb : b.wf) (k : L) :
    (b.at_left_or_default k).1.wf ∧
      (b.at_left_or_default k).1.left_set.cmp = b.left_set.cmp ∧
      (b.at_left_or_default k).1.right_set.cmp = b.right_set.cmp := by
  simp only [at_left_or_default]
  split_ifs
  · exact ⟨hb, rfl, rfl⟩
  · refine ⟨insert_wf (erase_right_key_wf hb _) _ _, ?_, ?_⟩
    · rw [(insert_cmp _ _ _).1, (erase_right_key_cmp _ _).1]
    · rw [(insert_cmp _ _ _).2, (erase_right_key_cmp _ _).2]

theorem at_right_or_default_wf [Inhabited L] {b : bimap L R} (hb : b.wf) (k : R) (m : L) :
    (b.at_right_or_default k m).1.wf ∧
      (b.at_right_or_default k m).1.left_set.cmp = b.left_set.cmp ∧
      (b.at_right_or_default k m).1.right_set.cmp = b.right_set.cmp := by
  simp only [at_right_or_default]
  split_ifs
  · exact ⟨hb, rfl, rfl⟩
  · rw [insert_rvalue_state]
    refine ⟨insert_wf (erase_left_key_wf hb _) _ _, ?_, ?_⟩
    · rw [(insert_cmp _ _ _).1, (erase_left_key_cmp _ _).1]
    · rw [(insert_cmp _ _ _).2, (erase_left_key_cmp _ _).2]

/-- Any sequence of inserts keeps the representation invariant, in particular
the ordering of both trees. -/
theorem insert_all_wf {b : bimap L R} (hb : b.wf) (xs : List (L × R)) :
    (insert_all b xs).wf := by
  induction xs generalizing b with
  | nil => exact hb
  | cons x xs ih =>
    obtain ⟨l, r⟩ := x
    exact ih (insert_wf hb l r)

/-- Every reachable bimap satisfies the representation invariant and still
carries the comparators it was created with. -/
theorem reachable_wf [Inhabited L] [Inhabited R] {cl : L → L → Bool} {cr : R → R → Bool}
    (hl : strict_weak_order cl) (hr : strict_weak_order cr) {b : bimap L R}
    (h : reachable cl cr b) : b.wf ∧ b.left_set.cmp = cl ∧ b.right_set.cmp = cr := by
  induction h with
  | create => exact ⟨create_wf hl hr, rfl, rfl⟩
  | insert b l r _ ih =>
    exact ⟨insert_wf ih.1 l r, by rw [(insert_cmp b l r).1, ih.2.1],
      by rw [(insert_cmp b l r).2, ih.2.2]⟩
  | erase_left_it b n _ hn ih =>
    rw [erase_left_it_state b hn]
    exact ⟨erase_wf ih.1 hn, by rw [(erase_cmp b _ _).1, ih.2.1],
      by rw [(erase_cmp b _ _).2, ih.2.2]⟩
  | erase_right_it b n _ hn ih =>
    rw [erase_right_it_state b ((ih.1.same_nodes n).mp hn)]
    exact ⟨erase_wf ih.1 hn, by rw [(erase_cmp b _ _).1, ih.2.1],
      by rw [(erase_cmp b _ _).2, ih.2.2]⟩
  | erase_left_key b k _ ih =>
    exact ⟨erase_left_key_wf ih.1 k, by rw [(erase_left_key_cmp b k).1, ih.2.1],
      by rw [(erase_left_key_cmp b k).2, ih.2.2]⟩
  | erase_right_key b k _ ih =>
    exact ⟨erase_right_key_wf ih.1 k, by rw [(erase_right_key_cmp b k).1, ih.2.1],
      by rw [(erase_right_key_cmp b k).2, ih.2.2]⟩
  | erase_left_range b first last _ hv ih =>
    obtain ⟨h1, h2, h3⟩ := erase_left_range_wf ih.1 hv
    exact ⟨h1, by rw [h2, ih.2.1], by rw [h3, ih.2.2]⟩
  | erase_right_range b first last _ hv ih =>
    obtain ⟨h1, h2, h3⟩ := erase_right_range_wf ih.1 hv
    exact ⟨h1, by rw [h2, ih.2.1], by rw [h3, ih.2.2]⟩
  | at_left_or_default b k _ ih =>
    obtain ⟨h1, h2, h3⟩ := at_left_or_default_wf ih.1 k
    exact ⟨h1, by rw [h2, ih.2.1], by rw [h3, ih.2.2]⟩
  | insert_rvalue b l r m _ ih =>
    rw [insert_rvalue_state]
    exact ⟨insert_wf ih.1 l r, by rw [(insert_cmp b l r).1, ih.2.1],
      by rw [(insert_cmp b l r).2, ih.2.2]⟩
  | at_right_or_default b k m _ ih =>
    obtain ⟨h1, h2, h3⟩ := at_right_or_default_wf ih.1 k m
    exact ⟨h1, by rw [h2, ih.2.1], by rw [h3, ih.2.2]⟩
  | clear b _ ih =>
    obtain ⟨h1, h2, h3⟩ := erase_left_range_wf ih.1 (clear_valid_range b)
    exact ⟨h1, by rw [clear, h2, ih.2.1], by rw [clear, h3, ih.2.2]⟩
  | swap a b _ _ iha ihb =>
    exact ⟨swap_wf iha.1 ihb.1 (by rw [iha.2.1, ihb.2.1]) (by rw [iha.2.2, ihb.2.2]),
      iha.2.1, iha.2.2⟩

end bimap

namespace bimap

open implementation intrusive_set_element

variable {L R : Type} [DecidableEq L] [DecidableEq R]

theorem at_left_stored {b : bimap L R} (hb : b.ordered_inv) {n : node_t L R}
    (hn : n ∈ b.left_set.root.to_list) {k : L} (he : equiv b.left_set.cmp n.left_key k) :
    b.at_left k = Except.ok n.right_key := by
  have h := find_left_stored hb hn he
  simp only [find_left, base_iterator.mk.injEq, iterator.mk.injEq] at h
  simp [at_left, h, flip, template_flip, right_getter]

theorem at_right_stored {b : bimap L R} (hb : b.ordered_inv) {n : node_t L R}
    (hn : n ∈ b.right_set.root.to_list) {k : R} (he : equiv b.right_set.cmp n.right_key k) :
    b.at_right k = Except.ok n.left_key := by
  have h := find_right_stored hb hn he
  simp only [find_right, base_iterator.mk.injEq, iterator.mk.injEq] at h
  simp [at_right, h, flip, template_flip, left_getter]

theorem at_left_absent {b : bimap L R} {k : L}
    (h : ∀ n ∈ b.left_set.root.to_list, ¬ equiv b.left_set.cmp n.left_key k) :
    b.at_left k = Except.error (exception.out_of_range "bimap don't contains this key") := by
  have h1 := find_left_absent h
  simp only [find_left, end_left, intrusive_set.end_, base_iterator.mk.injEq,
    iterator.mk.injEq] at h1
  simp [at_left, h1]

theorem at_right_absent {b : bimap L R} {k : R}
    (h : ∀ n ∈ b.right_set.root.to_list, ¬ equiv b.right_set.cmp n.right_key k) :
    b.at_right k = Except.error (exception.out_of_range "bimap don't contains this key") := by
  have h1 := find_right_absent h
  simp only [find_right, end_right, intrusive_set.end_, base_iterator.mk.injEq,
    iterator.mk.injEq] at h1
  simp [at_right, h1]

theorem sample_wf : sample.wf :=
  insert_wf (insert_wf (insert_wf
    (create_wf nat_less_strict_weak_order nat_less_strict_weak_order) 1 30) 2 20) 3 10

theorem sample_left_list :
    sample.left_set.root.to_list = [⟨1, 30⟩, ⟨2, 20⟩, ⟨3, 10⟩] := by
  decide

theorem sample_right_list :
    sample.right_set.root.to_list = [⟨3, 10⟩, ⟨2, 20⟩, ⟨1, 30⟩] := by
  decide

end bimap


/-! ## Claims -/

namespace bimap

open implementation intrusive_set_element

variable {L R : Type} [DecidableEq L] [DecidableEq R]

/-- C1: when a stored pair has a left key equivalent to `l`, or a stored pair has
a right key equivalent to `r`, `insert(l, r)` returns `end_left()` and leaves the
bimap as it was: the same state, hence the same size and the same pairs in the
same left and right order.  This holds for the overloads taking the left key by
const reference (`insert`) and for those taking it as an rvalue
(`insert_rvalue`). -/
theorem C1_insert_duplicate_rejected (b : bimap L R) (hb : b.wf) (l : L) (r : R) (m : L)
    (hdup : (∃ n, b.stored n ∧ equiv b.left_set.cmp n.left_key l) ∨
      (∃ n, b.stored n ∧ equiv b.right_set.cmp n.right_key r)) :
    ((b.insert l r).2 = b.end_left ∧ (b.insert l r).1 = b ∧
      (b.insert l r).1.size = b.size ∧
      (b.insert l r).1.left_set.root.to_list = b.left_set.root.to_list ∧
      (b.insert l r).1.right_set.root.to_list = b.right_set.root.to_list) ∧
    ((b.insert_rvalue l r m).2 = b.end_left ∧ (b.insert_rvalue l r m).1 = b) := by
  have hd : (∃ n ∈ b.left_set.root.to_list, equiv b.left_set.cmp n.left_key l) ∨
      (∃ n ∈ b.right_set.root.to_list, equiv b.right_set.cmp n.right_key r) := by
    rcases hdup with ⟨n, hn, he⟩ | ⟨n, hn, he⟩
    · exact Or.inl ⟨n, hn, he⟩
    · exact Or.inr ⟨n, (hb.same_nodes n).mp hn, he⟩
  have h : b.insert l r = (b, b.end_left) := insert_rejected hb.toordered_inv hd
  have h2 : b.insert_rvalue l r m = (b, b.end_left) :=
    template_insert_rejected hb.toordered_inv m hd
  rw [h, h2]
  exact ⟨⟨rfl, rfl, rfl, rfl, rfl⟩, rfl, rfl⟩

/-- Witness for C1: inserting `(1, 99)` and a pair with the stored right key `10`
into the sample bimap. -/
theorem C1_insert_duplicate_rejected_witness :
    ((sample.insert 1 99).2 = sample.end_left ∧ (sample.insert 1 99).1 = sample ∧
      (sample.insert 1 99).1.size = sample.size ∧
      (sample.insert 1 99).1.left_set.root.to_list = sample.left_set.root.to_list ∧
      (sample.insert 1 99).1.right_set.root.to_list = sample.right_set.root.to_list) ∧
    (sample.insert 7 10).1 = sample :=
  ⟨(C1_insert_duplicate_rejected sample sample_wf 1 99 1
      (Or.inl ⟨⟨1, 30⟩, by decide, by decide⟩)).1,
    (C1_insert_duplicate_rejected sample sample_wf 7 10 7
      (Or.inr ⟨⟨3, 10⟩, by decide, by decide⟩)).1.2.1⟩

/-- A successful `insert` through the overloads that take the left key by const
reference: on a bimap whose trees are ordered, inserting a pair whose left key is
absent from the left tree and whose right key is absent from the right tree
increases `size()` by one and returns the left iterator at the new node, which
dereferences to `l` and whose flip dereferences to `r`; afterwards `at_left(l)`
is `r`, `at_right(r)` is `l`, and every node stored before is still in both
trees and still found with its partner. -/
theorem insert_success (b : bimap L R) (hb : b.ordered_inv) (l : L) (r : R)
    (hl : ∀ n ∈ b.left_set.root.to_list, ¬ equiv b.left_set.cmp n.left_key l)
    (hr : ∀ n ∈ b.right_set.root.to_list, ¬ equiv b.right_set.cmp n.right_key r) :
    (b.insert l r).1.size = b.size + 1 ∧
      (b.insert l r).2 = ⟨⟨node_ptr.elem ⟨l, r⟩⟩⟩ ∧
      deref_left (b.insert l r).2 = some l ∧
      deref_right ((b.insert l r).2.flip (b.insert l r).1) = some r ∧
      (b.insert l r).1.at_left l = Except.ok r ∧
      (b.insert l r).1.at_right r = Except.ok l ∧
      (∀ n ∈ b.left_set.root.to_list,
        n ∈ (b.insert l r).1.left_set.root.to_list ∧
          (b.insert l r).1.at_left n.left_key = Except.ok n.right_key) ∧
      (∀ n ∈ b.right_set.root.to_list,
        n ∈ (b.insert l r).1.right_set.root.to_list ∧
          (b.insert l r).1.at_right n.right_key = Except.ok n.left_key) := by
  have hs := insert_accepted_state hl hr
  have ho := insert_accepted_ordered hb hl hr
  have hi := insert_accepted_iterator hb hl hr
  have hml : ∀ n, n ∈ (b.insert l r).1.left_set.root.to_list ↔
      n = ⟨l, r⟩ ∨ n ∈ b.left_set.root.to_list := by
    intro n
    rw [hs]
    exact mem_insert_at
  have hmr : ∀ n, n ∈ (b.insert l r).1.right_set.root.to_list ↔
      n = ⟨l, r⟩ ∨ n ∈ b.right_set.root.to_list := by
    intro n
    rw [hs]
    exact mem_insert_at
  have hcl : (b.insert l r).1.left_set.cmp = b.left_set.cmp := (insert_cmp b l r).1
  have hcr : (b.insert l r).1.right_set.cmp = b.right_set.cmp := (insert_cmp b l r).2
  refine ⟨?_, hi, ?_, ?_, ?_, ?_, ?_, ?_⟩
  · rw [hs]
    rfl
  · rw [hi]
    rfl
  · rw [hi, @flip_elem _ _ _ _ true _ _ ((hml _).mpr (Or.inl rfl))]
    rfl
  · exact at_left_stored ho ((hml _).mpr (Or.inl rfl))
      (by rw [hcl]; exact hb.left_cmp.equiv_refl l)
  · exact at_right_stored ho ((hmr _).mpr (Or.inl rfl))
      (by rw [hcr]; exact hb.right_cmp.equiv_refl r)
  · intro n hn
    exact ⟨(hml n).mpr (Or.inr hn), at_left_stored ho ((hml n).mpr (Or.inr hn))
      (by rw [hcl]; exact hb.left_cmp.equiv_refl _)⟩
  · intro n hn
    exact ⟨(hmr n).mpr (Or.inr hn), at_right_stored ho ((hmr n).mpr (Or.inr hn))
      (by rw [hcr]; exact hb.right_cmp.equiv_refl _)⟩

/-- C2 (the code at the failing input): `insert(std::string("a"), 1)` on an empty
`bimap<std::string, int>` goes through `insert(left_t&&, right_t&&)`.  The key is
moved into the node, and `template_insert` then looks up the moved-from key, the
empty string.  The pair is stored (`size()` is `1`, `at_left("a")` is `1` and
`at_right(1)` is `"a"`), but the returned iterator is `end_left()`, not the
iterator at the new pair; when a pair with the empty key is stored, it is the
iterator at that other pair.  The same call through the overload taking the key
by const reference returns the iterator at the new pair. -/
theorem C2_insert_rvalue_returns_end :
    ((create string_less nat_less).insert_rvalue ['a'] 1 []).1.size = 1 ∧
      ((create string_less nat_less).insert_rvalue ['a'] 1 []).1.left_set.root.to_list =
        [⟨['a'], 1⟩] ∧
      ((create string_less nat_less).insert_rvalue ['a'] 1 []).1.at_left ['a'] =
        Except.ok 1 ∧
      ((create string_less nat_less).insert_rvalue ['a'] 1 []).1.at_right 1 =
        Except.ok ['a'] ∧
      ((create string_less nat_less).insert_rvalue ['a'] 1 []).2 =
        ((create string_less nat_less).insert_rvalue ['a'] 1 []).1.end_left ∧
      deref_left ((create string_less nat_less).insert_rvalue ['a'] 1 []).2 = none ∧
      (((create string_less nat_less).insert [] 5).1.insert_rvalue ['a'] 1 []).2 =
        ⟨⟨node_ptr.elem ⟨[], 5⟩⟩⟩ ∧
      ((create string_less nat_less).insert ['a'] 1).2 = ⟨⟨node_ptr.elem ⟨['a'], 1⟩⟩⟩ := by
  refine ⟨by decide, by decide, by rfl, by rfl, by decide, by decide, by decide, by decide⟩

end bimap

namespace bimap

open implementation intrusive_set_element

variable {L R : Type} [DecidableEq L] [DecidableEq R]

/-- What lookups see after a stored node has been taken out of both trees. -/
theorem erase_lookup {b : bimap L R} (hb : b.wf) {n : node_t L R}
    (hn : n ∈ b.left_set.root.to_list) (b1 : bimap L R)
    (hb1 : b1 = b.erase ⟨⟨node_ptr.elem n⟩⟩ ⟨⟨node_ptr.elem n⟩⟩) :
    b1.size + 1 = b.size ∧
      b1.find_left n.left_key = b1.end_left ∧
      b1.find_right n.right_key = b1.end_right ∧
      (∀ m, b.stored m → m ≠ n →
        b1.find_left m.left_key = ⟨⟨node_ptr.elem m⟩⟩ ∧
        b1.find_right m.right_key = ⟨⟨node_ptr.elem m⟩⟩ ∧
        b1.at_left m.left_key = Except.ok m.right_key ∧
        b1.at_right m.right_key = Except.ok m.left_key) := by
  subst hb1
  have hndl := ordered_nodup hb.left_cmp hb.left_ordered
  have hndr := ordered_nodup hb.right_cmp hb.right_ordered
  have ho := erase_ordered hb.toordered_inv n
  have hcl := (erase_cmp b ⟨⟨node_ptr.elem n⟩⟩ ⟨⟨node_ptr.elem n⟩⟩).1
  have hcr := (erase_cmp b ⟨⟨node_ptr.elem n⟩⟩ ⟨⟨node_ptr.elem n⟩⟩).2
  have hml : ∀ m, m ∈ (b.erase ⟨⟨node_ptr.elem n⟩⟩ ⟨⟨node_ptr.elem n⟩⟩).left_set.root.to_list ↔
      m ≠ n ∧ m ∈ b.left_set.root.to_list := by
    intro m
    rw [erase_left_list hb.toordered_inv, hndl.mem_erase_iff]
  have hmr : ∀ m, m ∈ (b.erase ⟨⟨node_ptr.elem n⟩⟩ ⟨⟨node_ptr.elem n⟩⟩).right_set.root.to_list ↔
      m ≠ n ∧ m ∈ b.right_set.root.to_list := by
    intro m
    rw [erase_right_list hb.toordered_inv, hndr.mem_erase_iff]
  refine ⟨erase_size hb hn, ?_, ?_, ?_⟩
  · apply find_left_absent
    intro m hm he
    rw [hcl] at he
    obtain ⟨hne, hm⟩ := (hml m).mp hm
    exact hne (ordered_unique hb.left_cmp hb.left_ordered hm hn he)
  · apply find_right_absent
    intro m hm he
    rw [hcr] at he
    obtain ⟨hne, hm⟩ := (hmr m).mp hm
    exact hne (ordered_unique hb.right_cmp hb.right_ordered hm ((hb.same_nodes n).mp hn) he)
  · intro m hm hne
    have h1 := (hml m).mpr ⟨hne, hm⟩
    have h2 := (hmr m).mpr ⟨hne, (hb.same_nodes m).mp hm⟩
    have e1 : equiv (b.erase ⟨⟨node_ptr.elem n⟩⟩ ⟨⟨node_ptr.elem n⟩⟩).left_set.cmp
        m.left_key m.left_key := by
      rw [hcl]
      exact hb.left_cmp.equiv_refl _
    have e2 : equiv (b.erase ⟨⟨node_ptr.elem n⟩⟩ ⟨⟨node_ptr.elem n⟩⟩).right_set.cmp
        m.right_key m.right_key := by
      rw [hcr]
      exact hb.right_cmp.equiv_refl _
    exact ⟨find_left_stored ho h1 e1, find_right_stored ho h2 e2,
      at_left_stored ho h1 e1, at_right_stored ho h2 e2⟩

/-- C3: erasing a stored element through its left iterator, or through its right
iterator, decreases `size()` by exactly one; afterwards `find_left` of the erased
left key is `end_left()` and `find_right` of the erased right key is
`end_right()`, while every other stored pair is still found from both sides with
the same partner. -/
theorem C3_erase_iterator (b : bimap L R) (hb : b.wf) (n : node_t L R) (hn : b.stored n) :
    ((b.erase_left_it ⟨⟨node_ptr.elem n⟩⟩).1.size + 1 = b.size ∧
      (b.erase_left_it ⟨⟨node_ptr.elem n⟩⟩).1.find_left n.left_key =
        (b.erase_left_it ⟨⟨node_ptr.elem n⟩⟩).1.end_left ∧
      (b.erase_left_it ⟨⟨node_ptr.elem n⟩⟩).1.find_right n.right_key =
        (b.erase_left_it ⟨⟨node_ptr.elem n⟩⟩).1.end_right ∧
      (∀ m, b.stored m → m ≠ n →
        (b.erase_left_it ⟨⟨node_ptr.elem n⟩⟩).1.find_left m.left_key = ⟨⟨node_ptr.elem m⟩⟩ ∧
        (b.erase_left_it ⟨⟨node_ptr.elem n⟩⟩).1.find_right m.right_key = ⟨⟨node_ptr.elem m⟩⟩ ∧
        (b.erase_left_it ⟨⟨node_ptr.elem n⟩⟩).1.at_left m.left_key = Except.ok m.right_key ∧
        (b.erase_left_it ⟨⟨node_ptr.elem n⟩⟩).1.at_right m.right_key = Except.ok m.left_key)) ∧
    ((b.erase_right_it ⟨⟨node_ptr.elem n⟩⟩).1.size + 1 = b.size ∧
      (b.erase_right_it ⟨⟨node_ptr.elem n⟩⟩).1.find_left n.left_key =
        (b.erase_right_it ⟨⟨node_ptr.elem n⟩⟩).1.end_left ∧
      (b.erase_right_it ⟨⟨node_ptr.elem n⟩⟩).1.find_right n.right_key =
        (b.erase_right_it ⟨⟨node_ptr.elem n⟩⟩).1.end_right ∧
      (∀ m, b.stored m → m ≠ n →
        (b.erase_right_it ⟨⟨node_ptr.elem n⟩⟩).1.find_left m.left_key = ⟨⟨node_ptr.elem m⟩⟩ ∧
        (b.erase_right_it ⟨⟨node_ptr.elem n⟩⟩).1.find_right m.right_key = ⟨⟨node_ptr.elem m⟩⟩ ∧
        (b.erase_right_it ⟨⟨node_ptr.elem n⟩⟩).1.at_left m.left_key = Except.ok m.right_key ∧
        (b.erase_right_it ⟨⟨node_ptr.elem n⟩⟩).1.at_right m.right_key =
          Except.ok m.left_key)) :=
  ⟨erase_lookup hb hn _ (erase_left_it_state b hn),
    erase_lookup hb hn _ (erase_right_it_state b ((hb.same_nodes n).mp hn))⟩

/-- Witness for C3: erasing the pair `(2, 20)` of the sample bimap from the left
side. -/
theorem C3_erase_iterator_witness :
    (sample.erase_left_it ⟨⟨node_ptr.elem ⟨2, 20⟩⟩⟩).1.size + 1 = sample.size ∧
      (sample.erase_left_it ⟨⟨node_ptr.elem ⟨2, 20⟩⟩⟩).1.find_right 20 =
        (sample.erase_left_it ⟨⟨node_ptr.elem ⟨2, 20⟩⟩⟩).1.end_right :=
  ⟨(C3_erase_iterator sample sample_wf ⟨2, 20⟩ (by decide)).1.1,
    (C3_erase_iterator sample sample_wf ⟨2, 20⟩ (by decide)).1.2.2.1⟩

/-- C4: `at_left(k)` throws `std::out_of_range` exactly when no stored pair has a
left key equivalent to `k`; otherwise it returns the right key of the pair whose
left key is equivalent to `k`, and that pair is unique.  The same holds for
`at_right` on the right side.  Both are `const` lookups: they read the bimap
and produce no new state. -/
theorem C4_at_lookup (b : bimap L R) (hb : b.wf) (k : L) (q : R) :
    ((b.at_left k = Except.error (exception.out_of_range "bimap don't contains this key")) ↔
        ¬ ∃ n, b.stored n ∧ equiv b.left_set.cmp n.left_key k) ∧
      (∀ n, b.stored n → equiv b.left_set.cmp n.left_key k →
        b.at_left k = Except.ok n.right_key ∧
          ∀ m, b.stored m → equiv b.left_set.cmp m.left_key k → m = n) ∧
      ((b.at_right q = Except.error (exception.out_of_range "bimap don't contains this key")) ↔
        ¬ ∃ n, b.stored n ∧ equiv b.right_set.cmp n.right_key q) ∧
      (∀ n, b.stored n → equiv b.right_set.cmp n.right_key q →
        b.at_right q = Except.ok n.left_key ∧
          ∀ m, b.stored m → equiv b.right_set.cmp m.right_key q → m = n) := by
  refine ⟨⟨?_, ?_⟩, ?_, ⟨?_, ?_⟩, ?_⟩
  · rintro h ⟨n, hn, he⟩
    rw [at_left_stored hb.toordered_inv hn he] at h
    cases h
  · intro h
    apply at_left_absent
    intro n hn he
    exact h ⟨n, hn, he⟩
  · intro n hn he
    refine ⟨at_left_stored hb.toordered_inv hn he, ?_⟩
    intro m hm hme
    exact ordered_unique hb.left_cmp hb.left_ordered hm hn
      (hb.left_cmp.equiv_trans _ _ _ hme (equiv_symm he))
  · rintro h ⟨n, hn, he⟩
    rw [at_right_stored hb.toordered_inv ((hb.same_nodes n).mp hn) he] at h
    cases h
  · intro h
    apply at_right_absent
    intro n hn he
    exact h ⟨n, (hb.same_nodes n).mpr hn, he⟩
  · intro n hn he
    refine ⟨at_right_stored hb.toordered_inv ((hb.same_nodes n).mp hn) he, ?_⟩
    intro m hm hme
    exact ordered_unique hb.right_cmp hb.right_ordered ((hb.same_nodes m).mp hm)
      ((hb.same_nodes n).mp hn) (hb.right_cmp.equiv_trans _ _ _ hme (equiv_symm he))

/-- Witness for C4: in the sample bimap `at_left(2)` is `20` and `at_right(10)`
is `3`. -/
theorem C4_at_lookup_witness :
    sample.at_left 2 = Except.ok 20 ∧ sample.at_right 10 = Except.ok 3 :=
  ⟨((C4_at_lookup sample sample_wf 2 10).2.1 ⟨2, 20⟩ (by decide) (by decide)).1,
    ((C4_at_lookup sample sample_wf 2 10).2.2.2 ⟨3, 10⟩ (by decide) (by decide)).1⟩

end bimap

namespace bimap

open implementation intrusive_set_element

variable {L R : Type} [DecidableEq L] [DecidableEq R]

/-- What `erase_left(key)` does to a well-formed bimap. -/
theorem erase_left_key_spec {b : bimap L R} (hb : b.wf) (k : L) :
    ((b.erase_left_key k).2 = true ↔ ∃ n, b.stored n ∧ equiv b.left_set.cmp n.left_key k) ∧
      ((b.erase_left_key k).2 = false → (b.erase_left_key k).1 = b) ∧
      (∀ m, m ∈ (b.erase_left_key k).1.left_set.root.to_list ↔
        m ∈ b.left_set.root.to_list ∧ ¬ equiv b.left_set.cmp m.left_key k) ∧
      ((b.erase_left_key k).2 = true → (b.erase_left_key k).1.size + 1 = b.size) := by
  rcases erase_left_key_cases b k with ⟨h0, h1, h2⟩ | ⟨n, hn, he, h1, h2⟩
  · have habs : ∀ m ∈ b.left_set.root.to_list, ¬ equiv b.left_set.cmp m.left_key k := by
      intro m hm hme
      exact h0 m hm (find_left_stored hb.toordered_inv hm hme)
    rw [h2]
    refine ⟨⟨fun h => (by cases h), ?_⟩, fun _ => rfl, ?_, fun h => (by cases h)⟩
    · rintro ⟨n, hn, hne⟩
      exact absurd hne (habs n hn)
    · intro m
      exact ⟨fun hm => ⟨hm, habs m hm⟩, fun hm => hm.1⟩
  · rw [h2]
    refine ⟨⟨fun _ => ⟨n, hn, he⟩, fun _ => rfl⟩, fun h => (by cases h), ?_,
      fun _ => erase_size hb hn⟩
    intro m
    rw [erase_left_list hb.toordered_inv,
      (ordered_nodup hb.left_cmp hb.left_ordered).mem_erase_iff]
    constructor
    · rintro ⟨hne, hm⟩
      refine ⟨hm, fun hme => hne ?_⟩
      exact ordered_unique hb.left_cmp hb.left_ordered hm hn
        (hb.left_cmp.equiv_trans _ _ _ hme (equiv_symm he))
    · rintro ⟨hm, hme⟩
      refine ⟨fun heq => hme ?_, hm⟩
      rw [heq]
      exact he

/-- What `erase_right(key)` does to a well-formed bimap. -/
theorem erase_right_key_spec {b : bimap L R} (hb : b.wf) (k : R) :
    ((b.erase_right_key k).2 = true ↔ ∃ n, b.stored n ∧ equiv b.right_set.cmp n.right_key k) ∧
      ((b.erase_right_key k).2 = false → (b.erase_right_key k).1 = b) ∧
      (∀ m, m ∈ (b.erase_right_key k).1.left_set.root.to_list ↔
        m ∈ b.left_set.root.to_list ∧ ¬ equiv b.right_set.cmp m.right_key k) ∧
      ((b.erase_right_key k).2 = true → (b.erase_right_key k).1.size + 1 = b.size) := by
  rcases erase_right_key_cases b k with ⟨h0, h1, h2⟩ | ⟨n, hn, he, h1, h2⟩
  · have habs : ∀ m ∈ b.right_set.root.to_list, ¬ equiv b.right_set.cmp m.right_key k := by
      intro m hm hme
      exact h0 m hm (find_right_stored hb.toordered_inv hm hme)
    rw [h2]
    refine ⟨⟨fun h => (by cases h), ?_⟩, fun _ => rfl, ?_, fun h => (by cases h)⟩
    · rintro ⟨n, hn, hne⟩
      exact absurd hne (habs n ((hb.same_nodes n).mp hn))
    · intro m
      exact ⟨fun hm => ⟨hm, habs m ((hb.same_nodes m).mp hm)⟩, fun hm => hm.1⟩
  · have hnl : n ∈ b.left_set.root.to_list := (hb.same_nodes n).mpr hn
    rw [h2]
    refine ⟨⟨fun _ => ⟨n, hnl, he⟩, fun _ => rfl⟩, fun h => (by cases h), ?_,
      fun _ => erase_size hb hnl⟩
    intro m
    rw [erase_left_list hb.toordered_inv,
      (ordered_nodup hb.left_cmp hb.left_ordered).mem_erase_iff]
    constructor
    · rintro ⟨hne, hm⟩
      refine ⟨hm, fun hme => hne ?_⟩
      exact ordered_unique hb.right_cmp hb.right_ordered ((hb.same_nodes m).mp hm) hn
        (hb.right_cmp.equiv_trans _ _ _ hme (equiv_symm he))
    · rintro ⟨hm, hme⟩
      refine ⟨fun heq => hme ?_, hm⟩
      rw [heq]
      exact he

/-- The absent-key branch of `at_left_or_default`, with `d` for `right_t()`. -/
theorem at_left_or_default_absent [Inhabited R] {b : bimap L R} (hb : b.wf) {k : L}
    (hk : ∀ n, b.stored n → ¬ equiv b.left_set.cmp n.left_key k) :
    (b.at_left_or_default k).2 = some default ∧
      (∀ m, (b.at_left_or_default k).1.stored m ↔
        m = ⟨k, default⟩ ∨ (b.stored m ∧ ¬ equiv b.right_set.cmp m.right_key default)) ∧
      (b.at_left_or_default k).1.at_left k = Except.ok default := by
  have hfind : b.find_left k = b.end_left := find_left_absent hk
  have hb1 := erase_right_key_wf hb (default : R)
  obtain ⟨-, -, hmem, -⟩ := erase_right_key_spec hb (default : R)
  obtain ⟨hcl, hcr⟩ := erase_right_key_cmp b (default : R)
  have hl : ∀ n ∈ (b.erase_right_key default).1.left_set.root.to_list,
      ¬ equiv (b.erase_right_key default).1.left_set.cmp n.left_key k := by
    intro n hn
    rw [hcl]
    exact hk n ((hmem n).mp hn).1
  have hr : ∀ n ∈ (b.erase_right_key default).1.right_set.root.to_list,
      ¬ equiv (b.erase_right_key default).1.right_set.cmp n.right_key default := by
    intro n hn
    rw [hcr]
    exact ((hmem n).mp ((hb1.same_nodes n).mpr hn)).2
  have hs := insert_accepted_state hl hr
  have ho := insert_accepted_ordered hb1.toordered_inv hl hr
  have hi := insert_accepted_iterator hb1.toordered_inv hl hr
  have hml : ∀ n, n ∈ ((b.erase_right_key default).1.insert k default).1.left_set.root.to_list ↔
      n = ⟨k, default⟩ ∨ n ∈ (b.erase_right_key default).1.left_set.root.to_list := by
    intro n
    rw [hs]
    exact mem_insert_at
  simp only [at_left_or_default]
  rw [if_neg (by simp [hfind])]
  refine ⟨?_, ?_, ?_⟩
  · rw [hi, @flip_elem _ _ _ _ true _ _ ((hml _).mpr (Or.inl rfl))]
    rfl
  · intro m
    simp only [stored] at *
    rw [hml m, hmem m]
  · exact at_left_stored ho ((hml _).mpr (Or.inl rfl))
      (by rw [(insert_cmp _ _ _).1, hcl]; exact hb.left_cmp.equiv_refl k)

/-- The absent-key branch of `at_right_or_default`: `default` is `left_t()` and
`d` the value `default_v` holds after it has been moved into the node. -/
theorem at_right_or_default_absent [Inhabited L] {b : bimap L R} (hb : b.wf) {k : R} (d : L)
    (hd : equiv b.left_set.cmp default d)
    (hk : ∀ n, b.stored n → ¬ equiv b.right_set.cmp n.right_key k) :
    (b.at_right_or_default k d).2 = some default ∧
      (∀ m, (b.at_right_or_default k d).1.stored m ↔
        m = ⟨default, k⟩ ∨ (b.stored m ∧ ¬ equiv b.left_set.cmp m.left_key default)) ∧
      (b.at_right_or_default k d).1.at_right k = Except.ok default := by
  have hfind : b.find_right k = b.end_right :=
    find_right_absent (fun n hn => hk n ((hb.same_nodes n).mpr hn))
  have hb1 := erase_left_key_wf hb (default : L)
  obtain ⟨-, -, hmem, -⟩ := erase_left_key_spec hb (default : L)
  obtain ⟨hcl, hcr⟩ := erase_left_key_cmp b (default : L)
  have hl : ∀ n ∈ (b.erase_left_key default).1.left_set.root.to_list,
      ¬ equiv (b.erase_left_key default).1.left_set.cmp n.left_key default := by
    intro n hn
    rw [hcl]
    exact ((hmem n).mp hn).2
  have hr : ∀ n ∈ (b.erase_left_key default).1.right_set.root.to_list,
      ¬ equiv (b.erase_left_key default).1.right_set.cmp n.right_key k := by
    intro n hn
    rw [hcr]
    exact hk n ((hmem n).mp ((hb1.same_nodes n).mpr hn)).1
  have hs := insert_accepted_state hl hr
  have ho := insert_accepted_ordered hb1.toordered_inv hl hr
  have hml : ∀ n, n ∈ ((b.erase_left_key default).1.insert default k).1.left_set.root.to_list ↔
      n = ⟨default, k⟩ ∨ n ∈ (b.erase_left_key default).1.left_set.root.to_list := by
    intro n
    rw [hs]
    exact mem_insert_at
  have hmr : ∀ n, n ∈ ((b.erase_left_key default).1.insert default k).1.right_set.root.to_list ↔
      n = ⟨default, k⟩ ∨ n ∈ (b.erase_left_key default).1.right_set.root.to_list := by
    intro n
    rw [hs]
    exact mem_insert_at
  have hi : ((b.erase_left_key default).1.insert_rvalue default k d).2 =
      ⟨⟨node_ptr.elem ⟨default, k⟩⟩⟩ := by
    simp only [insert_rvalue]
    rw [template_insert_accepted_iterator d hl hr]
    apply find_left_stored ho ((hml _).mpr (Or.inl rfl))
    rw [(insert_cmp _ _ _).1, hcl]
    exact hd
  simp only [at_right_or_default]
  rw [if_neg (by simp [hfind]), hi, insert_rvalue_state]
  refine ⟨rfl, ?_, ?_⟩
  · intro m
    simp only [stored] at *
    rw [hml m, hmem m]
  · exact at_right_stored ho ((hmr _).mpr (Or.inl rfl))
      (by rw [(insert_cmp _ _ _).2, hcr]; exact hb.right_cmp.equiv_refl k)

/-- C5: if `k` is present, `at_left_or_default(k)` returns its partner and changes
nothing.  If `k` is absent, the result is the default right value, the new bimap
holds `(k, default)` together with exactly the old pairs whose right key is not
equivalent to the default (at most one old pair is missing), and `at_left(k)` is
the default afterwards.  The same holds for `at_right_or_default` with the
default left value; its result is read through the lookup of `default_v` after
that key has been moved into the node, so this half is stated for a moved-from
value `d` that is still equivalent to the default. -/
theorem C5_at_or_default [Inhabited L] [Inhabited R] (b : bimap L R) (hb : b.wf)
    (k : L) (q : R) (d : L) (hd : equiv b.left_set.cmp default d) :
    ((∀ n, b.stored n → equiv b.left_set.cmp n.left_key k →
        b.at_left_or_default k = (b, some n.right_key)) ∧
      ((∀ n, b.stored n → ¬ equiv b.left_set.cmp n.left_key k) →
        (b.at_left_or_default k).2 = some default ∧
        (∀ m, (b.at_left_or_default k).1.stored m ↔
          m = ⟨k, default⟩ ∨ (b.stored m ∧ ¬ equiv b.right_set.cmp m.right_key default)) ∧
        (∀ m m1, b.stored m → b.stored m1 → ¬ (b.at_left_or_default k).1.stored m →
          ¬ (b.at_left_or_default k).1.stored m1 → m = m1) ∧
        (b.at_left_or_default k).1.at_left k = Except.ok default)) ∧
    ((∀ n, b.stored n → equiv b.right_set.cmp n.right_key q →
        b.at_right_or_default q d = (b, some n.left_key)) ∧
      ((∀ n, b.stored n → ¬ equiv b.right_set.cmp n.right_key q) →
        (b.at_right_or_default q d).2 = some default ∧
        (∀ m, (b.at_right_or_default q d).1.stored m ↔
          m = ⟨default, q⟩ ∨ (b.stored m ∧ ¬ equiv b.left_set.cmp m.left_key default)) ∧
        (∀ m m1, b.stored m → b.stored m1 → ¬ (b.at_right_or_default q d).1.stored m →
          ¬ (b.at_right_or_default q d).1.stored m1 → m = m1) ∧
        (b.at_right_or_default q d).1.at_right q = Except.ok default)) := by
  refine ⟨⟨?_, ?_⟩, ⟨?_, ?_⟩⟩
  · intro n hn he
    have hf := find_left_stored hb.toordered_inv hn he
    simp only [at_left_or_default]
    rw [if_pos (by rw [hf]; exact elem_ne_end_left b n), hf,
      @flip_elem _ _ _ _ true _ _ hn]
    rfl
  · intro hk
    obtain ⟨h1, h2, h3⟩ := at_left_or_default_absent hb hk
    refine ⟨h1, h2, ?_, h3⟩
    intro m m1 hm hm1 hnm hnm1
    have e1 : equiv b.right_set.cmp m.right_key default := by
      by_contra hc
      exact hnm ((h2 m).mpr (Or.inr ⟨hm, hc⟩))
    have e2 : equiv b.right_set.cmp m1.right_key default := by
      by_contra hc
      exact hnm1 ((h2 m1).mpr (Or.inr ⟨hm1, hc⟩))
    exact ordered_unique hb.right_cmp hb.right_ordered ((hb.same_nodes m).mp hm)
      ((hb.same_nodes m1).mp hm1) (hb.right_cmp.equiv_trans _ _ _ e1 (equiv_symm e2))
  · intro n hn he
    have hnr := (hb.same_nodes n).mp hn
    have hf := find_right_stored hb.toordered_inv hnr he
    simp only [at_right_or_default]
    rw [if_pos (by rw [hf]; exact elem_ne_end_right b n), hf,
      @flip_elem _ _ _ _ false _ _ hnr]
    rfl
  · intro hk
    obtain ⟨h1, h2, h3⟩ := at_right_or_default_absent hb d hd hk
    refine ⟨h1, h2, ?_, h3⟩
    intro m m1 hm hm1 hnm hnm1
    have e1 : equiv b.left_set.cmp m.left_key default := by
      by_contra hc
      exact hnm ((h2 m).mpr (Or.inr ⟨hm, hc⟩))
    have e2 : equiv b.left_set.cmp m1.left_key default := by
      by_contra hc
      exact hnm1 ((h2 m1).mpr (Or.inr ⟨hm1, hc⟩))
    exact ordered_unique hb.left_cmp hb.left_ordered hm hm1
      (hb.left_cmp.equiv_trans _ _ _ e1 (equiv_symm e2))

end bimap

namespace bimap

open implementation intrusive_set_element

/-- Witness for C5: after `at_left_or_default(5)` on the empty bimap, the call
with key `6` evicts `(5, 0)` and stores `(6, 0)`. -/
theorem C5_at_or_default_witness :
    (((create nat_less nat_less).at_left_or_default 5).1.at_left_or_default 6).2 = some 0 ∧
      ¬ (((create nat_less nat_less).at_left_or_default 5).1.at_left_or_default 6).1.stored
        ⟨5, 0⟩ ∧
      (((create nat_less nat_less).at_left_or_default 5).1.at_left_or_default 6).1.at_left 6 =
        Except.ok 0 :=
  have h := (C5_at_or_default ((create nat_less nat_less).at_left_or_default 5).1
    (at_left_or_default_wf (create_wf nat_less_strict_weak_order
      nat_less_strict_weak_order) 5).1 6 0 0 (by decide)).1.2 (by unfold stored; decide)
  ⟨h.1, fun hs => by
      rcases (h.2.1 ⟨5, 0⟩).mp hs with h1 | h1
      · exact absurd h1 (by decide)
      · exact h1.2 (by decide), h.2.2.2⟩

end bimap

namespace bimap

open implementation intrusive_set_element

variable {L R : Type} [DecidableEq L] [DecidableEq R]

/-- C6 (the code at the failing input): after `insert(1, 1)`, `insert(2, 2)`,
`insert(3, 3)` into an empty bimap both trees are the chain `1 → 2 → 3` with
stored heights `2`, `1`, `0`.  The leaf keeps the height `0` it was constructed
with, so the stored heights are not `1 + max` of the children; `difference()`
computed from them stays within `-1 .. 1`, but the root has an empty left subtree
above a right subtree of two levels: the balance factor measured on the tree
itself is `2`.  The in-order sequence is increasing.  The height invariant
already fails after the first insert. -/
theorem C6_insert_leaves_unbalanced_chain :
    (insert_all (create nat_less nat_less) [(1, 1), (2, 2), (3, 3)]).left_set.root =
        node null ⟨1, 1⟩ 2 (node null ⟨2, 2⟩ 1 (node null ⟨3, 3⟩ 0 null)) ∧
      (insert_all (create nat_less nat_less) [(1, 1), (2, 2), (3, 3)]).right_set.root =
        node null ⟨1, 1⟩ 2 (node null ⟨2, 2⟩ 1 (node null ⟨3, 3⟩ 0 null)) ∧
      heights_ok
        (insert_all (create nat_less nat_less) [(1, 1), (2, 2), (3, 3)]).left_set.root = false ∧
      balanced
        (insert_all (create nat_less nat_less) [(1, 1), (2, 2), (3, 3)]).left_set.root = true ∧
      depth_balanced
        (insert_all (create nat_less nat_less) [(1, 1), (2, 2), (3, 3)]).left_set.root = false ∧
      (insert_all (create nat_less nat_less) [(1, 1), (2, 2), (3, 3)]).left_set.root.to_list =
        [⟨1, 1⟩, ⟨2, 2⟩, ⟨3, 3⟩] ∧
      heights_ok (insert_all (create nat_less nat_less) [(1, 1)]).left_set.root = false := by
  decide

/-- C7: for a valid iterator of either side, flipping twice gives the iterator
back; a non-end iterator flips to the same node, which is an element of the other
tree; `end_left()` flips to `end_right()` and `end_right()` to `end_left()`. -/
theorem C7_flip (b : bimap L R) (hb : b.wf) :
    (∀ it : left_iterator L R, b.valid_ptr it.it.m_node →
        (it.flip b).flip b = it ∧
        (it ≠ b.end_left → ∃ n, it.it.m_node = node_ptr.elem n ∧
          (it.flip b).it.m_node = node_ptr.elem n ∧ n ∈ b.right_set.root.to_list ∧
          it.flip b ≠ b.end_right)) ∧
      (∀ it : right_iterator L R, b.valid_ptr it.it.m_node →
        (it.flip b).flip b = it ∧
        (it ≠ b.end_right → ∃ n, it.it.m_node = node_ptr.elem n ∧
          (it.flip b).it.m_node = node_ptr.elem n ∧ n ∈ b.left_set.root.to_list ∧
          it.flip b ≠ b.end_left)) ∧
      b.end_left.flip b = b.end_right ∧ b.end_right.flip b = b.end_left := by
  refine ⟨?_, ?_, flip_fake b, flip_fake b⟩
  · rintro ⟨⟨p⟩⟩ hv
    rcases hv with hv | ⟨n, hv, hn⟩
    · simp only at hv
      subst hv
      refine ⟨?_, fun h => absurd rfl h⟩
      rw [flip_fake b, flip_fake b]
    · simp only at hv
      subst hv
      have hl : n ∈ (b.tree true).to_list := hn
      have hr : n ∈ (b.tree false).to_list := (hb.same_nodes n).mp hn
      refine ⟨?_, fun _ => ⟨n, rfl, ?_, hr, ?_⟩⟩
      · rw [flip_elem b hl]
        exact flip_elem b hr
      · rw [flip_elem b hl]
      · rw [flip_elem b hl]
        exact elem_ne_end_right b n
  · rintro ⟨⟨p⟩⟩ hv
    rcases hv with hv | ⟨n, hv, hn⟩
    · simp only at hv
      subst hv
      refine ⟨?_, fun h => absurd rfl h⟩
      rw [flip_fake b, flip_fake b]
    · simp only at hv
      subst hv
      have hl : n ∈ (b.tree true).to_list := hn
      have hr : n ∈ (b.tree false).to_list := (hb.same_nodes n).mp hn
      refine ⟨?_, fun _ => ⟨n, rfl, ?_, hl, ?_⟩⟩
      · rw [flip_elem b hr]
        exact flip_elem b hl
      · rw [flip_elem b hr]
      · rw [flip_elem b hr]
        exact elem_ne_end_left b n

/-- Witness for C7: flipping twice at the node `(2, 20)` of the sample bimap and at
its end. -/
theorem C7_flip_witness :
    (((⟨⟨node_ptr.elem ⟨2, 20⟩⟩⟩ : left_iterator Nat Nat).flip sample).flip sample =
        ⟨⟨node_ptr.elem ⟨2, 20⟩⟩⟩) ∧
      sample.end_left.flip sample = sample.end_right :=
  ⟨((C7_flip sample sample_wf).1 ⟨⟨node_ptr.elem ⟨2, 20⟩⟩⟩
      (Or.inr ⟨⟨2, 20⟩, rfl, by decide⟩)).1,
    (C7_flip sample sample_wf).2.2.1⟩

/-- In a bimap reached from an empty one by the mutating operations of one bimap
(and swaps between bimaps with the same comparators), for a present left key `k`
the lookup `at_left(k)` returns a right key `r` such that `find_left(k).flip()`
equals `find_right(r)`: both are the iterator at the node that holds `k`. -/
theorem find_flip_of_reachable [Inhabited L] [Inhabited R] (cl : L → L → Bool) (cr : R → R → Bool)
    (hl : strict_weak_order cl) (hr : strict_weak_order cr) (b : bimap L R)
    (hreach : reachable cl cr b) (k : L) (n : node_t L R) (hn : b.stored n)
    (hk : equiv cl n.left_key k) :
    b.at_left k = Except.ok n.right_key ∧
      (b.find_left k).flip b = b.find_right n.right_key ∧
      (b.find_left k).flip b = ⟨⟨node_ptr.elem n⟩⟩ := by
  obtain ⟨hb, hcl, hcr⟩ := reachable_wf hl hr hreach
  have hk1 : equiv b.left_set.cmp n.left_key k := by
    rw [hcl]
    exact hk
  have hnr : n ∈ b.right_set.root.to_list := (hb.same_nodes n).mp hn
  have hf := find_left_stored hb.toordered_inv hn hk1
  have hfr := find_right_stored hb.toordered_inv hnr (hb.right_cmp.equiv_refl n.right_key)
  refine ⟨at_left_stored hb.toordered_inv hn hk1, ?_, ?_⟩
  · rw [hf, hfr]
    exact @flip_elem _ _ _ _ true _ _ hn
  · rw [hf]
    exact @flip_elem _ _ _ _ true _ _ hn

/-- The sample bimap, built by three inserts, at the key `2`. -/
theorem find_flip_of_reachable_sample :
    sample.at_left 2 = Except.ok 20 ∧
      (sample.find_left 2).flip sample = sample.find_right 20 ∧
      (sample.find_left 2).flip sample = ⟨⟨node_ptr.elem ⟨2, 20⟩⟩⟩ :=
  find_flip_of_reachable nat_less nat_less nat_less_strict_weak_order
    nat_less_strict_weak_order sample
    (reachable.insert _ 3 10 (reachable.insert _ 2 20 (reachable.insert _ 1 30
      reachable.create)))
    2 ⟨2, 20⟩ (by decide) (by decide)

end bimap

namespace bimap

open implementation intrusive_set_element

variable {L R : Type} [DecidableEq L] [DecidableEq R]

/-- C9: `erase_left(k)` returns `true` exactly when a pair with a left key
equivalent to `k` was stored; then the size drops by one and the stored pairs
are the old ones whose left key is not equivalent to `k`.  When it returns
`false` the bimap is unchanged.  Called twice on a present key it returns
`true` and then `false`.  The same holds for `erase_right(q)`. -/
theorem C9_erase_key (b : bimap L R) (hb : b.wf) (k : L) (q : R) :
    (((b.erase_left_key k).2 = true ↔ ∃ n, b.stored n ∧ equiv b.left_set.cmp n.left_key k) ∧
      ((b.erase_left_key k).2 = true →
        (b.erase_left_key k).1.size + 1 = b.size ∧
        ∀ m, (b.erase_left_key k).1.stored m ↔
          b.stored m ∧ ¬ equiv b.left_set.cmp m.left_key k) ∧
      ((b.erase_left_key k).2 = false → (b.erase_left_key k).1 = b) ∧
      ((∃ n, b.stored n ∧ equiv b.left_set.cmp n.left_key k) →
        (b.erase_left_key k).2 = true ∧
          ((b.erase_left_key k).1.erase_left_key k).2 = false)) ∧
    (((b.erase_right_key q).2 = true ↔
        ∃ n, b.stored n ∧ equiv b.right_set.cmp n.right_key q) ∧
      ((b.erase_right_key q).2 = true →
        (b.erase_right_key q).1.size + 1 = b.size ∧
        ∀ m, (b.erase_right_key q).1.stored m ↔
          b.stored m ∧ ¬ equiv b.right_set.cmp m.right_key q) ∧
      ((b.erase_right_key q).2 = false → (b.erase_right_key q).1 = b) ∧
      ((∃ n, b.stored n ∧ equiv b.right_set.cmp n.right_key q) →
        (b.erase_right_key q).2 = true ∧
          ((b.erase_right_key q).1.erase_right_key q).2 = false)) := by
  obtain ⟨l1, l2, l3, l4⟩ := erase_left_key_spec hb k
  obtain ⟨r1, r2, r3, r4⟩ := erase_right_key_spec hb q
  refine ⟨⟨l1, fun h => ⟨l4 h, l3⟩, l2, ?_⟩, ⟨r1, fun h => ⟨r4 h, r3⟩, r2, ?_⟩⟩
  · intro hex
    refine ⟨l1.mpr hex, ?_⟩
    have hb1 := erase_left_key_wf hb k
    have h2 := (erase_left_key_spec hb1 k).1
    cases hres : ((b.erase_left_key k).1.erase_left_key k).2 with
    | false => rfl
    | true =>
      obtain ⟨m, hm, hme⟩ := h2.mp hres
      rw [(erase_left_key_cmp b k).1] at hme
      exact absurd hme ((l3 m).mp hm).2
  · intro hex
    refine ⟨r1.mpr hex, ?_⟩
    have hb1 := erase_right_key_wf hb q
    have h2 := (erase_right_key_spec hb1 q).1
    cases hres : ((b.erase_right_key q).1.erase_right_key q).2 with
    | false => rfl
    | true =>
      obtain ⟨m, hm, hme⟩ := h2.mp hres
      rw [(erase_right_key_cmp b q).2] at hme
      exact absurd hme ((r3 m).mp hm).2

/-- Witness for C9: `erase_left(2)` on the sample bimap returns `true`, and `false`
when repeated. -/
theorem C9_erase_key_witness :
    (sample.erase_left_key 2).2 = true ∧
      ((sample.erase_left_key 2).1.erase_left_key 2).2 = false :=
  (C9_erase_key sample sample_wf 2 20).1.2.2.2 ⟨⟨2, 20⟩, by decide, by decide⟩

/-- C10: `erase_left(it)` at a stored node returns the iterator at the node that
followed it in the left order before the erase, or `end_left()` when it was the
last one; that position is a valid position of the bimap after the erase, whose
left order is the old one without the erased node.  The same holds for
`erase_right` in the right order. -/
theorem C10_erase_returns_successor (b : bimap L R) (hb : b.wf) (n : node_t L R) :
    (∀ pre post : List (node_t L R), b.left_set.root.to_list = pre ++ n :: post →
        (b.erase_left_it ⟨⟨node_ptr.elem n⟩⟩).2 = ⟨⟨head_ptr post⟩⟩ ∧
        (b.erase_left_it ⟨⟨node_ptr.elem n⟩⟩).1.valid_ptr (head_ptr post) ∧
        (b.erase_left_it ⟨⟨node_ptr.elem n⟩⟩).1.left_set.root.to_list = pre ++ post ∧
        (post = [] → (b.erase_left_it ⟨⟨node_ptr.elem n⟩⟩).2 =
          (b.erase_left_it ⟨⟨node_ptr.elem n⟩⟩).1.end_left)) ∧
      (∀ pre post : List (node_t L R), b.right_set.root.to_list = pre ++ n :: post →
        (b.erase_right_it ⟨⟨node_ptr.elem n⟩⟩).2 = ⟨⟨head_ptr post⟩⟩ ∧
        (b.erase_right_it ⟨⟨node_ptr.elem n⟩⟩).1.valid_ptr (head_ptr post) ∧
        (b.erase_right_it ⟨⟨node_ptr.elem n⟩⟩).1.right_set.root.to_list = pre ++ post ∧
        (post = [] → (b.erase_right_it ⟨⟨node_ptr.elem n⟩⟩).2 =
          (b.erase_right_it ⟨⟨node_ptr.elem n⟩⟩).1.end_right)) := by
  have hndl := ordered_nodup hb.left_cmp hb.left_ordered
  have hndr := ordered_nodup hb.right_cmp hb.right_ordered
  constructor
  · intro pre post hsplit
    have hn : n ∈ b.left_set.root.to_list := by
      rw [hsplit]
      simp
    have hret : (b.erase_left_it ⟨⟨node_ptr.elem n⟩⟩).2 = ⟨⟨head_ptr post⟩⟩ := by
      simp only [erase_left_it, base_iterator.increment]
      have := @increment_spec _ _ (b.tree true) hndl pre post n hsplit
      rw [this]
    have hlist : (b.erase_left_it ⟨⟨node_ptr.elem n⟩⟩).1.left_set.root.to_list =
        pre ++ post := by
      rw [erase_left_it_state b hn, erase_left_list hb.toordered_inv, hsplit]
      rw [hsplit] at hndl
      exact erase_middle hndl
    refine ⟨hret, ?_, hlist, ?_⟩
    · cases post with
      | nil => exact Or.inl rfl
      | cons x post =>
        refine Or.inr ⟨x, rfl, ?_⟩
        simp only [stored]
        rw [hlist]
        simp
    · intro hp
      rw [hret, hp]
      rfl
  · intro pre post hsplit
    have hn : n ∈ b.right_set.root.to_list := by
      rw [hsplit]
      simp
    have hret : (b.erase_right_it ⟨⟨node_ptr.elem n⟩⟩).2 = ⟨⟨head_ptr post⟩⟩ := by
      simp only [erase_right_it, base_iterator.increment]
      have := @increment_spec _ _ (b.tree false) hndr pre post n hsplit
      rw [this]
    have hlist : (b.erase_right_it ⟨⟨node_ptr.elem n⟩⟩).1.right_set.root.to_list =
        pre ++ post := by
      rw [erase_right_it_state b hn, erase_right_list hb.toordered_inv, hsplit]
      rw [hsplit] at hndr
      exact erase_middle hndr
    have hwf : (b.erase_right_it ⟨⟨node_ptr.elem n⟩⟩).1.wf := by
      rw [erase_right_it_state b hn]
      exact erase_wf hb ((hb.same_nodes n).mpr hn)
    refine ⟨hret, ?_, hlist, ?_⟩
    · cases post with
      | nil => exact Or.inl rfl
      | cons x post =>
        refine Or.inr ⟨x, rfl, ?_⟩
        simp only [stored]
        rw [hwf.same_nodes x, hlist]
        simp
    · intro hp
      rw [hret, hp]
      rfl

/-- Witness for C10: erasing `(2, 20)` from the sample bimap returns the iterator
at `(3, 10)`; erasing `(3, 10)`, the last node, returns `end_left()`. -/
theorem C10_erase_returns_successor_witness :
    (sample.erase_left_it ⟨⟨node_ptr.elem ⟨2, 20⟩⟩⟩).2 = ⟨⟨node_ptr.elem ⟨3, 10⟩⟩⟩ ∧
      (sample.erase_left_it ⟨⟨node_ptr.elem ⟨3, 10⟩⟩⟩).2 =
        (sample.erase_left_it ⟨⟨node_ptr.elem ⟨3, 10⟩⟩⟩).1.end_left :=
  ⟨((C10_erase_returns_successor sample sample_wf ⟨2, 20⟩).1 [⟨1, 30⟩] [⟨3, 10⟩]
      sample_left_list).1,
    ((C10_erase_returns_successor sample sample_wf ⟨3, 10⟩).1 [⟨1, 30⟩, ⟨2, 20⟩] []
      sample_left_list).2.2.2 rfl⟩

end bimap

/-! ## Iteration and bounds -/

namespace implementation

open intrusive_set_element

variable {α K : Type}

theorem head_ptr_eq_fake_iff (xs : List α) : head_ptr xs = node_ptr.fake ↔ xs = [] := by
  cases xs <;> simp [head_ptr]

theorem head_ptr_drop {xs : List α} {k : Nat} (h : k < xs.length) :
    head_ptr (xs.drop k) = node_ptr.elem xs[k] := by
  rw [List.drop_eq_getElem_cons h]
  rfl

/-- The first element of a sorted sequence that satisfies a test precedes every
other element that satisfies it. -/
theorem head_filter_spec {rel : α → α → Prop} {xs : List α} (hs : xs.Pairwise rel)
    (p : α → Bool) {a : α} (h : head_ptr (xs.filter p) = node_ptr.elem a) :
    a ∈ xs ∧ p a = true ∧ ∀ x ∈ xs, p x = true → x = a ∨ rel a x := by
  cases hf : xs.filter p with
  | nil => simp [hf, head_ptr] at h
  | cons y ys =>
    rw [hf] at h
    simp only [head_ptr, node_ptr.elem.injEq] at h
    subst h
    have hy : y ∈ xs.filter p := by simp [hf]
    have hp := hs.filter p
    rw [hf, List.pairwise_cons] at hp
    refine ⟨(List.mem_filter.mp hy).1, (List.mem_filter.mp hy).2, ?_⟩
    intro x hx hpx
    have : x ∈ xs.filter p := List.mem_filter.mpr ⟨hx, hpx⟩
    rw [hf, List.mem_cons] at this
    rcases this with h1 | h1
    · exact Or.inl h1
    · exact Or.inr (hp.1 x h1)

theorem head_filter_fake_iff (xs : List α) (p : α → Bool) :
    head_ptr (xs.filter p) = node_ptr.fake ↔ ∀ x ∈ xs, p x = false := by
  rw [head_ptr_eq_fake_iff, List.filter_eq_nil_iff]
  simp

theorem begin_eq (s : intrusive_set α K) : s.begin = ⟨head_ptr s.root.to_list⟩ := by
  simp only [intrusive_set.begin, intrusive_set.get_minimum]
  cases hr : s.root.is_null with
  | true =>
    have h1 : s.root = null := by
      cases h : s.root with
      | null => rfl
      | node _ _ _ _ => rw [h] at hr; simp [is_null] at hr
    rw [h1]
    rfl
  | false =>
    obtain ⟨ml, m, hm, mr, h1, h2⟩ := find_minimum_spec hr
    rw [h1, h2]
    rfl

/-- Repeated `operator++` from `begin()` walks down the in-order sequence. -/
theorem iterate_increment [DecidableEq α] (s : intrusive_set α K)
    (hnd : s.root.to_list.Nodup) (k : Nat) (hk : k ≤ s.root.to_list.length) :
    Nat.iterate (iterator.increment s.root) k s.begin = ⟨head_ptr (s.root.to_list.drop k)⟩ := by
  induction k with
  | zero => simpa using begin_eq s
  | succ k ih =>
    have hlt : k < s.root.to_list.length := by omega
    rw [Function.iterate_succ_apply', ih (by omega), head_ptr_drop hlt]
    have hsplit : s.root.to_list =
        s.root.to_list.take k ++ s.root.to_list[k] :: s.root.to_list.drop (k + 1) := by
      rw [← List.drop_eq_getElem_cons hlt, List.take_append_drop]
    exact increment_spec hnd hsplit

theorem head_ptr_eq_head (xs : List α) :
    head_ptr xs = (xs.head?.map node_ptr.elem).getD node_ptr.fake := by
  cases xs <;> rfl

theorem upper_bound_loop_spec {cmp : K → K → Bool} {get : α → K} (hc : strict_weak_order cmp)
    {t : intrusive_set_element α} (ht : ordered cmp get t) (bound : node_ptr α) (k : K) :
    upper_bound_loop cmp get t bound k =
      (((t.to_list.filter (fun x => cmp k (get x))).head?).map node_ptr.elem).getD bound := by
  induction t generalizing bound with
  | null => simp [upper_bound_loop]
  | node l a h r ihl ihr =>
    obtain ⟨hl, hr, hla, har, -⟩ := ordered_node.mp ht
    simp only [upper_bound_loop, to_list_node, List.filter_append, List.filter_cons]
    by_cases hka : cmp k (get a) = true
    · simp only [hka, if_true]
      rw [ihl hl]
      cases hfl : l.to_list.filter (fun x => cmp k (get x)) with
      | nil => simp
      | cons y ys => simp
    · simp only [hka]
      rw [ihr hr]
      have hfl : l.to_list.filter (fun x => cmp k (get x)) = [] := by
        rw [List.filter_eq_nil_iff]
        intro y hy hky
        exact hka (hc.trans _ _ _ hky (hla y hy))
      simp [hfl]

end implementation

namespace implementation

open intrusive_set_element

variable {α K : Type}

/-- C11: on an ordered tree `begin()` is the first node of the in-order sequence
(the node with the minimum key, `end()` when the tree is empty); applying
`operator++` `k` times reaches the `k`-th node of that sequence, which lists
every stored node exactly once in strictly increasing key order; after as many
steps as there are nodes, and not before, the iterator is `end()`. -/
theorem C11_iteration [DecidableEq α] (s : intrusive_set α K) (get : α → K)
    (hc : strict_weak_order s.cmp) (ho : ordered s.cmp get s.root) :
    s.begin = ⟨head_ptr s.root.to_list⟩ ∧
      (∀ k (hk : k < s.root.to_list.length),
        Nat.iterate (iterator.increment s.root) k s.begin =
          ⟨node_ptr.elem s.root.to_list[k]⟩) ∧
      (∀ x ∈ s.root.to_list, ∃ k, k < s.root.count ∧
        Nat.iterate (iterator.increment s.root) k s.begin = ⟨node_ptr.elem x⟩) ∧
      Nat.iterate (iterator.increment s.root) s.root.count s.begin = s.end_ ∧
      (∀ k, k < s.root.count →
        Nat.iterate (iterator.increment s.root) k s.begin ≠ s.end_) ∧
      s.root.to_list.length = s.root.count ∧
      s.root.to_list.Nodup ∧
      s.root.to_list.Pairwise (fun a b => s.cmp (get a) (get b) = true) ∧
      (∀ a, s.begin = ⟨node_ptr.elem a⟩ →
        ∀ x ∈ s.root.to_list, x = a ∨ s.cmp (get a) (get x) = true) ∧
      (s.root.is_null = true → s.begin = s.end_) := by
  have hnd := ordered_nodup hc ho
  have hlen : s.root.to_list.length = s.root.count := (count_eq_length s.root).symm
  have hstep : ∀ k (hk : k < s.root.to_list.length),
      Nat.iterate (iterator.increment s.root) k s.begin =
        ⟨node_ptr.elem s.root.to_list[k]⟩ := by
    intro k hk
    rw [iterate_increment s hnd k (by omega), head_ptr_drop hk]
  refine ⟨begin_eq s, hstep, ?_, ?_, ?_, hlen, hnd, ho, ?_, ?_⟩
  · intro x hx
    obtain ⟨k, hk, hxk⟩ := List.getElem_of_mem hx
    exact ⟨k, by omega, by rw [hstep k hk, hxk]⟩
  · rw [iterate_increment s hnd _ (by omega), ← hlen, List.drop_length]
    rfl
  · intro k hk
    rw [hstep k (by omega)]
    simp [intrusive_set.end_]
  · intro a ha x hx
    rw [begin_eq s] at ha
    simp only [iterator.mk.injEq] at ha
    cases hxs : s.root.to_list with
    | nil => simp [hxs] at hx
    | cons y ys =>
      rw [hxs] at ha hx
      simp only [head_ptr, node_ptr.elem.injEq] at ha
      subst ha
      have hp : (y :: ys).Pairwise (fun a b => s.cmp (get a) (get b) = true) := by
        rw [← hxs]
        exact ho
      rcases List.mem_cons.mp hx with h1 | h1
      · exact Or.inl h1
      · exact Or.inr ((List.pairwise_cons.mp hp).1 x h1)
  · intro hnull
    rw [begin_eq s, (is_null_iff_to_list s.root).mp hnull]
    rfl

/-- C13: on an ordered tree `upper_bound(k)` is the position of the first node in
order whose key is greater than `k`, that is of the smallest stored key greater
than `k`, and `end()` when there is none; `lower_bound(k)` is the position of the
stored key equivalent to `k` when there is one and `upper_bound(k)` otherwise,
which makes it the first position whose key is not less than `k`. -/
theorem C13_bounds [DecidableEq α] (s : intrusive_set α K) (get : α → K)
    (hc : strict_weak_order s.cmp) (ho : ordered s.cmp get s.root) (k : K) :
    s.upper_bound get k =
        ⟨head_ptr (s.root.to_list.filter (fun x => s.cmp k (get x)))⟩ ∧
      (∀ a, s.upper_bound get k = ⟨node_ptr.elem a⟩ →
        a ∈ s.root.to_list ∧ s.cmp k (get a) = true ∧
          ∀ x ∈ s.root.to_list, s.cmp k (get x) = true →
            x = a ∨ s.cmp (get a) (get x) = true) ∧
      (s.upper_bound get k = s.end_ ↔ ∀ x ∈ s.root.to_list, s.cmp k (get x) = false) ∧
      (∀ a ∈ s.root.to_list, equiv s.cmp (get a) k →
        s.lower_bound get k = ⟨node_ptr.elem a⟩) ∧
      ((∀ a ∈ s.root.to_list, ¬ equiv s.cmp (get a) k) →
        s.lower_bound get k = s.upper_bound get k) ∧
      s.lower_bound get k =
        ⟨head_ptr (s.root.to_list.filter (fun x => !s.cmp (get x) k))⟩ := by
  have hub : s.upper_bound get k =
      ⟨head_ptr (s.root.to_list.filter (fun x => s.cmp k (get x)))⟩ := by
    simp only [intrusive_set.upper_bound]
    rw [upper_bound_loop_spec hc ho, head_ptr_eq_head]
  have hlb1 : ∀ a ∈ s.root.to_list, equiv s.cmp (get a) k →
      s.lower_bound get k = ⟨node_ptr.elem a⟩ := by
    intro a ha he
    simp only [intrusive_set.lower_bound, intrusive_set.find]
    rw [find_at_complete hc ho ha he]
    simp [intrusive_set.not_null]
  have hlb2 : (∀ a ∈ s.root.to_list, ¬ equiv s.cmp (get a) k) →
      s.lower_bound get k = s.upper_bound get k := by
    intro h
    simp only [intrusive_set.lower_bound, intrusive_set.find]
    rw [find_at_absent h]
    simp [intrusive_set.not_null]
  refine ⟨hub, ?_, ?_, hlb1, hlb2, ?_⟩
  · intro a ha
    rw [hub] at ha
    simp only [iterator.mk.injEq] at ha
    exact head_filter_spec ho (fun x => s.cmp k (get x)) ha
  · rw [hub]
    simp only [intrusive_set.end_, iterator.mk.injEq]
    exact head_filter_fake_iff _ _
  · by_cases hex : ∃ a ∈ s.root.to_list, equiv s.cmp (get a) k
    · obtain ⟨a, ha, he⟩ := hex
      rw [hlb1 a ha he]
      obtain ⟨pre, post, hsplit⟩ := List.append_of_mem ha
      have hp : (pre ++ a :: post).Pairwise (fun a b => s.cmp (get a) (get b) = true) := by
        rw [← hsplit]
        exact ho
      rw [List.pairwise_append] at hp
      have hpre : pre.filter (fun x => !s.cmp (get x) k) = [] := by
        rw [List.filter_eq_nil_iff]
        intro y hy
        have h1 : s.cmp (get y) (get a) = true := hp.2.2 y hy a (by simp)
        have h2 := hc.lt_of_lt_of_equiv h1 he
        simp [h2]
      rw [hsplit, List.filter_append, hpre, List.nil_append, List.filter_cons]
      simp [he.1, head_ptr]
    · simp only [not_exists, not_and] at hex
      rw [hlb2 hex, hub]
      congr 2
      apply List.filter_congr
      intro x hx
      cases h1 : s.cmp k (get x) with
      | true => simp [hc.asymm h1]
      | false =>
        cases h2 : s.cmp (get x) k with
        | true => simp
        | false => exact absurd ⟨h2, h1⟩ (hex x hx)

end implementation

namespace bimap

open implementation intrusive_set_element

/-- Witness for C11: the left tree of the sample bimap is walked in the order
`(1, 30)`, `(2, 20)`, `(3, 10)`, `end`. -/
theorem C11_iteration_witness :
    sample.left_set.begin = ⟨node_ptr.elem ⟨1, 30⟩⟩ ∧
      Nat.iterate (iterator.increment sample.left_set.root) sample.left_set.root.count
        sample.left_set.begin = sample.left_set.end_ :=
  ⟨by
      have h := (C11_iteration sample.left_set left_getter sample_wf.left_cmp
        sample_wf.left_ordered).1
      rw [h, sample_left_list]
      rfl,
    (C11_iteration sample.left_set left_getter sample_wf.left_cmp
      sample_wf.left_ordered).2.2.2.1⟩

/-- C12 (the code at the failing input): after `insert(1, 1)` and `insert(2, 2)`
the left tree is the root `1` with the right child `2`.  `operator--` from the
iterator at `2` finds no left subtree, climbs while the node is a right child, the
same test `operator++` uses, and takes the parent of the root: it stops at
`end_left()`, not at the predecessor `1`.  So decrementing the increment of the
iterator at `1` gives `end_left()`.  From `end_left()` the decrement does reach
the maximum. -/
theorem C12_decrement_misses_predecessor :
    (insert_all (create nat_less nat_less) [(1, 1), (2, 2)]).left_set.root =
        node null ⟨1, 1⟩ 1 (node null ⟨2, 2⟩ 0 null) ∧
      (⟨⟨node_ptr.elem ⟨2, 2⟩⟩⟩ : left_iterator Nat Nat).decrement
          (insert_all (create nat_less nat_less) [(1, 1), (2, 2)]) =
        (insert_all (create nat_less nat_less) [(1, 1), (2, 2)]).end_left ∧
      (((insert_all (create nat_less nat_less) [(1, 1), (2, 2)]).find_left 1).increment
            (insert_all (create nat_less nat_less) [(1, 1), (2, 2)])).decrement
          (insert_all (create nat_less nat_less) [(1, 1), (2, 2)]) ≠
        (insert_all (create nat_less nat_less) [(1, 1), (2, 2)]).find_left 1 ∧
      (insert_all (create nat_less nat_less) [(1, 1), (2, 2)]).end_left.decrement
          (insert_all (create nat_less nat_less) [(1, 1), (2, 2)]) =
        ⟨⟨node_ptr.elem ⟨2, 2⟩⟩⟩ := by
  decide

/-- Witness for C13: in the left tree of the sample bimap `upper_bound(2)` is the
node `(3, 10)` and `lower_bound(2)` the node `(2, 20)`. -/
theorem C13_bounds_witness :
    sample.left_set.upper_bound left_getter 2 = ⟨node_ptr.elem ⟨3, 10⟩⟩ ∧
      sample.left_set.lower_bound left_getter 2 = ⟨node_ptr.elem ⟨2, 20⟩⟩ :=
  ⟨by
      have h := (C13_bounds sample.left_set left_getter sample_wf.left_cmp
        sample_wf.left_ordered 2).1
      rw [h, sample_left_list]
      decide,
    (C13_bounds sample.left_set left_getter sample_wf.left_cmp
      sample_wf.left_ordered 2).2.2.2.1 ⟨2, 20⟩ (by decide) (by decide)⟩

end bimap

/-! ## Clearing, swapping and the invariants of reachable bimaps -/

namespace bimap

open implementation intrusive_set_element

variable {L R : Type}

theorem root_null_of_to_list {α : Type} {t : intrusive_set_element α} (h : t.to_list = []) :
    t = null := by
  cases t with
  | null => rfl
  | node l a hgt r => simp at h

/-- A well-formed bimap whose left tree is empty is the empty bimap with the same
comparators. -/
theorem wf_empty_state {b : bimap L R} (hb : b.wf) (h : b.left_set.root.to_list = []) :
    b = { m_size := 0, left_set := ⟨b.left_set.cmp, null⟩,
          right_set := ⟨b.right_set.cmp, null⟩ } := by
  have hl : b.left_set.root = null := root_null_of_to_list h
  have hr : b.right_set.root = null := by
    apply root_null_of_to_list
    apply List.eq_nil_iff_forall_not_mem.mpr
    intro n hn
    have := (hb.same_nodes n).mpr hn
    rw [h] at this
    exact absurd this (List.not_mem_nil n)
  have hs : b.m_size = 0 := by
    rw [hb.size_left, hl]
    rfl
  obtain ⟨m, ⟨cl, rl⟩, ⟨cr, rr⟩⟩ := b
  simp only at hl hr hs
  subst hl hr hs
  rfl

variable [DecidableEq L] [DecidableEq R]

/-- The loop of `clear`, with any fuel that covers the number of elements, ends in
the empty bimap with the same comparators. -/
theorem clear_loop_state {b : bimap L R} (hb : b.wf) (fuel : Nat)
    (hf : b.left_set.root.count ≤ fuel) :
    erase_left_loop fuel b b.begin_left b.end_left =
      { m_size := 0, left_set := ⟨b.left_set.cmp, null⟩,
        right_set := ⟨b.right_set.cmp, null⟩ } := by
  obtain ⟨h1, h2, h3, h4⟩ := erase_left_loop_spec fuel b hb [] b.left_set.root.to_list []
    (by simp) b.begin_left b.end_left (by rw [begin_left_eq]; simp) rfl
  have h5 := h4 (by rw [← count_eq_length]; exact hf)
  have h6 := wf_empty_state h1 (by simpa using h5)
  rw [h2, h3] at h6
  exact h6

/-- C16: `clear()` ends, with any bound on the iterations of its loop that covers
the number of elements, in the same empty bimap: `size()` is `0`, `empty()` is
true, both roots are null, `begin_left()` equals `end_left()` and
`begin_right()` equals `end_right()`. -/
theorem C16_clear (b : bimap L R) (hb : b.wf) :
    b.clear.size = 0 ∧ b.clear.empty = true ∧
      b.clear.left_set.root = null ∧ b.clear.right_set.root = null ∧
      b.clear.begin_left = b.clear.end_left ∧
      b.clear.begin_right = b.clear.end_right ∧
      (∀ fuel, b.left_set.root.count ≤ fuel →
        erase_left_loop fuel b b.begin_left b.end_left = b.clear) := by
  have hc : b.clear = bimap.mk 0 ⟨b.left_set.cmp, null⟩ ⟨b.right_set.cmp, null⟩ := by
    simp only [clear, erase_left_range]
    exact clear_loop_state hb _ (Nat.le_refl _)
  refine ⟨?_, ?_, ?_, ?_, ?_, ?_, ?_⟩
  · rw [hc]
    rfl
  · rw [hc]
    rfl
  · rw [hc]
  · rw [hc]
  · rw [hc]
    rfl
  · rw [hc]
    rfl
  · intro fuel hf
    rw [hc]
    exact clear_loop_state hb fuel hf

/-- Witness for C16: clearing the sample bimap. -/
theorem C16_clear_witness :
    sample.clear.size = 0 ∧ sample.clear.empty = true ∧
      sample.clear.left_set.root = null ∧ sample.clear.right_set.root = null ∧
      sample.clear.begin_left = sample.clear.end_left ∧
      sample.clear.begin_right = sample.clear.end_right ∧
      (∀ fuel, sample.left_set.root.count ≤ fuel →
        erase_left_loop fuel sample sample.begin_left sample.end_left = sample.clear) :=
  C16_clear sample sample_wf

/-- C18 (the code at the failing input): the bimap reached by `insert(1, 1)`, ...,
`insert(6, 6)`, `erase_left(4)` satisfies the height and balance invariants in
both trees.  Erasing the leaf `(1, 1)` through its left iterator leaves the root
`2` with no left child and a right subtree of stored height `2`: `remove` runs
`up_balance(nullptr)`, so nothing is re-balanced and `difference()` is `2` at the
root of both trees.  Likewise, after `insert(1, 1)`, `insert(2, 2)`,
`insert(3, 3)`, `erase_left(1)` both invariants hold, and erasing the leaf
`(3, 3)` leaves the single node `2` with the stored height `2`. -/
theorem C18_leaf_erase_breaks_invariants :
    (heights_ok six_less_four.left_set.root = true ∧
        balanced six_less_four.left_set.root = true ∧
        depth_balanced six_less_four.left_set.root = true ∧
        heights_ok six_less_four.right_set.root = true ∧
        balanced six_less_four.right_set.root = true ∧
        depth_balanced six_less_four.right_set.root = true) ∧
      six_less_four.stored ⟨1, 1⟩ ∧
      (six_less_four.erase_left_it ⟨⟨node_ptr.elem ⟨1, 1⟩⟩⟩).1.left_set.root =
        node null ⟨2, 2⟩ 3
          (node (node null ⟨3, 3⟩ 1 null) ⟨5, 5⟩ 2 (node null ⟨6, 6⟩ 1 null)) ∧
      balanced (six_less_four.erase_left_it ⟨⟨node_ptr.elem ⟨1, 1⟩⟩⟩).1.left_set.root = false ∧
      balanced (six_less_four.erase_left_it ⟨⟨node_ptr.elem ⟨1, 1⟩⟩⟩).1.right_set.root = false ∧
      balanced (six_less_four.erase_right_it ⟨⟨node_ptr.elem ⟨1, 1⟩⟩⟩).1.left_set.root = false ∧
      depth_balanced
        (six_less_four.erase_left_it ⟨⟨node_ptr.elem ⟨1, 1⟩⟩⟩).1.left_set.root = false ∧
      (heights_ok three_less_one.left_set.root = true ∧
        balanced three_less_one.left_set.root = true ∧
        heights_ok three_less_one.right_set.root = true ∧
        balanced three_less_one.right_set.root = true) ∧
      (three_less_one.erase_left_it ⟨⟨node_ptr.elem ⟨3, 3⟩⟩⟩).1.left_set.root =
        node null ⟨2, 2⟩ 2 null ∧
      heights_ok (three_less_one.erase_left_it ⟨⟨node_ptr.elem ⟨3, 3⟩⟩⟩).1.left_set.root =
        false := by
  decide

/-- C19: in every bimap reachable from an empty one, `size()` is the number of
nodes of the left tree and of the right tree, the two trees hold exactly the same
nodes, and no two different stored pairs have equivalent left keys or equivalent
right keys. -/
theorem C19_reachable_invariants [Inhabited L] [Inhabited R] (cl : L → L → Bool)
    (cr : R → R → Bool) (hl : strict_weak_order cl) (hr : strict_weak_order cr)
    (b : bimap L R) (hreach : reachable cl cr b) :
    b.size = b.left_set.root.count ∧ b.size = b.right_set.root.count ∧
      (∀ n, n ∈ b.left_set.root.to_list ↔ n ∈ b.right_set.root.to_list) ∧
      b.left_set.root.to_list.Nodup ∧ b.right_set.root.to_list.Nodup ∧
      (∀ m n, b.stored m → b.stored n → m ≠ n → ¬ equiv cl m.left_key n.left_key) ∧
      (∀ m n, b.stored m → b.stored n → m ≠ n → ¬ equiv cr m.right_key n.right_key) := by
  obtain ⟨hb, hcl, hcr⟩ := reachable_wf hl hr hreach
  refine ⟨hb.size_left, hb.size_right, hb.same_nodes,
    ordered_nodup hb.left_cmp hb.left_ordered, ordered_nodup hb.right_cmp hb.right_ordered,
    ?_, ?_⟩
  · intro m n hm hn hne he
    rw [← hcl] at he
    exact hne (ordered_unique hb.left_cmp hb.left_ordered hm hn he)
  · intro m n hm hn hne he
    rw [← hcr] at he
    exact hne (ordered_unique hb.right_cmp hb.right_ordered ((hb.same_nodes m).mp hm)
      ((hb.same_nodes n).mp hn) he)

/-- Witness for C19: the sample bimap, built by three inserts. -/
theorem C19_reachable_invariants_witness :
    sample.size = sample.left_set.root.count ∧ sample.size = sample.right_set.root.count ∧
      (∀ n, n ∈ sample.left_set.root.to_list ↔ n ∈ sample.right_set.root.to_list) :=
  have h := C19_reachable_invariants nat_less nat_less nat_less_strict_weak_order
    nat_less_strict_weak_order sample
    (reachable.insert _ 3 10 (reachable.insert _ 2 20 (reachable.insert _ 1 30
      reachable.create)))
  ⟨h.1, h.2.1, h.2.2.1⟩

end bimap

/-! ## Copies and comparison -/

namespace bimap

open implementation intrusive_set_element

variable {L R : Type}

/-- Two strictly increasing sequences with the same elements are the same
sequence. -/
theorem ordered_list_ext {α K : Type} {cmp : K → K → Bool} {get : α → K}
    (hc : strict_weak_order cmp) {xs ys : List α}
    (hx : xs.Pairwise (fun a b => cmp (get a) (get b) = true))
    (hy : ys.Pairwise (fun a b => cmp (get a) (get b) = true))
    (h : ∀ a, a ∈ xs ↔ a ∈ ys) : xs = ys := by
  have nd : ∀ zs : List α, zs.Pairwise (fun a b => cmp (get a) (get b) = true) → zs.Nodup := by
    intro zs hz
    refine List.Pairwise.imp ?_ hz
    intro a b hab heq
    subst heq
    rw [hc.irrefl] at hab
    exact absurd hab (by decide)
  haveI : IsAntisymm α (fun a b => cmp (get a) (get b) = true) :=
    ⟨fun a b h1 h2 => by
      rw [hc.asymm h1] at h2
      exact absurd h2 (by decide)⟩
  exact List.eq_of_perm_of_sorted ((List.perm_ext_iff_of_nodup (nd xs hx) (nd ys hy)).mpr h)
    hx hy

theorem left_equals_iff (b : bimap L R) (x y : L) :
    b.left_equals x y = true ↔ equiv b.left_set.cmp x y := by
  simp [left_equals, equiv]

theorem right_equals_iff (b : bimap L R) (x y : R) :
    b.right_equals x y = true ↔ equiv b.right_set.cmp x y := by
  simp [right_equals, equiv]

variable [DecidableEq L] [DecidableEq R]

theorem insert_all_cmp (b : bimap L R) (ps : List (L × R)) :
    (insert_all b ps).left_set.cmp = b.left_set.cmp ∧
      (insert_all b ps).right_set.cmp = b.right_set.cmp := by
  induction ps generalizing b with
  | nil => exact ⟨rfl, rfl⟩
  | cons p ps ih =>
    obtain ⟨l, r⟩ := p
    simp only [insert_all]
    rw [(ih _).1, (ih _).2]
    exact insert_cmp b l r

/-- Inserting pairs that are mutually inequivalent and inequivalent to the stored
pairs, on both sides, stores all of them. -/
theorem insert_all_mem {cl : L → L → Bool} {cr : R → R → Bool} {b : bimap L R} (hb : b.wf)
    (hcl : b.left_set.cmp = cl) (hcr : b.right_set.cmp = cr) (ps : List (L × R))
    (hp : ps.Pairwise (fun p q => ¬ equiv cl p.1 q.1 ∧ ¬ equiv cr p.2 q.2))
    (hnew : ∀ p ∈ ps, ∀ n ∈ b.left_set.root.to_list,
      ¬ equiv cl n.left_key p.1 ∧ ¬ equiv cr n.right_key p.2) :
    ∀ n, n ∈ (insert_all b ps).left_set.root.to_list ↔
      n ∈ b.left_set.root.to_list ∨ (n.left_key, n.right_key) ∈ ps := by
  induction ps generalizing b with
  | nil =>
    intro n
    simp [insert_all]
  | cons p ps ih =>
    obtain ⟨l, r⟩ := p
    rw [List.pairwise_cons] at hp
    have hl : ∀ n ∈ b.left_set.root.to_list, ¬ equiv b.left_set.cmp n.left_key l := by
      intro n hn
      rw [hcl]
      exact (hnew (l, r) (by simp) n hn).1
    have hr : ∀ n ∈ b.right_set.root.to_list, ¬ equiv b.right_set.cmp n.right_key r := by
      intro n hn
      rw [hcr]
      exact (hnew (l, r) (by simp) n ((hb.same_nodes n).mpr hn)).2
    have hs := insert_accepted_state hl hr
    have hm : ∀ n, n ∈ (b.insert l r).1.left_set.root.to_list ↔
        n = ⟨l, r⟩ ∨ n ∈ b.left_set.root.to_list := by
      intro n
      rw [hs]
      exact mem_insert_at
    have hnew1 : ∀ p ∈ ps, ∀ n ∈ (b.insert l r).1.left_set.root.to_list,
        ¬ equiv cl n.left_key p.1 ∧ ¬ equiv cr n.right_key p.2 := by
      intro p hpm n hn
      rcases (hm n).mp hn with h1 | h1
      · rw [h1]
        exact hp.1 p hpm
      · exact hnew p (by simp [hpm]) n h1
    intro n
    simp only [insert_all]
    rw [ih (insert_wf hb l r) (by rw [(insert_cmp b l r).1, hcl])
      (by rw [(insert_cmp b l r).2, hcr]) hp.2 hnew1 n, hm n, List.mem_cons]
    have hn : n = ⟨l, r⟩ ↔ (n.left_key, n.right_key) = (l, r) := by
      obtain ⟨nl, nr⟩ := n
      simp
    rw [hn]
    tauto

/-- The loop of the copy constructor inserts the remaining pairs of `other` in
left order. -/
theorem copy_loop_spec (other : bimap L R) (hnd : other.left_set.root.to_list.Nodup)
    (fuel : Nat) (self : bimap L R) (pre post : List (node_t L R))
    (hlist : other.left_set.root.to_list = pre ++ post) (it : left_iterator L R)
    (hit : it.it.m_node = head_ptr post) (hf : post.length ≤ fuel) :
    copy_loop fuel self other it =
      insert_all self (post.map (fun n => (n.left_key, n.right_key))) := by
  induction post generalizing fuel self pre it with
  | nil =>
    have hend : it = other.end_left := base_iterator_ext (by rw [hit]; rfl)
    cases fuel with
    | zero => rfl
    | succ fuel =>
      simp only [copy_loop]
      rw [if_pos hend]
      rfl
  | cons x post ih =>
    cases fuel with
    | zero => simp at hf
    | succ fuel =>
      have hx : it = ⟨⟨node_ptr.elem x⟩⟩ := base_iterator_ext (by rw [hit]; rfl)
      have hxm : x ∈ (other.tree true).to_list := by
        show x ∈ other.left_set.root.to_list
        rw [hlist]
        simp
      have hinc : it.increment other = ⟨⟨head_ptr post⟩⟩ := by
        rw [hx]
        simp only [base_iterator.increment]
        have := @increment_spec _ _ (other.tree true) hnd pre post x hlist
        rw [this]
      simp only [copy_loop]
      rw [if_neg (by rw [hx]; exact elem_ne_end_left other x), hinc, hx, flip_elem other hxm]
      simp only [deref_left, deref_right, left_getter, right_getter, List.map_cons, insert_all]
      exact ih fuel _ (pre ++ [x]) (by rw [hlist]; simp) _ rfl (by simpa using hf)

theorem copy_construct_eq (dl : L → L → Bool) (dr : R → R → Bool) (other : bimap L R)
    (hnd : other.left_set.root.to_list.Nodup) :
    copy_construct dl dr other = insert_all (create dl dr) other.pairs := by
  simp only [copy_construct, pairs]
  exact copy_loop_spec other hnd _ _ [] other.left_set.root.to_list (by simp) _
    (by rw [begin_left_eq]) (by rw [count_eq_length])

theorem copy_loop_cmp (fuel : Nat) (self other : bimap L R) (it : left_iterator L R) :
    (copy_loop fuel self other it).left_set.cmp = self.left_set.cmp ∧
      (copy_loop fuel self other it).right_set.cmp = self.right_set.cmp := by
  induction fuel generalizing self it with
  | zero => exact ⟨rfl, rfl⟩
  | succ fuel ih =>
    simp only [copy_loop]
    split_ifs
    · exact ⟨rfl, rfl⟩
    · split
      · rw [(ih _ _).1, (ih _ _).2]
        exact insert_cmp _ _ _
      · exact ⟨rfl, rfl⟩

end bimap

namespace bimap

open implementation intrusive_set_element

variable {L R : Type}

/-- Two strictly increasing sequences in which every element has a partner with
an equivalent key in the other one are related position by position. -/
theorem forall2_of_partners {α K : Type} {cmp : K → K → Bool} {get : α → K}
    (hc : strict_weak_order cmp) {E : α → α → Prop}
    (hE : ∀ x y, E x y → equiv cmp (get x) (get y)) {xs ys : List α}
    (hx : xs.Pairwise (fun a b => cmp (get a) (get b) = true))
    (hy : ys.Pairwise (fun a b => cmp (get a) (get b) = true))
    (h1 : ∀ x ∈ xs, ∃ y ∈ ys, E x y) (h2 : ∀ y ∈ ys, ∃ x ∈ xs, E x y) :
    List.Forall₂ E xs ys := by
  induction xs generalizing ys with
  | nil =>
    cases ys with
    | nil => exact List.Forall₂.nil
    | cons y ys =>
      obtain ⟨x, hx0, _⟩ := h2 y (List.mem_cons_self _ _)
      simp at hx0
  | cons x xs ih =>
    cases ys with
    | nil =>
      obtain ⟨y, hy0, _⟩ := h1 x (List.mem_cons_self _ _)
      simp at hy0
    | cons y ys =>
      rw [List.pairwise_cons] at hx hy
      have hxy : E x y := by
        obtain ⟨y0, hy0, e0⟩ := h1 x (List.mem_cons_self _ _)
        obtain ⟨x0, hx0, e1⟩ := h2 y (List.mem_cons_self _ _)
        rcases List.mem_cons.mp hy0 with h | h
        · rw [h] at e0
          exact e0
        rcases List.mem_cons.mp hx0 with h' | h'
        · rw [h'] at e1
          exact e1
        have a1 : cmp (get y) (get x) = true :=
          hc.lt_of_lt_of_equiv (hy.1 y0 h) (equiv_symm (hE _ _ e0))
        have a2 : cmp (get x) (get y) = true :=
          hc.lt_of_lt_of_equiv (hx.1 x0 h') (hE _ _ e1)
        rw [hc.asymm a1] at a2
        exact absurd a2 (by decide)
      refine List.Forall₂.cons hxy (ih hx.2 hy.2 ?_ ?_)
      · intro x' hx'
        obtain ⟨y', hy', e⟩ := h1 x' (List.mem_cons_of_mem _ hx')
        rcases List.mem_cons.mp hy' with h | h
        · rw [h] at e
          have h3 := hc.equiv_trans _ _ _ (hE _ _ hxy) (equiv_symm (hE _ _ e))
          have h4 := hx.1 x' hx'
          rw [h3.1] at h4
          exact absurd h4 (by decide)
        · exact ⟨y', h, e⟩
      · intro y' hy'
        obtain ⟨x', hx', e⟩ := h2 y' (List.mem_cons_of_mem _ hy')
        rcases List.mem_cons.mp hx' with h | h
        · rw [h] at e
          have h3 := hc.equiv_trans _ _ _ (equiv_symm (hE _ _ hxy)) (hE _ _ e)
          have h4 := hy.1 y' hy'
          rw [h3.1] at h4
          exact absurd h4 (by decide)
        · exact ⟨x', h, e⟩

theorem forall2_partner_left {α : Type} {E : α → α → Prop} {xs ys : List α}
    (h : List.Forall₂ E xs ys) : ∀ x ∈ xs, ∃ y ∈ ys, E x y := by
  induction h with
  | nil => simp
  | cons hab _ ih =>
    intro x hx
    rcases List.mem_cons.mp hx with h1 | h1
    · rw [h1]
      exact ⟨_, List.mem_cons_self _ _, hab⟩
    · obtain ⟨y, hy, e⟩ := ih x h1
      exact ⟨y, List.mem_cons_of_mem _ hy, e⟩

theorem forall2_partner_right {α : Type} {E : α → α → Prop} {xs ys : List α}
    (h : List.Forall₂ E xs ys) : ∀ y ∈ ys, ∃ x ∈ xs, E x y := by
  induction h with
  | nil => simp
  | cons hab _ ih =>
    intro y hy
    rcases List.mem_cons.mp hy with h1 | h1
    · rw [h1]
      exact ⟨_, List.mem_cons_self _ _, hab⟩
    · obtain ⟨x, hx, e⟩ := ih y h1
      exact ⟨x, List.mem_cons_of_mem _ hx, e⟩

variable [DecidableEq L] [DecidableEq R]

/-- The loop of `operator==` over the remaining pairs of both bimaps: it returns
true exactly when they are equivalent position by position under the comparators
of the left operand. -/
theorem equals_loop_spec (lhs rhs : bimap L R)
    (hn1 : lhs.left_set.root.to_list.Nodup) (hn2 : rhs.left_set.root.to_list.Nodup)
    (fuel : Nat) (pre1 post1 pre2 post2 : List (node_t L R))
    (h1 : lhs.left_set.root.to_list = pre1 ++ post1)
    (h2 : rhs.left_set.root.to_list = pre2 ++ post2)
    (lit rit : left_iterator L R)
    (hl : lit.it.m_node = head_ptr post1) (hr : rit.it.m_node = head_ptr post2)
    (hlen : post1.length = post2.length) (hf : post1.length < fuel) :
    equals_loop fuel lhs rhs lit rit = true ↔
      List.Forall₂ (fun x y => equiv lhs.left_set.cmp x.left_key y.left_key ∧
        equiv lhs.right_set.cmp x.right_key y.right_key) post1 post2 := by
  induction post1 generalizing fuel pre1 pre2 post2 lit rit with
  | nil =>
    have hp2 : post2 = [] := List.length_eq_zero.mp (by simpa using hlen.symm)
    subst hp2
    have hend : lit = lhs.end_left := base_iterator_ext (by rw [hl]; rfl)
    cases fuel with
    | zero => simp at hf
    | succ fuel =>
      simp only [equals_loop]
      rw [if_pos hend]
      simp
  | cons x post1 ih =>
    cases post2 with
    | nil => simp at hlen
    | cons y post2 =>
      cases fuel with
      | zero => simp at hf
      | succ fuel =>
        have hx : lit = ⟨⟨node_ptr.elem x⟩⟩ := base_iterator_ext (by rw [hl]; rfl)
        have hy : rit = ⟨⟨node_ptr.elem y⟩⟩ := base_iterator_ext (by rw [hr]; rfl)
        have hxm : x ∈ (lhs.tree true).to_list := by
          show x ∈ lhs.left_set.root.to_list
          rw [h1]
          simp
        have hym : y ∈ (rhs.tree true).to_list := by
          show y ∈ rhs.left_set.root.to_list
          rw [h2]
          simp
        have hincl : lit.increment lhs = ⟨⟨head_ptr post1⟩⟩ := by
          rw [hx]
          simp only [base_iterator.increment]
          have := @increment_spec _ _ (lhs.tree true) hn1 pre1 post1 x h1
          rw [this]
        have hincr : rit.increment rhs = ⟨⟨head_ptr post2⟩⟩ := by
          rw [hy]
          simp only [base_iterator.increment]
          have := @increment_spec _ _ (rhs.tree true) hn2 pre2 post2 y h2
          rw [this]
        have hrec := ih fuel (pre1 ++ [x]) (pre2 ++ [y]) post2 (by rw [h1]; simp)
          (by rw [h2]; simp) ⟨⟨head_ptr post1⟩⟩ ⟨⟨head_ptr post2⟩⟩ rfl rfl
          (by simpa using hlen) (by simpa using hf)
        simp only [equals_loop]
        rw [if_neg (by rw [hx]; exact elem_ne_end_left lhs x), hincl, hincr, hx, hy,
          flip_elem lhs hxm, flip_elem rhs hym]
        simp only [deref_left, deref_right, left_getter, right_getter]
        rw [List.forall₂_cons, ← left_equals_iff, ← right_equals_iff, ← hrec]
        cases lhs.left_equals x.left_key y.left_key <;>
          cases lhs.right_equals x.right_key y.right_key <;> simp

/-- On well-formed bimaps `operator==` is true exactly when the two left-order
sequences are equivalent position by position, on both sides. -/
theorem equals_iff {a b : bimap L R} (ha : a.wf) (hb : b.wf) :
    equals a b = true ↔
      List.Forall₂ (fun x y => equiv a.left_set.cmp x.left_key y.left_key ∧
        equiv a.right_set.cmp x.right_key y.right_key)
        a.left_set.root.to_list b.left_set.root.to_list := by
  have hna := ordered_nodup ha.left_cmp ha.left_ordered
  have hnb := ordered_nodup hb.left_cmp hb.left_ordered
  have hsa : a.size = a.left_set.root.to_list.length := by
    rw [← count_eq_length]
    exact ha.size_left
  have hsb : b.size = b.left_set.root.to_list.length := by
    rw [← count_eq_length]
    exact hb.size_left
  by_cases hsz : a.size = b.size
  · simp only [equals, ne_eq, hsz, not_true_eq_false, if_false]
    exact equals_loop_spec a b hna hnb _ [] _ [] _ (by simp) (by simp) _ _
      (by rw [begin_left_eq]) (by rw [begin_left_eq]) (by rw [← hsa, ← hsb, hsz])
      (by rw [count_eq_length]; omega)
  · constructor
    · intro h
      simp [equals, hsz] at h
    · intro h
      exact absurd (by rw [hsa, hsb]; exact h.length_eq) hsz

end bimap

namespace bimap

open implementation intrusive_set_element

variable {L R : Type}

/-- Distinct elements of a strictly increasing sequence have inequivalent keys. -/
theorem ordered_inequiv {α K : Type} {cmp : K → K → Bool} {get : α → K} {xs : List α}
    (hx : xs.Pairwise (fun a b => cmp (get a) (get b) = true)) :
    ∀ a ∈ xs, ∀ b ∈ xs, a ≠ b → ¬ equiv cmp (get a) (get b) := by
  have hs : xs.Pairwise (fun a b => ¬ equiv cmp (get a) (get b)) := by
    refine List.Pairwise.imp ?_ hx
    intro a b h e
    rw [e.1] at h
    exact absurd h (by decide)
  have hsym : Symmetric (fun a b : α => ¬ equiv cmp (get a) (get b)) := by
    intro a b h e
    exact h (equiv_symm e)
  intro a ha b hb hne
  exact hs.forall hsym ha hb hne

/-- The pairs of a well-formed bimap are mutually inequivalent on both sides. -/
theorem pairs_inequiv {b : bimap L R} (hb : b.wf) :
    b.pairs.Pairwise (fun p q => ¬ equiv b.left_set.cmp p.1 q.1 ∧
      ¬ equiv b.right_set.cmp p.2 q.2) := by
  simp only [pairs]
  rw [List.pairwise_map]
  refine (ordered_nodup hb.left_cmp hb.left_ordered).pairwise_of_forall_ne ?_
  intro x hx y hy hne
  exact ⟨ordered_inequiv hb.left_ordered x hx y hy hne,
    ordered_inequiv hb.right_ordered x ((hb.same_nodes x).mp hx) y ((hb.same_nodes y).mp hy)
      hne⟩

variable [DecidableEq L] [DecidableEq R]

/-- The nodes of a bimap built from the empty one by inserting mutually
inequivalent pairs are those pairs. -/
theorem insert_all_create_mem {cl : L → L → Bool} {cr : R → R → Bool}
    (hcl : strict_weak_order cl) (hcr : strict_weak_order cr) (ps : List (L × R))
    (hp : ps.Pairwise (fun p q => ¬ equiv cl p.1 q.1 ∧ ¬ equiv cr p.2 q.2)) :
    ∀ n, n ∈ (insert_all (create cl cr) ps).left_set.root.to_list ↔
      (n.left_key, n.right_key) ∈ ps := by
  intro n
  rw [insert_all_mem (create_wf hcl hcr) rfl rfl ps hp
    (fun p _ m hm => by simp [create, to_list] at hm) n]
  simp [create, to_list]

/-- Copying a well-formed bimap whose comparators are in the default-constructed
state gives a bimap with the same trees in order, the same size and the same
pairs, which compares equal to the original. -/
theorem copy_construct_spec {dl : L → L → Bool} {dr : R → R → Bool} {b : bimap L R}
    (hb : b.wf) (hdl : b.left_set.cmp = dl) (hdr : b.right_set.cmp = dr) :
    (copy_construct dl dr b).wf ∧
      (copy_construct dl dr b).left_set.root.to_list = b.left_set.root.to_list ∧
      (copy_construct dl dr b).right_set.root.to_list = b.right_set.root.to_list ∧
      (copy_construct dl dr b).size = b.size ∧
      (copy_construct dl dr b).pairs = b.pairs ∧
      equals (copy_construct dl dr b) b = true := by
  subst hdl
  subst hdr
  have hnd := ordered_nodup hb.left_cmp hb.left_ordered
  have hc := copy_construct_eq b.left_set.cmp b.right_set.cmp b hnd
  have hwf : (copy_construct b.left_set.cmp b.right_set.cmp b).wf := by
    rw [hc]
    exact insert_all_wf (create_wf hb.left_cmp hb.right_cmp) _
  have hcmp : (copy_construct b.left_set.cmp b.right_set.cmp b).left_set.cmp = b.left_set.cmp ∧
      (copy_construct b.left_set.cmp b.right_set.cmp b).right_set.cmp = b.right_set.cmp := by
    rw [hc]
    exact insert_all_cmp _ _
  have hmem : ∀ n, n ∈ (copy_construct b.left_set.cmp b.right_set.cmp b).left_set.root.to_list ↔
      n ∈ b.left_set.root.to_list := by
    intro n
    rw [hc, insert_all_create_mem hb.left_cmp hb.right_cmp _ (pairs_inequiv hb) n]
    simp only [pairs, List.mem_map, Prod.mk.injEq]
    constructor
    · rintro ⟨m, hm, h1, h2⟩
      obtain ⟨ml, mr⟩ := m
      obtain ⟨nl, nr⟩ := n
      simp only at h1 h2
      subst h1
      subst h2
      exact hm
    · intro h
      exact ⟨n, h, rfl, rfl⟩
  have hleft : (copy_construct b.left_set.cmp b.right_set.cmp b).left_set.root.to_list =
      b.left_set.root.to_list := by
    refine ordered_list_ext hb.left_cmp ?_ hb.left_ordered hmem
    have := hwf.left_ordered
    rw [hcmp.1] at this
    exact this
  have hright : (copy_construct b.left_set.cmp b.right_set.cmp b).right_set.root.to_list =
      b.right_set.root.to_list := by
    refine ordered_list_ext hb.right_cmp ?_ hb.right_ordered ?_
    · have := hwf.right_ordered
      rw [hcmp.2] at this
      exact this
    · intro n
      rw [← hwf.same_nodes n, hmem n, hb.same_nodes n]
  refine ⟨hwf, hleft, hright, ?_, ?_, ?_⟩
  · show (copy_construct b.left_set.cmp b.right_set.cmp b).m_size = b.m_size
    rw [hwf.size_left, hb.size_left, count_eq_length, count_eq_length, hleft]
  · simp only [pairs, hleft]
  · rw [equals_iff hwf hb, hleft, List.forall₂_same]
    intro x _
    rw [hcmp.1, hcmp.2]
    exact ⟨hb.left_cmp.equiv_refl _, hb.right_cmp.equiv_refl _⟩

/-- The comparators of a copy are the default-constructed ones, whatever the
comparators of the original. -/
theorem copy_construct_cmp (dl : L → L → Bool) (dr : R → R → Bool) (b : bimap L R) :
    (copy_construct dl dr b).left_set.cmp = dl ∧
      (copy_construct dl dr b).right_set.cmp = dr :=
  copy_loop_cmp _ _ _ _

/-- Copy assignment keeps the comparators of the assigned bimap and takes the
trees and the size of a copy of the other one. -/
theorem copy_assign_state (dl : L → L → Bool) (dr : R → R → Bool) (self other : bimap L R) :
    (copy_assign dl dr self other false).left_set.cmp = self.left_set.cmp ∧
      (copy_assign dl dr self other false).right_set.cmp = self.right_set.cmp ∧
      (copy_assign dl dr self other false).left_set.root =
        (copy_construct dl dr other).left_set.root ∧
      (copy_assign dl dr self other false).right_set.root =
        (copy_construct dl dr other).right_set.root ∧
      (copy_assign dl dr self other false).size = (copy_construct dl dr other).size :=
  ⟨rfl, rfl, rfl, rfl, rfl⟩

/-- C14: a copy of a bimap built with non-default comparators does not compare
equal to the original.  With `std::greater` on both sides the original holds its
pairs in the order `(2, 2), (1, 1)`; the copy, whose comparators are the
default-constructed `std::less`, holds them in the order `(1, 1), (2, 2)`, and
`operator==` returns false in both directions although the sizes agree. -/
theorem C14_copy_not_equal_under_custom_comparators :
    descending.pairs = [(2, 2), (1, 1)] ∧
      (copy_construct nat_less nat_less descending).pairs = [(1, 1), (2, 2)] ∧
      (copy_construct nat_less nat_less descending).size = descending.size ∧
      equals (copy_construct nat_less nat_less descending) descending = false ∧
      equals descending (copy_construct nat_less nat_less descending) = false := by
  decide

/-- C15: the comparators of the original are not carried over by a copy.  The
bimap `descending` orders both sides with `std::greater`; its copy compares with
the default-constructed `std::less` and orders its trees by it.  A bimap with
`std::greater` comparators that is copy-assigned from `descending` keeps its own
comparator objects but receives trees ordered by `std::less`, so `find_left(1)`
and `find_right(1)` miss the stored pair `(1, 1)`. -/
theorem C15_copy_drops_comparators :
    descending.left_set.cmp 2 1 = true ∧ descending.right_set.cmp 2 1 = true ∧
      (copy_construct nat_less nat_less descending).left_set.cmp 2 1 = false ∧
      (copy_construct nat_less nat_less descending).right_set.cmp 2 1 = false ∧
      descending.left_set.root.to_list = [⟨2, 2⟩, ⟨1, 1⟩] ∧
      (copy_construct nat_less nat_less descending).left_set.root.to_list =
        [⟨1, 1⟩, ⟨2, 2⟩] ∧
      (copy_assign nat_less nat_less (create nat_greater nat_greater) descending
        false).left_set.root.to_list = [⟨1, 1⟩, ⟨2, 2⟩] ∧
      (copy_assign nat_less nat_less (create nat_greater nat_greater) descending
        false).find_left 1 =
        (copy_assign nat_less nat_less (create nat_greater nat_greater) descending
          false).end_left ∧
      (copy_assign nat_less nat_less (create nat_greater nat_greater) descending
        false).find_right 1 =
        (copy_assign nat_less nat_less (create nat_greater nat_greater) descending
          false).end_right ∧
      descending.find_left 1 ≠ descending.end_left := by
  decide

/-- C20: for two lists of pairs, each with mutually inequivalent left keys and
mutually inequivalent right keys, the bimaps built from the empty bimap (same
comparators) by inserting them in list order compare equal under `operator==`
exactly when every pair of either list has a pair of the other list equivalent
to it on both sides; in particular two insertion orders of the same pairs always
give equal bimaps, and `operator!=` is the negation. -/
theorem C20_equality_ignores_insertion_order {cl : L → L → Bool} {cr : R → R → Bool}
    (hcl : strict_weak_order cl) (hcr : strict_weak_order cr) (ps qs : List (L × R))
    (hp : ps.Pairwise (fun p q => ¬ equiv cl p.1 q.1 ∧ ¬ equiv cr p.2 q.2))
    (hq : qs.Pairwise (fun p q => ¬ equiv cl p.1 q.1 ∧ ¬ equiv cr p.2 q.2)) :
    (equals (insert_all (create cl cr) ps) (insert_all (create cl cr) qs) = true ↔
      (∀ p ∈ ps, ∃ q ∈ qs, equiv cl p.1 q.1 ∧ equiv cr p.2 q.2) ∧
        (∀ q ∈ qs, ∃ p ∈ ps, equiv cl p.1 q.1 ∧ equiv cr p.2 q.2)) ∧
      (qs.Perm ps →
        equals (insert_all (create cl cr) ps) (insert_all (create cl cr) qs) = true) ∧
      not_equals (insert_all (create cl cr) ps) (insert_all (create cl cr) qs) =
        !equals (insert_all (create cl cr) ps) (insert_all (create cl cr) qs) := by
  have hwa : (insert_all (create cl cr) ps).wf := insert_all_wf (create_wf hcl hcr) ps
  have hwb : (insert_all (create cl cr) qs).wf := insert_all_wf (create_wf hcl hcr) qs
  have hca : (insert_all (create cl cr) ps).left_set.cmp = cl ∧
      (insert_all (create cl cr) ps).right_set.cmp = cr := insert_all_cmp _ ps
  have hcb : (insert_all (create cl cr) qs).left_set.cmp = cl ∧
      (insert_all (create cl cr) qs).right_set.cmp = cr := insert_all_cmp _ qs
  have hma := insert_all_create_mem hcl hcr ps hp
  have hmb := insert_all_create_mem hcl hcr qs hq
  have hoa := hwa.left_ordered
  have hob := hwb.left_ordered
  rw [hca.1] at hoa
  rw [hcb.1] at hob
  have key : equals (insert_all (create cl cr) ps) (insert_all (create cl cr) qs) = true ↔
      (∀ p ∈ ps, ∃ q ∈ qs, equiv cl p.1 q.1 ∧ equiv cr p.2 q.2) ∧
        (∀ q ∈ qs, ∃ p ∈ ps, equiv cl p.1 q.1 ∧ equiv cr p.2 q.2) := by
    rw [equals_iff hwa hwb, hca.1, hca.2]
    constructor
    · intro h
      constructor
      · intro p hpm
        obtain ⟨y, hy, e⟩ := forall2_partner_left h ⟨p.1, p.2⟩ ((hma _).mpr hpm)
        exact ⟨(y.left_key, y.right_key), (hmb y).mp hy, e⟩
      · intro q hqm
        obtain ⟨x, hx, e⟩ := forall2_partner_right h ⟨q.1, q.2⟩ ((hmb _).mpr hqm)
        exact ⟨(x.left_key, x.right_key), (hma x).mp hx, e⟩
    · rintro ⟨h1, h2⟩
      refine forall2_of_partners hcl (fun _ _ e => e.1) hoa hob ?_ ?_
      · intro x hx
        obtain ⟨q, hqm, e⟩ := h1 _ ((hma x).mp hx)
        exact ⟨⟨q.1, q.2⟩, (hmb _).mpr hqm, e⟩
      · intro y hy
        obtain ⟨p, hpm, e⟩ := h2 _ ((hmb y).mp hy)
        exact ⟨⟨p.1, p.2⟩, (hma _).mpr hpm, e⟩
  refine ⟨key, fun hperm => key.mpr ⟨?_, ?_⟩, rfl⟩
  · intro p hpm
    exact ⟨p, hperm.mem_iff.mpr hpm, hcl.equiv_refl _, hcr.equiv_refl _⟩
  · intro q hqm
    exact ⟨q, hperm.mem_iff.mp hqm, hcl.equiv_refl _, hcr.equiv_refl _⟩

/-- Witness for C20: the pairs `(1, 30), (2, 20), (3, 10)` inserted in two orders,
and compared with the bimap that holds `(1, 30), (2, 20)` only. -/
theorem C20_equality_ignores_insertion_order_witness :
    equals (insert_all (create nat_less nat_less) [(1, 30), (2, 20), (3, 10)])
        (insert_all (create nat_less nat_less) [(3, 10), (1, 30), (2, 20)]) = true ∧
      equals sample (insert_all (create nat_less nat_less) [(1, 30), (2, 20)]) = false :=
  ⟨(C20_equality_ignores_insertion_order nat_less_strict_weak_order
      nat_less_strict_weak_order [(1, 30), (2, 20), (3, 10)] [(3, 10), (1, 30), (2, 20)]
      (by decide) (by decide)).2.1 (by decide),
    by decide⟩

end bimap

/-! ## Swap -/

namespace implementation

namespace linked_set

variable {α K : Type}

theorem swap_set (s other : linked_set α K) :
    (s.swap other).1.set = (s.set.swap other.set).1 ∧
      (s.swap other).2.set = (s.set.swap other.set).2 ∧
      (s.swap other).1.fake = s.fake ∧ (s.swap other).2.fake = other.fake :=
  ⟨rfl, rfl, rfl, rfl⟩

/-- After `swap` a root hangs below the sentinel of the set it is now in,
whatever its `parent` field was before. -/
theorem swap_root_parent (s other : linked_set α K) :
    (other.set.root.is_null = false →
        (s.swap other).1.root_parent = parent_ptr.fake s.fake) ∧
      (s.set.root.is_null = false →
        (s.swap other).2.root_parent = parent_ptr.fake other.fake) := by
  constructor
  · intro h
    simp [swap, set_left, h]
  · intro h
    simp [swap, set_left, h]

theorem swap_linked (s other : linked_set α K) :
    (s.swap other).1.linked ∧ (s.swap other).2.linked :=
  ⟨fun h => (swap_root_parent s other).1 h, fun h => (swap_root_parent s other).2 h⟩

theorem swap_swap (s other : linked_set α K) (hs : s.linked) (ho : other.linked) :
    (s.swap other).1.swap (s.swap other).2 = (s, other) := by
  obtain ⟨⟨sc, sr⟩, sf, sp⟩ := s
  obtain ⟨⟨oc, or⟩, of, op⟩ := other
  simp only [linked] at hs ho
  cases hsn : sr.is_null <;> cases hon : or.is_null <;>
    simp [swap, set_left, hsn, hon] <;> simp_all

end linked_set

end implementation

namespace bimap

open implementation intrusive_set_element

/-- C8: a bimap reached by the public operations in which `find_left(k).flip()`
is not `find_right(at_left(k))` for a present key.  The bimap `g` has both
comparators in the state `std::greater` and took over, by `g.swap(a)`, the trees
of a bimap `a` ordered by `std::less` with the pairs `(1, 20), (2, 10), (3, 30),
(4, 40)`.  The left tree has the node `(2, 10)` at its root, so `find_left(2)` is
at that node, `at_left(2)` is `10` and `find_left(2).flip()` is the same node in
the right tree; `find_right(10)` descends from the root `20` to the right and
returns `end_right()`. -/
theorem C8_find_flip_fails_after_swap :
    swapped_into_greater.find_left 2 = ⟨⟨node_ptr.elem ⟨2, 10⟩⟩⟩ ∧
      swapped_into_greater.at_left 2 = Except.ok 10 ∧
      (swapped_into_greater.find_left 2).flip swapped_into_greater =
        ⟨⟨node_ptr.elem ⟨2, 10⟩⟩⟩ ∧
      swapped_into_greater.find_right 10 = swapped_into_greater.end_right ∧
      (swapped_into_greater.find_left 2).flip swapped_into_greater ≠
        swapped_into_greater.find_right 10 ∧
      swapped_into_greater.left_set.root.to_list = [⟨1, 20⟩, ⟨2, 10⟩, ⟨3, 30⟩, ⟨4, 40⟩] ∧
      swapped_into_greater.right_set.root.to_list =
        [⟨2, 10⟩, ⟨1, 20⟩, ⟨3, 30⟩, ⟨4, 40⟩] ∧
      swapped_into_greater.left_set.cmp 2 1 = true ∧
      swapped_into_greater.right_set.cmp 20 10 = true :=
  ⟨by decide, rfl, by decide, by decide, by decide, by decide, by decide, by decide,
    by decide⟩

end bimap

namespace linked_bimap

open implementation intrusive_set_element

variable {L R : Type}

/-- C17: `a.swap(b)` on two bimap objects.  The sizes, both comparators apart, the
two trees are exchanged node for node: `a` holds the size, the roots and so the
left-order and right-order sequences that `b` had, and `b` those of `a`; this is
source `swap` of the bimaps they hold.  Each object keeps its sentinel, and a
non-null root has, after the call, the sentinel of its new owner as `parent`.
Swapping again restores both bimaps, and restores both objects entirely when
their roots were linked to their own sentinels before. -/
theorem C17_swap (a b : linked_bimap L R) :
    ((a.swap b).1.state = (a.state.swap b.state).1 ∧
        (a.swap b).2.state = (a.state.swap b.state).2) ∧
      ((a.swap b).1.state.size = b.state.size ∧ (a.swap b).2.state.size = a.state.size) ∧
      ((a.swap b).1.state.left_set.root = b.state.left_set.root ∧
        (a.swap b).1.state.right_set.root = b.state.right_set.root ∧
        (a.swap b).2.state.left_set.root = a.state.left_set.root ∧
        (a.swap b).2.state.right_set.root = a.state.right_set.root) ∧
      ((a.swap b).1.state.left_set.root.to_list = b.state.left_set.root.to_list ∧
        (a.swap b).1.state.right_set.root.to_list = b.state.right_set.root.to_list ∧
        (a.swap b).2.state.left_set.root.to_list = a.state.left_set.root.to_list ∧
        (a.swap b).2.state.right_set.root.to_list = a.state.right_set.root.to_list) ∧
      ((a.swap b).1.left_set.fake = a.left_set.fake ∧
        (a.swap b).1.right_set.fake = a.right_set.fake ∧
        (a.swap b).2.left_set.fake = b.left_set.fake ∧
        (a.swap b).2.right_set.fake = b.right_set.fake) ∧
      ((b.left_set.set.root.is_null = false →
          (a.swap b).1.left_set.root_parent = parent_ptr.fake a.left_set.fake) ∧
        (b.right_set.set.root.is_null = false →
          (a.swap b).1.right_set.root_parent = parent_ptr.fake a.right_set.fake) ∧
        (a.left_set.set.root.is_null = false →
          (a.swap b).2.left_set.root_parent = parent_ptr.fake b.left_set.fake) ∧
        (a.right_set.set.root.is_null = false →
          (a.swap b).2.right_set.root_parent = parent_ptr.fake b.right_set.fake)) ∧
      ((a.swap b).1.linked ∧ (a.swap b).2.linked) ∧
      (((a.swap b).1.swap (a.swap b).2).1.state = a.state ∧
        ((a.swap b).1.swap (a.swap b).2).2.state = b.state) ∧
      (a.linked → b.linked → (a.swap b).1.swap (a.swap b).2 = (a, b)) := by
  refine ⟨⟨rfl, rfl⟩, ⟨rfl, rfl⟩, ⟨rfl, rfl, rfl, rfl⟩, ⟨rfl, rfl, rfl, rfl⟩,
    ⟨rfl, rfl, rfl, rfl⟩,
    ⟨(linked_set.swap_root_parent a.left_set b.left_set).1,
      (linked_set.swap_root_parent a.right_set b.right_set).1,
      (linked_set.swap_root_parent a.left_set b.left_set).2,
      (linked_set.swap_root_parent a.right_set b.right_set).2⟩,
    ⟨⟨(linked_set.swap_linked a.left_set b.left_set).1,
        (linked_set.swap_linked a.right_set b.right_set).1⟩,
      ⟨(linked_set.swap_linked a.left_set b.left_set).2,
        (linked_set.swap_linked a.right_set b.right_set).2⟩⟩,
    ⟨rfl, rfl⟩, ?_⟩
  intro ha hb
  have hl := linked_set.swap_swap a.left_set b.left_set ha.1 hb.1
  have hr := linked_set.swap_swap a.right_set b.right_set ha.2 hb.2
  obtain ⟨am, al, ar⟩ := a
  obtain ⟨bm, bl, br⟩ := b
  simp only [swap] at hl hr ⊢
  simp only [Prod.mk.injEq, linked_bimap.mk.injEq, true_and]
  exact ⟨⟨congrArg Prod.fst hl, congrArg Prod.fst hr⟩,
    ⟨congrArg Prod.snd hl, congrArg Prod.snd hr⟩⟩

/-- Witness for C17: the sample bimap in an object at address `100` swapped with
the bimap `descending` in an object at address `200`.  The root of `descending`
had the sentinel at `200` as parent and has the one at `100` afterwards. -/
theorem C17_swap_witness :
    (place 200 bimap.descending).left_set.root_parent = parent_ptr.fake 200 ∧
      ((place 100 bimap.sample).swap (place 200 bimap.descending)).1.left_set.root_parent =
        parent_ptr.fake 100 ∧
      ((place 100 bimap.sample).swap (place 200 bimap.descending)).2.right_set.root_parent =
        parent_ptr.fake 200 ∧
      ((place 100 bimap.sample).swap (place 200 bimap.descending)).1.state.left_set.root.to_list =
        bimap.descending.left_set.root.to_list ∧
      ((place 100 bimap.sample).swap (place 200 bimap.descending)).1.swap
          ((place 100 bimap.sample).swap (place 200 bimap.descending)).2 =
        (place 100 bimap.sample, place 200 bimap.descending) :=
  have h := C17_swap (place 100 bimap.sample) (place 200 bimap.descending)
  ⟨rfl, h.2.2.2.2.2.1.1 (by decide), h.2.2.2.2.2.1.2.2.2 (by decide), h.2.2.2.1.1,
    h.2.2.2.2.2.2.2.2 ⟨fun _ => rfl, fun _ => rfl⟩ ⟨fun _ => rfl, fun _ => rfl⟩⟩

end linked_bimap
